import Mathlib

/-! OS-Projekt: the parallel odd-even sort and the worker registry.

A shallow embedding of

* `backend/algorithms/oddevensort/index.js` and its `utils.js`
  (`splitIntoChunks`, `trySwapNeighbor`, `oddEvenSortParallel`,
  `insertionSort`, `mergeArrays`), and
* the membership part of the two servers, `backend/server.js` (workers kept
  in a `Map`) and `WebsiteFinal/backend/server.js` (workers kept in a plain
  object literal).

Conventions of the embedding.

* A JavaScript array of integers is a `List Int`; in-place mutation becomes
  explicit state passing (the function returns the updated array).  The
  numbers are the mathematical integers: the IEEE rounding of values beyond
  `2^53` is not modelled.
* Reading an array out of range yields `undefined` in JavaScript; this is the
  `none` of `arr[i]?`, and every comparison with `undefined` is false.
* Loops whose trip count is known on entry are folds or recursions over that
  count; the `do … while` of the engine, whose trip count is not known on
  entry, takes a fuel argument and returns `none` when the fuel runs out.
* Worker ids, names and statuses are strings; a missing request field is
  `none`.  Clock readings (`new Date()`) are arguments of the handlers.
-/

namespace OddEvenSort

/-! ## utils.js -/

/-- The `while (j >= start && arr[j] > key)` loop of `insertionSort`, followed
by the store `arr[j + 1] = key`.  The first explicit argument is `j + 1`, the
index of the free slot, so that `0` stands for `j = -1`. -/
def insertionSortInner (start : Nat) (key : Int) : Nat → List Int → List Int
  | 0, arr => arr.set 0 key
  | j + 1, arr =>
    match arr[j]? with
    | some aj =>
      if start ≤ j ∧ aj > key then
        insertionSortInner start key j (arr.set (j + 1) aj)
      else arr.set (j + 1) key
    | none => arr.set (j + 1) key

/-- One iteration of the outer `for` loop of `insertionSort`:
`key = arr[i]; j = i - 1; …`.  An index beyond the array (where JavaScript
would read `undefined`) is outside the domain of the model and leaves the
array alone; the callers always pass `end = arr.length`. -/
def insertionSortStep (start : Nat) (arr : List Int) (i : Nat) : List Int :=
  match arr[i]? with
  | some key => insertionSortInner start key i arr
  | none => arr

/-- The function `insertionSort(arr, start, end)`: the loop
`for (i = start + 1; i < end; i++)`. -/
def insertionSort (arr : List Int) (start stop : Nat) : List Int :=
  (List.range' (start + 1) (stop - (start + 1))).foldl (insertionSortStep start) arr

/-- The function `mergeArrays(arrays)`: `arrays.flat()` followed by the
built-in `sort((a, b) => a - b)`, a stable sort by the numeric order. -/
def mergeArrays (arrays : List (List Int)) : List Int :=
  arrays.flatten.insertionSort (· ≤ ·)

/-! ## index.js -/

/-- The records `{ chunk, offset }` produced by `splitIntoChunks`. -/
structure Chunk where
  chunk : List Int
  offset : Nat
deriving DecidableEq, Repr

/-- The `for (let i = 0; i < numWorkers; i++)` loop of `splitIntoChunks`; the
first explicit argument counts the iterations that remain, the result is the
list of records pushed from iteration `i` on. -/
def splitLoop (fullArray : List Int) (baseSize remainder : Nat) :
    Nat → Nat → Nat → List Chunk
  | 0, _, _ => []
  | k + 1, i, cursor =>
    let extra := if i < remainder then 1 else 0
    let size := baseSize + extra
    let slice := (fullArray.drop cursor).take size
    { chunk := slice, offset := cursor } ::
      splitLoop fullArray baseSize remainder k (i + 1) (cursor + size)

/-- The function `splitIntoChunks(fullArray, numWorkers)` for an integer
`numWorkers`.  For `numWorkers ≤ 0` the loop body never runs, so the values
of `baseSize` and `remainder` (an infinity or `NaN` in JavaScript) are never
used. -/
def splitIntoChunks (fullArray : List Int) (numWorkers : Int) : List Chunk :=
  let len := fullArray.length
  let baseSize := len / numWorkers.toNat
  let remainder := len % numWorkers.toNat
  splitLoop fullArray baseSize remainder numWorkers.toNat 0 0

/-- The function `trySwapNeighbor(chunkA, chunkB)`; it returns the two arrays
after the call and the boolean result.  With an empty `chunkA` or `chunkB`
one side of `aLast > bFirst` is `undefined` and the test is false. -/
def trySwapNeighbor (chunkA chunkB : List Int) : List Int × List Int × Bool :=
  match chunkA[chunkA.length - 1]?, chunkB[0]? with
  | some aLast, some bFirst =>
    if aLast > bFirst then
      (insertionSort (chunkA.set (chunkA.length - 1) bFirst) 0 chunkA.length,
       insertionSort (chunkB.set 0 aLast) 0 chunkB.length, true)
    else (chunkA, chunkB, false)
  | _, _ => (chunkA, chunkB, false)

/-- The log line of a swap, as in
`Round $round Odd Phase: Worker $w ↔ Worker $(w + 1) swapped.` -/
def swapLine (phase : String) (round w : Nat) : String :=
  "Round " ++ toString round ++ " " ++ phase ++ " Phase: Worker " ++ toString w ++
    " ↔ Worker " ++ toString (w + 1) ++ " swapped."

/-- One sub-phase of a round: `for (let w = w0; w + 1 < chunks.length; w += 2)`.
The state is the list of chunk arrays, the flag `swappedAny` and the lines
emitted so far.  The first explicit argument bounds the number of iterations;
`chunks.length` is always enough (`phaseLoop_fuel`). -/
def phaseLoop (phase : String) (round : Nat) :
    Nat → Nat → List (List Int) → Bool → List String →
      List (List Int) × Bool × List String
  | 0, _, chunks, swappedAny, log => (chunks, swappedAny, log)
  | fuel + 1, w, chunks, swappedAny, log =>
    if h : w + 1 < chunks.length then
      let r := trySwapNeighbor chunks[w] chunks[w + 1]
      phaseLoop phase round fuel (w + 2) ((chunks.set w r.1).set (w + 1) r.2.1)
        (swappedAny || r.2.2) (if r.2.2 then log ++ [swapLine phase round w] else log)
    else (chunks, swappedAny, log)

/-- One pass of the body of the `do … while`: the odd sub-phase from `w = 1`,
then the even sub-phase from `w = 0`, then the summary line. -/
def roundBody (chunks : List (List Int)) (round : Nat) (log : List String) :
    List (List Int) × Bool × List String :=
  let odd := phaseLoop "Odd" round chunks.length 1 chunks false log
  let even := phaseLoop "Even" round odd.1.length 0 odd.1 odd.2.1 odd.2.2
  (even.1, even.2.1,
    even.2.2 ++ ["Round " ++ toString round ++ " completed. Swapped " ++
      toString even.2.1 ++ "."])

/-- The `do … while (swappedAny)` loop: the result holds the chunk arrays at
the exit, the value of `round` at the exit and the lines emitted. -/
def roundLoop : Nat → List (List Int) → Nat → List String →
    Option (List (List Int) × Nat × List String)
  | 0, _, _, _ => none
  | fuel + 1, chunks, round, log =>
    let r := roundBody chunks round log
    if r.2.1 then roundLoop fuel r.1 (round + 1) r.2.2
    else some (r.1, round + 1, r.2.2)

/-- The line emitted after the local sort of chunk `i`. -/
def localSortLine (i : Nat) (chunk : List Int) : String :=
  "Worker " ++ toString i ++ " locally sorted its chunk: [" ++
    String.intercalate ", " (chunk.map toString) ++ "]"

/-- What a call of `oddEvenSortParallel` leaves behind: the chunk arrays
(they are mutated in place), the number of rounds, the returned array and the
`log` lines emitted on `io`. -/
structure SortRun where
  chunks : List (List Int)
  rounds : Nat
  sorted : List Int
  log : List String
deriving DecidableEq, Repr

/-- The function `oddEvenSortParallel(chunks, io, '')`.  The engine reads and
writes only the `chunk` arrays of the records. -/
def oddEvenSortParallel (fuel : Nat) (chunks : List Chunk) : Option SortRun :=
  let arrays := (chunks.map (·.chunk)).map (fun c => insertionSort c 0 c.length)
  let log0 := arrays.enum.map (fun p => localSortLine p.1 p.2)
  match roundLoop fuel arrays 0 log0 with
  | none => none
  | some (final, round, log) =>
    let sorted := mergeArrays final
    some { chunks := final, rounds := round, sorted := sorted,
           log := log ++ ["All rounds done. Final merged array length = " ++
             toString sorted.length ++ "."] }

end OddEvenSort

/-! ## Measures used in the termination argument -/

namespace OddEvenSort

/-- The sum over the chunks of `(i + position) * (sum of the chunk)`: moving a
larger value to a later chunk in exchange for a smaller one raises it. -/
def weightedSum : Nat → List (List Int) → Int
  | _, [] => 0
  | i, c :: cs => (i : Int) * c.sum + weightedSum (i + 1) cs

/-- The sum of the absolute values of all elements of all chunks. -/
def absTotal (chunks : List (List Int)) : Int :=
  (chunks.flatten.map (fun x => |x|)).sum

/-- A number of rounds that the loop cannot exceed from `chunks` on. -/
def roundBound (chunks : List (List Int)) : Nat :=
  ((chunks.length : Int) * absTotal chunks - weightedSum 0 chunks).toNat

/-- The loop state after `n` passes of the body, the loop test left aside. -/
def afterRounds (chunks : List (List Int)) (round : Nat) (log : List String) :
    Nat → List (List Int) × Nat × List String
  | 0 => (chunks, round, log)
  | n + 1 =>
    let s := afterRounds chunks round log n
    let r := roundBody s.1 s.2.1 s.2.2
    (r.1, s.2.1 + 1, r.2.2)

/-- The value of `swappedAny` at the end of pass number `n` (from `0`). -/
def swappedIn (chunks : List (List Int)) (round : Nat) (log : List String) (n : Nat) : Bool :=
  let s := afterRounds chunks round log n
  (roundBody s.1 s.2.1 s.2.2).2.1

end OddEvenSort

namespace OddEvenSort

/-- The size the partition contract gives to chunk `i`: the base size, plus
one for the first `remainder` chunks. -/
def sizeAt (baseSize remainder i : Nat) : Nat :=
  baseSize + (if i < remainder then 1 else 0)

/-- The sum of the sizes `sizeAt` of the chunks before chunk `i`. -/
def offsetAt (baseSize remainder i : Nat) : Nat :=
  i * baseSize + min i remainder

end OddEvenSort

/-! ## The servers: what both share -/

namespace Server

/-- The record `{ name, status, createdAt }` kept for a worker. -/
structure WorkerInfo where
  name : String
  status : String
  createdAt : Nat
deriving DecidableEq, Repr

/-- The events sent to every observer with `io.emit`. -/
inductive Event where
  | logUpdate (entry : String)
  | workerAdded (id name status : String) (createdAt : Nat) (coordinatorId : Option String)
  | workerUpdated (id status : String)
  | workerRemoved (id : String) (coordinatorId : Option String)
  | coordinatorSwitched (newCoordinatorId : String) (oldCoordinatorId : Option String)
  | assignChunk (workerId : String) (chunk : List Int) (offset : Nat)
  | engineLog (line : String)
  | sortComplete (sortedArray : List Int)
  | sortError (message : String)
deriving DecidableEq, Repr

/-- The answers of the HTTP handlers: `ok` is `200` with
`success: true, coordinatorId`, `started` is `200` with `success: true, message`,
`error` carries the status code and the `error` text, and `unhandled` stands
for a handler that threw before answering. -/
inductive Response where
  | ok (coordinatorId : Option String)
  | started (message : String)
  | error (code : Nat) (message : String)
  | unhandled
deriving DecidableEq, Repr

/-- The value of `req.body.arrayLength`: absent, something that is not an
integer number, or an integer. -/
inductive ArrayLength where
  | missing
  | notInteger
  | integer (n : Int)
deriving DecidableEq, Repr

/-- JavaScript truthiness of a value that is a string, `null` or `undefined`. -/
def truthy : Option String → Bool
  | some v => decide (v ≠ "")
  | none => false

/-- How a template literal prints a string or `null`. -/
def render : Option String → String
  | some v => v
  | none => "null"

/-- The array produced by `Array.from` over `arrayLength` draws of
`Math.floor(Math.random() * 1000)`; `rand j` stands for draw number `j`. -/
def randomArray (rand : Nat → Nat) (arrayLength : Nat) : List Int :=
  (List.range arrayLength).map (fun j => ((rand j % 1000 : Nat) : Int))

/-- How `join(', ')` prints an array of integers. -/
def joinArray (xs : List Int) : String :=
  String.intercalate ", " (xs.map toString)

/-- The message of the `TypeError` raised by `x.status = v` when `x` is
`undefined`. -/
def typeErrorMessage : String :=
  "Cannot set properties of undefined (setting 'status')"

end Server

/-! ## `backend/server.js`: the registry kept in a `Map` -/

namespace Backend

open Server OddEvenSort

/-- The mutable state of the module: the `Map` of workers in insertion order,
`currentCoordinatorId`, `logBuffer`, and the events broadcast so far. -/
structure State where
  workers : List (String × WorkerInfo)
  currentCoordinatorId : Option String
  logBuffer : List String
  emitted : List Event
deriving DecidableEq, Repr

/-- The state at start-up. -/
def State.empty : State :=
  { workers := [], currentCoordinatorId := none, logBuffer := [], emitted := [] }

/-- The call `workers.has(id)`. -/
def has (workers : List (String × WorkerInfo)) (id : String) : Bool :=
  (workers.lookup id).isSome

/-- The assignment `workers.get(id).status = status`. -/
def setStatus (workers : List (String × WorkerInfo)) (id status : String) :
    List (String × WorkerInfo) :=
  workers.map (fun p => if p.1 = id then (p.1, { p.2 with status := status }) else p)

/-- The call `workers.delete(id)`. -/
def delete (workers : List (String × WorkerInfo)) (id : String) :
    List (String × WorkerInfo) :=
  workers.filter (fun p => decide (p.1 ≠ id))

/-- The call `io.emit(…)`. -/
def emit (s : State) (e : Event) : State :=
  { s with emitted := s.emitted ++ [e] }

/-- The function `addLog(message, io)`; `ts` is the ISO time read by it. -/
def addLog (s : State) (ts : String) (message : String) : State :=
  let entry := "[" ++ ts ++ "] " ++ message
  emit { s with logBuffer := s.logBuffer ++ [entry] } (Event.logUpdate entry)

/-- The handler of `POST /register`; `now` is the `new Date()` of the handler. -/
def register (s : State) (now : Nat) (ts : String) (id name status : Option String) :
    State × Response :=
  match id, name, status with
  | some id, some name, some status =>
    if id = "" ∨ name = "" ∨ status = "" then
      (s, Response.error 400 "id, name, and status are required")
    else if has s.workers id then
      let s1 := { s with workers := setStatus s.workers id status }
      let s2 := addLog s1 ts ("↻ Worker " ++ id ++ " updated status → " ++ status)
      let s3 := emit s2 (Event.workerUpdated id status)
      (s3, Response.ok s3.currentCoordinatorId)
    else
      let s1 := { s with workers := s.workers ++ [(id, { name := name, status := status,
                                                         createdAt := now })] }
      let s2 :=
        if truthy s1.currentCoordinatorId then
          addLog s1 ts ("↗ Worker registered: " ++ id ++ " (" ++ name ++ "). Coordinator=" ++
            render s1.currentCoordinatorId)
        else
          addLog { s1 with currentCoordinatorId := some id } ts
            ("🟢 First worker " ++ id ++ " joined and became Coordinator")
      let s3 := emit s2 (Event.workerAdded id name status now s2.currentCoordinatorId)
      (s3, Response.ok s3.currentCoordinatorId)
  | _, _, _ => (s, Response.error 400 "id, name, and status are required")

/-- The handler of `POST /unregister`. -/
def unregister (s : State) (ts : String) (id : Option String) : State × Response :=
  match id with
  | some id =>
    if id = "" ∨ ¬ has s.workers id then (s, Response.error 400 "invalid id")
    else
      let s1 := { s with workers := delete s.workers id }
      let s2 :=
        if s1.currentCoordinatorId = some id then
          addLog { s1 with currentCoordinatorId := none } ts
            ("↘ Coordinator " ++ id ++ " left. No Coordinator now.")
        else
          addLog s1 ts ("↘ Worker " ++ id ++ " left. Coordinator still " ++
            render s1.currentCoordinatorId)
      let s3 := emit s2 (Event.workerRemoved id s2.currentCoordinatorId)
      (s3, Response.ok s3.currentCoordinatorId)
  | none => (s, Response.error 400 "invalid id")

/-- The socket handler of `request_coordinator_switch`. -/
def requestCoordinatorSwitch (s : State) (ts : String) (newCoordinatorId : String) : State :=
  if ¬ has s.workers newCoordinatorId then s
  else
    let old := s.currentCoordinatorId
    let s1 := { s with currentCoordinatorId := some newCoordinatorId }
    let s2 := addLog s1 ts ("🔄 Coordinator switched from " ++
      (if truthy old then render old else "(none)") ++ " to " ++ newCoordinatorId)
    emit s2 (Event.coordinatorSwitched newCoordinatorId old)

/-- The socket handler of `manual_update`. -/
def manualUpdate (s : State) (ts : String) (id status : String) : State :=
  if has s.workers id then
    let s1 := { s with workers := setStatus s.workers id status }
    let s2 := emit s1 (Event.workerUpdated id status)
    addLog s2 ts ("↻ Worker updated (via WS): " ++ id ++ " → status=" ++ status)
  else s

/-- The socket handler of `manual_unregister`. -/
def manualUnregister (s : State) (ts : String) (id : String) : State :=
  if has s.workers id then
    let s1 := { s with workers := delete s.workers id }
    let s2 := if s1.currentCoordinatorId = some id then
      { s1 with currentCoordinatorId := none } else s1
    let s3 := emit s2 (Event.workerRemoved id s2.currentCoordinatorId)
    addLog s3 ts ("↘ Worker removed (via WS): " ++ id)
  else s

end Backend

namespace Backend

open Server OddEvenSort

/-- The list `activeWorkers` of `POST /start-sort`: the ids, in `Map` order,
of the workers whose status is `connected` or `working`. -/
def activeWorkers (workers : List (String × WorkerInfo)) : List String :=
  (workers.filter (fun p => decide (p.2.status = "connected" ∨ p.2.status = "working"))).map
    (fun p => p.1)

/-- The loop that sends `assign_chunk` to worker `i` and logs it; `clock k` is
the time read by the `k`-th call of `addLog` in the handler. -/
def assignLoop (clock : Nat → String) : Nat → List (String × Chunk) → State → State
  | _, [], s => s
  | i, (workerId, c) :: rest, s =>
    let s1 := emit s (Event.assignChunk workerId c.chunk c.offset)
    let s2 := addLog s1 (clock (2 + i))
      ("Assigned chunk of size " ++ toString c.chunk.length ++ " to Worker " ++ workerId)
    assignLoop clock (i + 1) rest s2

/-- The statement `if (currentCoordinatorId) …status = status; io.emit(…)` of
`POST /start-sort`; `none` stands for the `TypeError` of a coordinator id
that `workers.get` does not find. -/
def markCoordinator (s : State) (status : String) : Option State :=
  match s.currentCoordinatorId with
  | some id =>
    if id = "" then some s
    else if has s.workers id then
      some (emit { s with workers := setStatus s.workers id status }
        (Event.workerUpdated id status))
    else none
  | none => some s

/-- The callbacks passed to `then` and `catch` in `POST /start-sort`, run once
the engine has returned `sortedFullArr`. -/
def sortFinished (s : State) (ts tsError : String) (sortedFullArr : List Int) : State :=
  let s1 := addLog s ts ("Sorting complete. Final array: [" ++ joinArray sortedFullArr ++ "]")
  match markCoordinator s1 "connected" with
  | some s2 => emit s2 (Event.sortComplete sortedFullArr)
  | none =>
    let s2 := addLog s1 tsError ("❌ Error during sorting: " ++ typeErrorMessage)
    emit s2 (Event.sortError typeErrorMessage)

/-- The handler of `POST /start-sort`, together with the callback that runs
when the engine is done (the engine never awaits, so the callback runs before
any other request is served).  `algorithmKeys` are the keys of
`algorithmsList`; the only algorithm module of the repository is
`oddevensort`.  The result is `none` when the engine is out of fuel. -/
def startSort (algorithmKeys : List String) (s : State) (clock : Nat → String)
    (rand : Nat → Nat) (fuel : Nat) (algorithm : Option String) (arrayLength : ArrayLength) :
    Option (State × Response) :=
  match algorithm, arrayLength with
  | some algorithm, ArrayLength.integer n =>
    if algorithm = "" ∨ n ≤ 0 then
      some (s, Response.error 400 "algorithm & positive integer arrayLength required")
    else if algorithm ∉ algorithmKeys then some (s, Response.error 400 "Unknown algorithm")
    else
      let active := activeWorkers s.workers
      if active.length = 0 then
        some (s, Response.error 400 "No active workers available for sorting")
      else
        let s1 := addLog s (clock 0)
          ("🚀 Starting sort: algorithm=" ++ algorithm ++ ", arrayLength=" ++ toString n)
        let fullArray := randomArray rand n.toNat
        let s2 := addLog s1 (clock 1) ("Generated random array: [" ++ joinArray fullArray ++ "]")
        if algorithm ≠ "oddevensort" then
          some (s2, Response.error 500 "Failed to load algorithm module")
        else
          let numWorkers := active.length
          let chunks := splitIntoChunks fullArray (numWorkers : Int)
          let s3 := assignLoop clock 0 (active.zip chunks) s2
          match markCoordinator s3 "working" with
          | none => some (s3, Response.unhandled)
          | some s4 =>
            match oddEvenSortParallel fuel chunks with
            | none => none
            | some run =>
              let s5 := run.log.foldl (fun st line => emit st (Event.engineLog line)) s4
              some (sortFinished s5 (clock (2 + numWorkers)) (clock (3 + numWorkers)) run.sorted,
                Response.started ("Sorting started with " ++ toString numWorkers ++ " workers."))
  | _, _ => some (s, Response.error 400 "algorithm & positive integer arrayLength required")

/-- The operations that change the registry. -/
inductive Op where
  | register (now : Nat) (ts : String) (id name status : Option String)
  | unregister (ts : String) (id : Option String)
  | requestCoordinatorSwitch (ts : String) (newCoordinatorId : String)
  | manualUpdate (ts : String) (id status : String)
  | manualUnregister (ts : String) (id : String)
  | startSort (clock : Nat → String) (rand : Nat → Nat) (fuel : Nat)
      (algorithm : Option String) (arrayLength : ArrayLength)

/-- The state after one operation (`none`: the engine ran out of fuel). -/
def step (algorithmKeys : List String) (s : State) : Op → Option State
  | Op.register now ts id name status => some (register s now ts id name status).1
  | Op.unregister ts id => some (unregister s ts id).1
  | Op.requestCoordinatorSwitch ts newCoordinatorId =>
    some (requestCoordinatorSwitch s ts newCoordinatorId)
  | Op.manualUpdate ts id status => some (manualUpdate s ts id status)
  | Op.manualUnregister ts id => some (manualUnregister s ts id)
  | Op.startSort clock rand fuel algorithm arrayLength =>
    (startSort algorithmKeys s clock rand fuel algorithm arrayLength).map (fun r => r.1)

/-- The state after a sequence of operations. -/
def run (algorithmKeys : List String) : State → List Op → Option State
  | s, [] => some s
  | s, op :: ops =>
    match step algorithmKeys s op with
    | some s1 => run algorithmKeys s1 ops
    | none => none

/-- The states the server can be in. -/
def Reachable (algorithmKeys : List String) (s : State) : Prop :=
  ∃ ops, run algorithmKeys State.empty ops = some s

/-- The coordinator reference is empty or the id of a worker in the map. -/
def CoordinatorValid (s : State) : Prop :=
  s.currentCoordinatorId = none ∨
    ∃ id, s.currentCoordinatorId = some id ∧ has s.workers id = true

end Backend

/-! ## `WebsiteFinal/backend/server.js`: the registry kept in an object literal

`var workers = {}` is an ordinary object whose prototype is `Object.prototype`.
A read `workers[id]` that finds no own property continues along the prototype
chain; `for (var id in workers)` lists the own properties (array indices
first, in ascending order, then the other keys in creation order) and then the
enumerable inherited ones. -/

namespace WebsiteFinal

open Server OddEvenSort

/-- The names of the members of `Object.prototype` other than `__proto__`;
all of them are functions and none is enumerable. -/
def objectPrototypeMembers : List String :=
  ["constructor", "__defineGetter__", "__defineSetter__", "hasOwnProperty",
   "__lookupGetter__", "__lookupSetter__", "isPrototypeOf", "propertyIsEnumerable",
   "toString", "valueOf", "toLocaleString"]

/-- The mutable state: the own properties of `workers` in enumeration order,
the property `status` of `Object.prototype` once something has assigned it,
`currentCoordinatorId`, `logBuffer`, and the events broadcast so far. -/
structure State where
  workers : List (String × WorkerInfo)
  prototypeStatus : Option String
  currentCoordinatorId : Option String
  logBuffer : List String
  emitted : List Event
deriving DecidableEq, Repr

/-- The state at start-up. -/
def State.empty : State :=
  { workers := [], prototypeStatus := none, currentCoordinatorId := none,
    logBuffer := [], emitted := [] }

/-- What the read `workers[id]` yields. -/
inductive Slot where
  | record (info : WorkerInfo)
  | prototypeObject
  | builtin
  | inherited (value : String)
  | undefined
deriving DecidableEq, Repr

/-- The read `workers[id]`: an own property, else `Object.prototype` itself
for `__proto__`, else a member of `Object.prototype`, else the inherited
`status` if it has been assigned, else `undefined`. -/
def lookup (s : State) (id : String) : Slot :=
  match s.workers.lookup id with
  | some info => Slot.record info
  | none =>
    if id = "__proto__" then Slot.prototypeObject
    else if id ∈ objectPrototypeMembers then Slot.builtin
    else if id = "status" then
      match s.prototypeStatus with
      | some v => Slot.inherited v
      | none => Slot.undefined
    else Slot.undefined

/-- Truthiness of the value read: objects and functions are truthy, a string
is truthy unless empty. -/
def Slot.truthy : Slot → Bool
  | Slot.record _ => true
  | Slot.prototypeObject => true
  | Slot.builtin => true
  | Slot.inherited v => decide (v ≠ "")
  | Slot.undefined => false

/-- The test `!!workers[id]`. -/
def exists? (s : State) (id : String) : Bool :=
  (lookup s id).truthy

/-- The assignment `info.status = status` on the record that is the own
property `id`. -/
def setOwnStatus (workers : List (String × WorkerInfo)) (id status : String) :
    List (String × WorkerInfo) :=
  workers.map (fun p => if p.1 = id then (p.1, { p.2 with status := status }) else p)

/-- The assignment `workers[id].status = status`: it changes the record of an
own property, creates `Object.prototype.status` when `id` is `__proto__`, is
lost on a function of `Object.prototype` (no later read sees it) and on a
primitive string (the module is not in strict mode), and throws a `TypeError`
(`none`) on `undefined`. -/
def assignStatus (s : State) (id status : String) : Option State :=
  match lookup s id with
  | Slot.record _ =>
    some { s with workers := setOwnStatus s.workers id status }
  | Slot.prototypeObject => some { s with prototypeStatus := some status }
  | Slot.builtin => some s
  | Slot.inherited _ => some s
  | Slot.undefined => none

/-- The number a key stands for when it is an array index: a decimal numeral
without leading zero below `2^32 - 1`. -/
def arrayIndex? (key : String) : Option Nat :=
  match key.toList with
  | [] => none
  | c :: cs =>
    if (c :: cs).all Char.isDigit ∧ (c ≠ '0' ∨ cs = []) then
      let n := (c :: cs).foldl (fun acc d => 10 * acc + (d.toNat - '0'.toNat)) 0
      if n < 4294967295 then some n else none
    else none

/-- The creation of the own property `workers[id] = info`: an array index goes
before the first key that is not a smaller array index, any other key goes
last. -/
def insertOwn (workers : List (String × WorkerInfo)) (id : String) (info : WorkerInfo) :
    List (String × WorkerInfo) :=
  match arrayIndex? id with
  | some n =>
    let smaller := fun (p : String × WorkerInfo) =>
      match arrayIndex? p.1 with
      | some m => decide (m < n)
      | none => false
    workers.takeWhile smaller ++ (id, info) :: workers.dropWhile smaller
  | none => workers ++ [(id, info)]

/-- The statement `delete workers[id]`. -/
def deleteOwn (workers : List (String × WorkerInfo)) (id : String) :
    List (String × WorkerInfo) :=
  workers.filter (fun p => decide (p.1 ≠ id))

/-- The keys visited by `for (var id in workers)`. -/
def enumerate (s : State) : List String :=
  s.workers.map (fun p => p.1) ++
    (match s.prototypeStatus with
     | some _ => if (s.workers.lookup "status").isSome then [] else ["status"]
     | none => [])

/-- The read `workers[id].status` for a key visited by `for … in`: the field of
the record, or, on the inherited string, the `status` that the string itself
inherits from `Object.prototype`. -/
def statusOf (s : State) (id : String) : Option String :=
  match lookup s id with
  | Slot.record info => some info.status
  | Slot.inherited _ => s.prototypeStatus
  | _ => none

/-- The call `io.emit(…)`. -/
def emit (s : State) (e : Event) : State :=
  { s with emitted := s.emitted ++ [e] }

/-- The function `addLog(message, io)`; `ts` is the ISO time read by it. -/
def addLog (s : State) (ts : String) (message : String) : State :=
  let entry := "[" ++ ts ++ "] " ++ message
  emit { s with logBuffer := s.logBuffer ++ [entry] } (Event.logUpdate entry)

/-- The read `req.body.status` of `POST /register`.  The body is an ordinary
object: when it has no field `status` of its own the read continues along the
prototype chain and yields `Object.prototype.status`, once something has
assigned it.  (`Object.prototype` has no `id` and no `name`, and nothing in the
server assigns them.) -/
def bodyStatus (s : State) (status : Option String) : Option String :=
  match status with
  | some v => some v
  | none => s.prototypeStatus

/-- The handler of `POST /register`; `status` is the field of the body, read
through `bodyStatus`. -/
def register (s : State) (now : Nat) (ts : String) (id name status : Option String) :
    State × Response :=
  match id, name, bodyStatus s status with
  | some id, some name, some status =>
    if id = "" ∨ name = "" ∨ status = "" then
      (s, Response.error 400 "id, name, and status are required")
    else if exists? s id then
      match assignStatus s id status with
      | some s1 =>
        let s2 := addLog s1 ts ("Worker " ++ id ++ " status updated → " ++ status)
        let s3 := emit s2 (Event.workerUpdated id status)
        (s3, Response.ok s3.currentCoordinatorId)
      | none => (s, Response.unhandled)
    else
      let info : WorkerInfo := { name := name, status := status, createdAt := now }
      let s1 := { s with workers := insertOwn s.workers id info }
      let s2 :=
        if truthy s1.currentCoordinatorId then
          addLog s1 ts ("Worker registered: " ++ id ++ ". Coord=" ++
            render s1.currentCoordinatorId)
        else
          addLog { s1 with currentCoordinatorId := some id } ts
            ("First worker " ++ id ++ " became Coordinator")
      let s3 := emit s2 (Event.workerAdded id name status now s2.currentCoordinatorId)
      (s3, Response.ok s3.currentCoordinatorId)
  | _, _, _ => (s, Response.error 400 "id, name, and status are required")

/-- The handler of `POST /unregister`. -/
def unregister (s : State) (ts : String) (id : Option String) : State × Response :=
  match id with
  | some id =>
    if id = "" ∨ ¬ exists? s id then (s, Response.error 400 "invalid id")
    else
      let s1 := { s with workers := deleteOwn s.workers id }
      let s2 :=
        if s1.currentCoordinatorId = some id then
          addLog { s1 with currentCoordinatorId := none } ts ("Coordinator left: " ++ id)
        else addLog s1 ts ("Worker left: " ++ id)
      let s3 := emit s2 (Event.workerRemoved id s2.currentCoordinatorId)
      (s3, Response.ok s3.currentCoordinatorId)
  | none => (s, Response.error 400 "invalid id")

/-- The socket handler of `request_coordinator_switch`. -/
def requestCoordinatorSwitch (s : State) (ts : String) (newId : String) : State :=
  if ¬ exists? s newId then s
  else
    let oldId := s.currentCoordinatorId
    let s1 := { s with currentCoordinatorId := some newId }
    let s2 := addLog s1 ts ("Coordinator switched from " ++
      (if truthy oldId then render oldId else "(none)") ++ " to " ++ newId)
    emit s2 (Event.coordinatorSwitched newId oldId)

/-- The socket handler of `manual_update`. -/
def manualUpdate (s : State) (ts : String) (wid st : String) : State :=
  if exists? s wid then
    match assignStatus s wid st with
    | some s1 =>
      let s2 := emit s1 (Event.workerUpdated wid st)
      addLog s2 ts ("Worker updated: " ++ wid ++ " → " ++ st)
    | none => s
  else s

/-- The socket handler of `manual_unregister`. -/
def manualUnregister (s : State) (ts : String) (wid : String) : State :=
  if exists? s wid then
    let s1 := { s with workers := deleteOwn s.workers wid }
    let s2 := if s1.currentCoordinatorId = some wid then
      { s1 with currentCoordinatorId := none } else s1
    let s3 := emit s2 (Event.workerRemoved wid s2.currentCoordinatorId)
    addLog s3 ts ("Worker removed: " ++ wid)
  else s

end WebsiteFinal

namespace WebsiteFinal

open Server OddEvenSort

/-- The list `active` of `POST /start-sort`: the keys visited by `for … in`
whose `status` reads `connected` or `working`. -/
def activeWorkers (s : State) : List String :=
  (enumerate s).filter (fun id =>
    decide (statusOf s id = some "connected" ∨ statusOf s id = some "working"))

/-- The loop that sends `assign_chunk` to worker `k` and logs it; `clock j` is
the time read by the `j`-th call of `addLog` in the handler. -/
def assignLoop (clock : Nat → String) : Nat → List (String × Chunk) → State → State
  | _, [], s => s
  | k, (wid, cinfo) :: rest, s =>
    let s1 := emit s (Event.assignChunk wid cinfo.chunk cinfo.offset)
    let s2 := addLog s1 (clock (2 + k))
      ("Chunk of size " ++ toString cinfo.chunk.length ++ " → " ++ wid)
    assignLoop clock (k + 1) rest s2

/-- The statement
`if (currentCoordinatorId) workers[currentCoordinatorId].status = status; …`
of `POST /start-sort`; `none` stands for a `TypeError`. -/
def markCoordinator (s : State) (status : String) : Option State :=
  match s.currentCoordinatorId with
  | some id =>
    if id = "" then some s
    else
      match assignStatus s id status with
      | some s1 => some (emit s1 (Event.workerUpdated id status))
      | none => none
  | none => some s

/-- The callbacks passed to `then` and `catch` in `POST /start-sort`. -/
def sortFinished (s : State) (ts tsError : String) (sortedArr : List Int) : State :=
  let s1 := addLog s ts ("Sort complete: [" ++ joinArray sortedArr ++ "]")
  match markCoordinator s1 "connected" with
  | some s2 => emit s2 (Event.sortComplete sortedArr)
  | none =>
    let s2 := addLog s1 tsError ("Error: " ++ typeErrorMessage)
    emit s2 (Event.sortError typeErrorMessage)

/-- The handler of `POST /start-sort` with the callback that runs when the
engine is done.  The module loaded for the key `oddevensort` is taken to be
the engine of `backend/algorithms/oddevensort`; no other module exists.  The
result is `none` when the engine is out of fuel. -/
def startSort (algorithmKeys : List String) (s : State) (clock : Nat → String)
    (rand : Nat → Nat) (fuel : Nat) (algorithm : Option String) (arrayLength : ArrayLength) :
    Option (State × Response) :=
  match algorithm, arrayLength with
  | some algorithm, ArrayLength.integer n =>
    if algorithm = "" ∨ n ≤ 0 then
      some (s, Response.error 400 "algorithm & positive integer arrayLength required")
    else if algorithm ∉ algorithmKeys then some (s, Response.error 400 "Unknown algorithm")
    else
      let active := activeWorkers s
      if active.length = 0 then some (s, Response.error 400 "No active workers")
      else
        let s1 := addLog s (clock 0) ("Start sort: " ++ algorithm ++ ", size=" ++ toString n)
        let fullArray := randomArray rand n.toNat
        let s2 := addLog s1 (clock 1) ("Random array: [" ++ joinArray fullArray ++ "]")
        if algorithm ≠ "oddevensort" then
          some (s2, Response.error 500 "Failed to load algorithm")
        else
          let chunks := splitIntoChunks fullArray (active.length : Int)
          let s3 := assignLoop clock 0 (active.zip chunks) s2
          match markCoordinator s3 "working" with
          | none => some (s3, Response.unhandled)
          | some s4 =>
            match oddEvenSortParallel fuel chunks with
            | none => none
            | some run =>
              let s5 := run.log.foldl (fun st line => emit st (Event.engineLog line)) s4
              some (sortFinished s5 (clock (2 + active.length)) (clock (3 + active.length))
                  run.sorted,
                Response.started ("Sorting started with " ++ toString active.length ++
                  " workers."))
  | _, _ => some (s, Response.error 400 "algorithm & positive integer arrayLength required")

/-- The operations that change the registry. -/
inductive Op where
  | register (now : Nat) (ts : String) (id name status : Option String)
  | unregister (ts : String) (id : Option String)
  | requestCoordinatorSwitch (ts : String) (newId : String)
  | manualUpdate (ts : String) (wid st : String)
  | manualUnregister (ts : String) (wid : String)
  | startSort (clock : Nat → String) (rand : Nat → Nat) (fuel : Nat)
      (algorithm : Option String) (arrayLength : ArrayLength)

/-- The state after one operation (`none`: the engine ran out of fuel). -/
def step (algorithmKeys : List String) (s : State) : Op → Option State
  | Op.register now ts id name status => some (register s now ts id name status).1
  | Op.unregister ts id => some (unregister s ts id).1
  | Op.requestCoordinatorSwitch ts newId => some (requestCoordinatorSwitch s ts newId)
  | Op.manualUpdate ts wid st => some (manualUpdate s ts wid st)
  | Op.manualUnregister ts wid => some (manualUnregister s ts wid)
  | Op.startSort clock rand fuel algorithm arrayLength =>
    (startSort algorithmKeys s clock rand fuel algorithm arrayLength).map (fun r => r.1)

/-- The state after a sequence of operations. -/
def run (algorithmKeys : List String) : State → List Op → Option State
  | s, [] => some s
  | s, op :: ops =>
    match step algorithmKeys s op with
    | some s1 => run algorithmKeys s1 ops
    | none => none

end WebsiteFinal

/-! ## Two small registries used as examples -/

namespace Registry

open Server

/-- A `Map` registry with the workers `w1` (coordinator) and `w2`. -/
def exampleBackend : Backend.State :=
  { workers := [("w1", { name := "a", status := "connected", createdAt := 1 }),
                ("w2", { name := "b", status := "working", createdAt := 2 })],
    currentCoordinatorId := some "w1", logBuffer := [], emitted := [] }

/-- The same registry kept in the object literal. -/
def exampleWebsiteFinal : WebsiteFinal.State :=
  { workers := [("w1", { name := "a", status := "connected", createdAt := 1 }),
                ("w2", { name := "b", status := "working", createdAt := 2 })],
    prototypeStatus := none, currentCoordinatorId := some "w1", logBuffer := [], emitted := [] }

end Registry


/-! ## The steps of an engine run -/

namespace OddEvenSort

/-- The two kinds of write the engine performs on the list of chunk arrays:
the local sort of chunk `i` at the start of `oddEvenSortParallel`, and one call
`trySwapNeighbor(chunks[w].chunk, chunks[w + 1].chunk)` of a sub-phase. -/
inductive EngineStep : List (List Int) → List (List Int) → Prop where
  | localSort (cs : List (List Int)) (i : Nat) (h : i < cs.length) :
      EngineStep cs (cs.set i (insertionSort cs[i] 0 cs[i].length))
  | exchange (cs : List (List Int)) (w : Nat) (h : w + 1 < cs.length) :
      EngineStep cs ((cs.set w (trySwapNeighbor cs[w] cs[w + 1]).1).set (w + 1)
        (trySwapNeighbor cs[w] cs[w + 1]).2.1)

end OddEvenSort

/-! ## `WebsiteFinal/backend/server.js`: the handler of `POST /sort` -/

namespace WebsiteFinal

open Server OddEvenSort

/-- The answers of `POST /sort`: `200` with the field `sorted`, or a status code
with an `error` text. -/
inductive SortReply where
  | sorted (sorted : List Int)
  | error (code : Nat) (message : String)
deriving DecidableEq, Repr

/-- The expression `req.body.workers || 4` for a worker count that is an
integer or absent: `0` is falsy, so it is replaced too. -/
def effectiveWorkers : Option Int → Int
  | some n => if n = 0 then 4 else n
  | none => 4

/-- The handler of `POST /sort`; `array` is `none` when the field is absent or
not an array.  The module loaded for the key `oddevensort` is the engine of
`backend/algorithms/oddevensort`; every other key is taken to name no module,
so that `require` throws and the `catch` answers `500` (keys that reach the
same file by another path, such as `./oddevensort`, are not modelled).  The
handler reads `array` only through `slice`; it never writes to it.  The result
is `none` when the engine is out of fuel. -/
def sortRequest (s : State) (fuel : Nat) (algorithm : Option String)
    (array : Option (List Int)) (workers : Option Int) : Option (State × SortReply) :=
  let numWorkers := effectiveWorkers workers
  match algorithm, array with
  | some algorithm, some array =>
    if algorithm = "" then some (s, SortReply.error 400 "algorithm and array are required")
    else if algorithm ≠ "oddevensort" then some (s, SortReply.error 500 "Internal Server Error")
    else
      match oddEvenSortParallel fuel (splitIntoChunks array numWorkers) with
      | none => none
      | some run =>
        some (run.log.foldl (fun st line => emit st (Event.engineLog line)) s,
          SortReply.sorted run.sorted)
  | _, _ => some (s, SortReply.error 400 "algorithm and array are required")

end WebsiteFinal

/-! ## The servers: what a socket receives when it connects -/

namespace Server

/-- An entry `{ id, name, status, createdAt }` of the `initial_snapshot`; a
field is `none` when the read that fills it yields `undefined`. -/
structure SnapshotWorker where
  id : String
  name : Option String
  status : Option String
  createdAt : Option Nat
deriving DecidableEq, Repr

/-- What one socket receives: an event (broadcast with `io.emit`, or sent to it
alone with `socket.emit('log_update', …)`, which the receiver cannot tell
apart), or the `initial_snapshot`. -/
inductive Delivery where
  | event (e : Event)
  | initialSnapshot (workers : List SnapshotWorker) (coordinatorId : Option String)
deriving DecidableEq, Repr

end Server

namespace Backend

open Server OddEvenSort

/-- The handler of `io.on('connection', …)` up to the replay of the log: the
state it leaves and what the new socket receives, in order.  The handler first
calls `addLog`, whose `io.emit` goes to every connected socket, the new one
included; then it sends the snapshot and every line of `logBuffer` to the new
socket. -/
def connect (s : State) (ts : String) (socketId : String) : State × List Delivery :=
  let message := "🔌 Frontend client connected (" ++ socketId ++ ")"
  let entry := "[" ++ ts ++ "] " ++ message
  let s1 := addLog s ts message
  let snapshot : List SnapshotWorker := s1.workers.map (fun p =>
    { id := p.1, name := some p.2.name, status := some p.2.status,
      createdAt := some p.2.createdAt })
  (s1, Delivery.event (Event.logUpdate entry) ::
    Delivery.initialSnapshot snapshot s1.currentCoordinatorId ::
    s1.logBuffer.map (fun line => Delivery.event (Event.logUpdate line)))

/-- The state in which `POST /start-sort` calls the engine, for a request that
has passed the checks: the two log lines, the `assign_chunk` loop and the
marking of the coordinator as `working` are done (`none`: the marking threw). -/
def stateAtEngineCall (s : State) (clock : Nat → String) (rand : Nat → Nat)
    (algorithm : String) (n : Int) : Option State :=
  let active := activeWorkers s.workers
  let s1 := addLog s (clock 0)
    ("🚀 Starting sort: algorithm=" ++ algorithm ++ ", arrayLength=" ++ toString n)
  let fullArray := randomArray rand n.toNat
  let s2 := addLog s1 (clock 1) ("Generated random array: [" ++ joinArray fullArray ++ "]")
  let chunks := splitIntoChunks fullArray (active.length : Int)
  markCoordinator (assignLoop clock 0 (active.zip chunks) s2) "working"

/-- The effect of one operation on the list of the ids of the present workers
in the order in which they registered, as the specification words it: a valid
register of an id that is not present puts it last, a register of a present id
changes nothing, an unregister removes the id, nothing else touches the list. -/
def registrationStep (order : List String) : Op → List String
  | Op.register _ _ (some id) (some name) (some status) =>
    if id = "" ∨ name = "" ∨ status = "" then order
    else if id ∈ order then order
    else order ++ [id]
  | Op.unregister _ (some id) =>
    if id = "" then order else order.filter (fun x => decide (x ≠ id))
  | Op.manualUnregister _ id => order.filter (fun x => decide (x ≠ id))
  | _ => order

/-- The registration order after a sequence of operations on the empty
registry. -/
def registrationOrder (ops : List Op) : List String :=
  ops.foldl registrationStep []

end Backend

namespace WebsiteFinal

open Server OddEvenSort

/-- The entry pushed to `snap` for a key `id` visited by `for … in`: the reads
`workers[id].name`, `workers[id].status` and `workers[id].createdAt`.  On the
inherited string only `status` is found, through `Object.prototype`. -/
def snapshotEntry (s : State) (id : String) : SnapshotWorker :=
  match lookup s id with
  | Slot.record info =>
    { id := id, name := some info.name, status := some info.status,
      createdAt := some info.createdAt }
  | Slot.inherited _ => { id := id, name := none, status := s.prototypeStatus, createdAt := none }
  | _ => { id := id, name := none, status := none, createdAt := none }

/-- The handler of `io.on('connection', …)` up to the replay of the log: the
state it leaves and what the new socket receives, in order (the `io.emit` of
`addLog` reaches the new socket too). -/
def connect (s : State) (ts : String) (socketId : String) : State × List Delivery :=
  let message := "Client connected (" ++ socketId ++ ")"
  let entry := "[" ++ ts ++ "] " ++ message
  let s1 := addLog s ts message
  let snap : List SnapshotWorker := (enumerate s1).map (snapshotEntry s1)
  (s1, Delivery.event (Event.logUpdate entry) ::
    Delivery.initialSnapshot snap s1.currentCoordinatorId ::
    s1.logBuffer.map (fun line => Delivery.event (Event.logUpdate line)))

/-- The state in which `POST /start-sort` calls the engine, for a request that
has passed the checks (`none`: the marking of the coordinator threw). -/
def stateAtEngineCall (s : State) (clock : Nat → String) (rand : Nat → Nat)
    (algorithm : String) (n : Int) : Option State :=
  let active := activeWorkers s
  let s1 := addLog s (clock 0) ("Start sort: " ++ algorithm ++ ", size=" ++ toString n)
  let fullArray := randomArray rand n.toNat
  let s2 := addLog s1 (clock 1) ("Random array: [" ++ joinArray fullArray ++ "]")
  let chunks := splitIntoChunks fullArray (active.length : Int)
  markCoordinator (assignLoop clock 0 (active.zip chunks) s2) "working"

end WebsiteFinal

namespace Registry

open Server

/-- A clock for the examples: reading number `k` prints `k`. -/
def exampleClock : Nat → String := fun k => toString k

/-- A source of random draws for the examples: draw number `j` is `5 - j`. -/
def exampleRand : Nat → Nat := fun j => 5 - j

end Registry

/-! ## `insertionSort` on elements that carry more than their numeric value -/

namespace OddEvenSort

/-- The loop `while (j >= start && arr[j] > key)` of `insertionSort` with the
store `arr[j + 1] = key`, for an array whose elements `x` are compared through
their numeric value `key x`, as the operator `>` of JavaScript does; two elements
with the same numeric value may still be told apart.  For `key = id` this is
`insertionSortInner`.  The element being inserted is `x`, the first explicit
argument is `j + 1`. -/
def insertionSortInnerBy {α : Type} (key : α → Int) (start : Nat) (x : α) :
    Nat → List α → List α
  | 0, arr => arr.set 0 x
  | j + 1, arr =>
    match arr[j]? with
    | some aj =>
      if start ≤ j ∧ key aj > key x then
        insertionSortInnerBy key start x j (arr.set (j + 1) aj)
      else arr.set (j + 1) x
    | none => arr.set (j + 1) x

/-- One iteration of the outer `for` loop of `insertionSort`, for elements
compared through `key`. -/
def insertionSortStepBy {α : Type} (key : α → Int) (start : Nat) (arr : List α) (i : Nat) :
    List α :=
  match arr[i]? with
  | some x => insertionSortInnerBy key start x i arr
  | none => arr

/-- The function `insertionSort(arr, start, end)` for elements compared through
`key`. -/
def insertionSortBy {α : Type} (key : α → Int) (arr : List α) (start stop : Nat) : List α :=
  (List.range' (start + 1) (stop - (start + 1))).foldl (insertionSortStepBy key start) arr

end OddEvenSort

/-! ## Measures of disorder named by the specification -/

namespace OddEvenSort

/-- The number of inversions of an array, as the specification words it: the
pairs of indices `p < q` with element `p` greater than element `q`. -/
def inversions : List Int → Nat
  | [] => 0
  | x :: xs => xs.countP (fun y => decide (x > y)) + inversions xs

/-- The number of pairs of an element `x` of the first array and an element `y`
of the second with `x > y`: the inversions of a concatenation that lie across
the seam. -/
def crossInversions (l₁ l₂ : List Int) : Nat :=
  (l₁.map (fun x => l₂.countP (fun y => decide (x > y)))).sum

/-- An out-of-place boundary, as the specification words it: the last element
of chunk `i` is greater than the first element of chunk `i + 1`. -/
def outOfPlace (a b : List Int) : Bool :=
  match a.getLast?, b.head? with
  | some x, some y => decide (x > y)
  | _, _ => false

/-- The number of out-of-place boundary pairs of a chunk list. -/
def outOfPlacePairs : List (List Int) → Nat
  | a :: b :: rest => (if outOfPlace a b then 1 else 0) + outOfPlacePairs (b :: rest)
  | _ => 0

end OddEvenSort

/-! ## A registry left without coordinator -/

namespace Registry

open Server

/-- A `Map` registry left without coordinator: the worker `w2` is all that
remains after the coordinator has unregistered. -/
def orphanedBackend : Backend.State :=
  { workers := [("w2", { name := "b", status := "connected", createdAt := 2 })],
    currentCoordinatorId := none, logBuffer := [], emitted := [] }

/-- The same registry kept in the object literal. -/
def orphanedWebsiteFinal : WebsiteFinal.State :=
  { workers := [("w2", { name := "b", status := "connected", createdAt := 2 })],
    prototypeStatus := none, currentCoordinatorId := none, logBuffer := [], emitted := [] }

end Registry

/-! # Theorems -/

namespace OddEvenSort

/-! ## `insertionSort` permutes its array -/

theorem set_shift_perm (key aj : Int) :
    ∀ (arr : List Int) (j : Nat), arr[j]? = some aj → j + 1 < arr.length →
      ((arr.set (j + 1) aj).set j key).Perm (arr.set (j + 1) key) := by
  intro arr
  induction arr with
  | nil => intro j _ h; simp at h
  | cons x xs ih =>
    intro j hj hlen
    cases j with
    | zero =>
      cases xs with
      | nil => simp at hlen
      | cons y ys =>
        simp at hj
        subst hj
        simp only [List.set_cons_succ, List.set_cons_zero]
        exact List.Perm.swap _ _ _
    | succ j =>
      simp only [List.set_cons_succ]
      refine List.Perm.cons _ (ih j ?_ ?_)
      · simpa using hj
      · simpa using hlen

theorem insertionSortInner_perm (start : Nat) (key : Int) :
    ∀ (p : Nat) (arr : List Int), p < arr.length →
      (insertionSortInner start key p arr).Perm (arr.set p key) := by
  intro p
  induction p with
  | zero => intro arr _; simp [insertionSortInner]
  | succ j ih =>
    intro arr hp
    have hj : j < arr.length := by omega
    have hget : arr[j]? = some arr[j] := List.getElem?_eq_getElem hj
    rw [insertionSortInner, hget]
    simp only
    split
    · refine (ih _ (by simpa using hj)).trans ?_
      exact set_shift_perm key arr[j] arr j hget hp
    · exact List.Perm.refl _

theorem set_same (arr : List Int) (i : Nat) (key : Int) (h : arr[i]? = some key) :
    arr.set i key = arr := by
  have hi : i < arr.length := (List.getElem?_eq_some_iff.1 h).1
  apply List.ext_getElem?
  intro n
  rw [List.getElem?_set]
  split
  · next heq => subst heq; simp [hi, h]
  · rfl

theorem insertionSortStep_perm (start : Nat) (arr : List Int) (i : Nat) :
    (insertionSortStep start arr i).Perm arr := by
  unfold insertionSortStep
  cases h : arr[i]? with
  | none => exact List.Perm.refl _
  | some key =>
    have hi : i < arr.length := (List.getElem?_eq_some_iff.1 h).1
    have h2 := insertionSortInner_perm start key i arr hi
    simpa [set_same arr i key h] using h2

theorem insertionSort_perm (arr : List Int) (start stop : Nat) :
    (insertionSort arr start stop).Perm arr := by
  unfold insertionSort
  generalize List.range' (start + 1) (stop - (start + 1)) = idx
  induction idx generalizing arr with
  | nil => exact List.Perm.refl _
  | cons i is ih =>
    simp only [List.foldl_cons]
    exact (ih _).trans (insertionSortStep_perm start arr i)

/-! ## `trySwapNeighbor` -/

theorem set_perm_cons (v x : Int) :
    ∀ (l : List Int) (i : Nat), l[i]? = some x → (x :: l.set i v).Perm (v :: l) := by
  intro l
  induction l with
  | nil => intro i h; simp at h
  | cons y ys ih =>
    intro i h
    cases i with
    | zero =>
      simp at h
      subst h
      simpa using List.Perm.swap v y ys
    | succ i =>
      simp only [List.set_cons_succ]
      have h1 := ih i (by simpa using h)
      exact ((List.Perm.swap y x _).trans (h1.cons y)).trans (List.Perm.swap v y ys)

theorem trySwapNeighbor_perm (a b : List Int) :
    ((trySwapNeighbor a b).1 ++ (trySwapNeighbor a b).2.1).Perm (a ++ b) := by
  unfold trySwapNeighbor
  split
  · next aLast bFirst ha hb =>
    split
    · simp only
      have h1 := set_perm_cons bFirst aLast a _ ha
      have h2 := set_perm_cons aLast bFirst b _ hb
      have h3 : (aLast :: bFirst :: (a.set (a.length - 1) bFirst ++ b.set 0 aLast)).Perm
          (aLast :: bFirst :: (a ++ b)) := by
        have e1 : (aLast :: bFirst :: (a.set (a.length - 1) bFirst ++ b.set 0 aLast)).Perm
            ((aLast :: a.set (a.length - 1) bFirst) ++ (bFirst :: b.set 0 aLast)) := by
          simpa using (List.perm_middle).symm.cons aLast
        have e2 : ((bFirst :: a) ++ (aLast :: b)).Perm (aLast :: bFirst :: (a ++ b)) := by
          have := @List.perm_middle Int aLast (bFirst :: a) b
          simpa using this
        exact (e1.trans (h1.append h2)).trans e2
      have h4 := (h3.cons_inv).cons_inv
      exact ((insertionSort_perm _ _ _).append (insertionSort_perm _ _ _)).trans h4
    · exact List.Perm.refl _
  · exact List.Perm.refl _

theorem trySwapNeighbor_eq_swap (a b : List Int) (x y : Int)
    (ha : a[a.length - 1]? = some x) (hb : b[0]? = some y) (hgt : x > y) :
    trySwapNeighbor a b =
      (insertionSort (a.set (a.length - 1) y) 0 a.length,
       insertionSort (b.set 0 x) 0 b.length, true) := by
  simp [trySwapNeighbor, ha, hb, hgt]

theorem trySwapNeighbor_cases (a b : List Int) :
    (∃ x y, a[a.length - 1]? = some x ∧ b[0]? = some y ∧ x > y ∧
      trySwapNeighbor a b =
        (insertionSort (a.set (a.length - 1) y) 0 a.length,
         insertionSort (b.set 0 x) 0 b.length, true)) ∨
    trySwapNeighbor a b = (a, b, false) := by
  cases ha : a[a.length - 1]? with
  | none => right; simp [trySwapNeighbor, ha]
  | some x =>
    cases hb : b[0]? with
    | none => right; simp [trySwapNeighbor, ha, hb]
    | some y =>
      by_cases hgt : x > y
      · left; exact ⟨x, y, rfl, rfl, hgt, trySwapNeighbor_eq_swap a b x y ha hb hgt⟩
      · right; simp [trySwapNeighbor, ha, hb, hgt]

theorem trySwapNeighbor_false (a b : List Int) (h : (trySwapNeighbor a b).2.2 = false) :
    (trySwapNeighbor a b).1 = a ∧ (trySwapNeighbor a b).2.1 = b := by
  rcases trySwapNeighbor_cases a b with ⟨x, y, _, _, _, he⟩ | he
  · rw [he] at h; simp at h
  · rw [he]; exact ⟨rfl, rfl⟩

theorem trySwapNeighbor_length (a b : List Int) :
    (trySwapNeighbor a b).1.length = a.length ∧ (trySwapNeighbor a b).2.1.length = b.length := by
  unfold trySwapNeighbor
  split
  · split
    · simp [(insertionSort_perm _ _ _).length_eq]
    · exact ⟨rfl, rfl⟩
  · exact ⟨rfl, rfl⟩

theorem trySwapNeighbor_sum (a b : List Int) :
    (trySwapNeighbor a b).1.sum + (trySwapNeighbor a b).2.1.sum = a.sum + b.sum := by
  have h := (trySwapNeighbor_perm a b).sum_eq
  simpa using h

theorem trySwapNeighbor_gain (a b : List Int) (h : (trySwapNeighbor a b).2.2 = true) :
    b.sum + 1 ≤ (trySwapNeighbor a b).2.1.sum := by
  rcases trySwapNeighbor_cases a b with ⟨x, y, _, hb, hgt, he⟩ | he
  · rw [he]
    simp only
    rw [(insertionSort_perm _ _ _).sum_eq]
    have h2 := (set_perm_cons x y b _ hb).sum_eq
    simp only [List.sum_cons] at h2
    omega
  · rw [he] at h; simp at h

end OddEvenSort

namespace OddEvenSort

/-! ## One exchange inside the list of chunks -/

theorem pairSet_flatten_perm (a' b' : List Int) :
    ∀ (cs : List (List Int)) (w : Nat) (h : w + 1 < cs.length),
      (a' ++ b').Perm (cs[w] ++ cs[w + 1]) →
      ((cs.set w a').set (w + 1) b').flatten.Perm cs.flatten := by
  intro cs
  induction cs with
  | nil => intro w h; simp at h
  | cons x xs ih =>
    intro w h hp
    cases w with
    | zero =>
      cases xs with
      | nil => simp at h
      | cons y ys =>
        simp only [List.set_cons_zero, List.set_cons_succ, List.flatten_cons]
        simp only [List.getElem_cons_zero, List.getElem_cons_succ, Nat.zero_add] at hp
        rw [← List.append_assoc, ← List.append_assoc]
        exact hp.append_right _
    | succ w =>
      simp only [List.set_cons_succ, List.flatten_cons]
      refine List.Perm.append_left _ (ih w (by simpa using h) ?_)
      simpa using hp

theorem pairSet_weightedSum (a' b' : List Int) :
    ∀ (cs : List (List Int)) (i w : Nat) (h : w + 1 < cs.length),
      a'.sum + b'.sum = cs[w].sum + cs[w + 1].sum →
      weightedSum i ((cs.set w a').set (w + 1) b') =
        weightedSum i cs + (b'.sum - cs[w + 1].sum) := by
  intro cs
  induction cs with
  | nil => intro i w h; simp at h
  | cons x xs ih =>
    intro i w h hs
    cases w with
    | zero =>
      cases xs with
      | nil => simp at h
      | cons y ys =>
        simp only [List.getElem_cons_zero, List.getElem_cons_succ, Nat.zero_add] at hs ⊢
        simp only [List.set_cons_zero, List.set_cons_succ, weightedSum]
        push_cast
        linear_combination (i : Int) * hs
    | succ w =>
      simp only [List.set_cons_succ, weightedSum]
      have := ih (i + 1) w (by simpa using h) (by simpa using hs)
      simp only [List.getElem_cons_succ]
      rw [this]
      ring

theorem pairSet_map_length (a' b' : List Int) :
    ∀ (cs : List (List Int)) (w : Nat) (h : w + 1 < cs.length),
      a'.length = cs[w].length → b'.length = cs[w + 1].length →
      ((cs.set w a').set (w + 1) b').map List.length = cs.map List.length := by
  intro cs
  induction cs with
  | nil => intro w h; simp at h
  | cons x xs ih =>
    intro w h ha hb
    cases w with
    | zero =>
      cases xs with
      | nil => simp at h
      | cons y ys =>
        simp only [List.getElem_cons_zero, List.getElem_cons_succ, Nat.zero_add] at ha hb
        simp [ha, hb]
    | succ w =>
      simp only [List.set_cons_succ, List.map_cons]
      rw [ih w (by simpa using h) (by simpa using ha) (by simpa using hb)]

theorem set_getElem_same {α : Type} (l : List α) (i : Nat) (h : i < l.length) :
    l.set i l[i] = l := by
  apply List.ext_getElem?
  intro n
  rw [List.getElem?_set]
  split
  · next heq => subst heq; simp [h]
  · rfl

theorem pairSet_same (cs : List (List Int)) (w : Nat) (h : w + 1 < cs.length) :
    (cs.set w cs[w]).set (w + 1) cs[w + 1] = cs := by
  have h1 : cs.set w cs[w] = cs := set_getElem_same cs w (by omega)
  have h2 : ((cs.set w cs[w]).set (w + 1) cs[w + 1]) = cs.set (w + 1) cs[w + 1] := by
    rw [h1]
  rw [h2]
  exact set_getElem_same cs (w + 1) h

/-- What one exchange step does to the list of chunks. -/
theorem exchange_spec (cs : List (List Int)) (w : Nat) (h : w + 1 < cs.length)
    (r : List Int × List Int × Bool) (hr : trySwapNeighbor cs[w] cs[w + 1] = r) :
    ((cs.set w r.1).set (w + 1) r.2.1).flatten.Perm cs.flatten ∧
    ((cs.set w r.1).set (w + 1) r.2.1).map List.length = cs.map List.length ∧
    weightedSum 0 cs ≤ weightedSum 0 ((cs.set w r.1).set (w + 1) r.2.1) ∧
    (r.2.2 = true → weightedSum 0 cs + 1 ≤ weightedSum 0 ((cs.set w r.1).set (w + 1) r.2.1)) ∧
    (r.2.2 = false → (cs.set w r.1).set (w + 1) r.2.1 = cs) := by
  have hsum : r.1.sum + r.2.1.sum = cs[w].sum + cs[w + 1].sum := by
    rw [← hr]; exact trySwapNeighbor_sum _ _
  have hperm : (r.1 ++ r.2.1).Perm (cs[w] ++ cs[w + 1]) := by
    rw [← hr]; exact trySwapNeighbor_perm _ _
  have hlen : r.1.length = cs[w].length ∧ r.2.1.length = cs[w + 1].length := by
    rw [← hr]; exact trySwapNeighbor_length _ _
  have hgain : r.2.2 = true → cs[w + 1].sum + 1 ≤ r.2.1.sum := by
    rw [← hr]; exact trySwapNeighbor_gain _ _
  have hfalse : r.2.2 = false → r.1 = cs[w] ∧ r.2.1 = cs[w + 1] := by
    rw [← hr]; exact trySwapNeighbor_false _ _
  have hw := pairSet_weightedSum r.1 r.2.1 cs 0 w h hsum
  refine ⟨pairSet_flatten_perm _ _ cs w h hperm,
    pairSet_map_length _ _ cs w h hlen.1 hlen.2, ?_, ?_, ?_⟩
  · rw [hw]
    cases hb : r.2.2 with
    | true => have := hgain hb; omega
    | false => have e := (hfalse hb).2; rw [e]; omega
  · intro hb
    rw [hw]
    have := hgain hb
    omega
  · intro hb
    have e := hfalse hb
    rw [e.1, e.2]
    exact pairSet_same cs w h

/-! ## A sub-phase -/

theorem phaseLoop_zero (phase : String) (round w : Nat) (cs : List (List Int)) (s : Bool)
    (log : List String) : phaseLoop phase round 0 w cs s log = (cs, s, log) := rfl

theorem phaseLoop_stop (phase : String) (round fuel w : Nat) (cs : List (List Int)) (s : Bool)
    (log : List String) (h : ¬ w + 1 < cs.length) :
    phaseLoop phase round fuel w cs s log = (cs, s, log) := by
  cases fuel with
  | zero => rfl
  | succ fuel => rw [phaseLoop, dif_neg h]

theorem phaseLoop_step (phase : String) (round fuel w : Nat) (cs : List (List Int)) (s : Bool)
    (log : List String) (h : w + 1 < cs.length)
    (r : List Int × List Int × Bool) (hr : trySwapNeighbor cs[w] cs[w + 1] = r) :
    phaseLoop phase round (fuel + 1) w cs s log =
      phaseLoop phase round fuel (w + 2) ((cs.set w r.1).set (w + 1) r.2.1) (s || r.2.2)
        (if r.2.2 then log ++ [swapLine phase round w] else log) := by
  subst hr
  rw [phaseLoop, dif_pos h]

theorem phaseLoop_spec (phase : String) (round : Nat) :
    ∀ (fuel w : Nat) (cs : List (List Int)) (s : Bool) (log : List String)
      (r : List (List Int) × Bool × List String),
      phaseLoop phase round fuel w cs s log = r →
      r.1.flatten.Perm cs.flatten ∧ r.1.map List.length = cs.map List.length ∧
      weightedSum 0 cs ≤ weightedSum 0 r.1 ∧
      (s = true → r.2.1 = true) ∧
      (r.2.1 = true → s = false → weightedSum 0 cs + 1 ≤ weightedSum 0 r.1) ∧
      (r.2.1 = false → r.1 = cs) := by
  intro fuel
  induction fuel with
  | zero =>
    intro w cs s log r hr
    rw [phaseLoop_zero] at hr
    subst hr
    refine ⟨List.Perm.refl _, rfl, le_refl _, fun h => h, ?_, fun _ => rfl⟩
    intro h1 h2
    simp only at h1
    rw [h1] at h2
    cases h2
  | succ fuel ih =>
    intro w cs s log r hr
    by_cases h : w + 1 < cs.length
    · obtain ⟨e1, e2, e3, e4, e5⟩ := exchange_spec cs w h _ rfl
      rw [phaseLoop_step phase round fuel w cs s log h _ rfl] at hr
      obtain ⟨i1, i2, i3, i4, i5, i6⟩ := ih _ _ _ _ r hr
      refine ⟨i1.trans e1, i2.trans e2, le_trans e3 i3, ?_, ?_, ?_⟩
      · intro hs; apply i4; simp [hs]
      · intro hr hsf
        cases hb : (trySwapNeighbor cs[w] cs[w + 1]).2.2 with
        | true => have := e4 hb; omega
        | false =>
          have := i5 hr (by simp [hsf, hb])
          omega
      · intro hr
        have hcs := i6 hr
        have hb : (trySwapNeighbor cs[w] cs[w + 1]).2.2 = false := by
          cases hb : (trySwapNeighbor cs[w] cs[w + 1]).2.2 with
          | false => rfl
          | true =>
            have := i4 (by simp [hb])
            rw [this] at hr; cases hr
        rw [hcs]; exact e5 hb
    · rw [phaseLoop_stop phase round _ w cs s log h] at hr
      subst hr
      refine ⟨List.Perm.refl _, rfl, le_refl _, fun h => h, ?_, fun _ => rfl⟩
      intro h1 h2
      simp only at h1
      rw [h1] at h2
      cases h2

end OddEvenSort

namespace OddEvenSort

/-- The bound on the iterations of a sub-phase is never the reason why it
stops: once `chunks.length ≤ w + 1 + 2 * fuel`, more fuel changes nothing. -/
theorem phaseLoop_fuel (phase : String) (round : Nat) :
    ∀ (fuel w : Nat) (cs : List (List Int)) (s : Bool) (log : List String),
      cs.length ≤ w + 1 + 2 * fuel →
      phaseLoop phase round (fuel + 1) w cs s log = phaseLoop phase round fuel w cs s log := by
  intro fuel
  induction fuel with
  | zero =>
    intro w cs s log h
    have hstop : ¬ w + 1 < cs.length := by omega
    rw [phaseLoop_stop phase round 1 w cs s log hstop, phaseLoop_zero]
  | succ fuel ih =>
    intro w cs s log h
    by_cases hw : w + 1 < cs.length
    · rw [phaseLoop_step phase round (fuel + 1) w cs s log hw _ rfl,
        phaseLoop_step phase round fuel w cs s log hw _ rfl]
      apply ih
      simp only [List.length_set]
      omega
    · rw [phaseLoop_stop phase round _ w cs s log hw, phaseLoop_stop phase round _ w cs s log hw]

end OddEvenSort

namespace OddEvenSort

/-! ## A round, and the termination of the loop -/

theorem roundBody_spec (cs : List (List Int)) (round : Nat) (log : List String) :
    (roundBody cs round log).1.flatten.Perm cs.flatten ∧
    (roundBody cs round log).1.map List.length = cs.map List.length ∧
    ((roundBody cs round log).2.1 = true →
      weightedSum 0 cs + 1 ≤ weightedSum 0 (roundBody cs round log).1) ∧
    ((roundBody cs round log).2.1 = false → (roundBody cs round log).1 = cs) := by
  obtain ⟨odd, hodd⟩ : ∃ odd, phaseLoop "Odd" round cs.length 1 cs false log = odd := ⟨_, rfl⟩
  obtain ⟨even, heven⟩ :
    ∃ even, phaseLoop "Even" round odd.1.length 0 odd.1 odd.2.1 odd.2.2 = even := ⟨_, rfl⟩
  have h1 : (roundBody cs round log).1 = even.1 := by
    simp only [roundBody, hodd, heven]
  have h2 : (roundBody cs round log).2.1 = even.2.1 := by
    simp only [roundBody, hodd, heven]
  rw [h1, h2]
  obtain ⟨o1, o2, o3, -, o5, o6⟩ := phaseLoop_spec "Odd" round _ _ _ _ _ odd hodd
  obtain ⟨e1, e2, e3, e4, e5, e6⟩ := phaseLoop_spec "Even" round _ _ _ _ _ even heven
  refine ⟨e1.trans o1, e2.trans o2, ?_, ?_⟩
  · intro h
    rcases Bool.eq_false_or_eq_true odd.2.1 with hb | hb
    · have := o5 hb rfl; omega
    · have := e5 h hb; omega
  · intro h
    have hb : odd.2.1 = false := by
      rcases Bool.eq_false_or_eq_true odd.2.1 with hb | hb
      · have := e4 hb; rw [this] at h; cases h
      · exact hb
    rw [e6 h, o6 hb]

theorem sum_le_sum_abs (c : List Int) : c.sum ≤ (c.map (fun x => |x|)).sum ∧
    -(c.map (fun x => |x|)).sum ≤ c.sum := by
  induction c with
  | nil => simp
  | cons x xs ih =>
    simp only [List.sum_cons, List.map_cons]
    have h1 := le_abs_self x
    have h2 := neg_abs_le x
    omega

theorem absTotal_cons (c : List Int) (cs : List (List Int)) :
    absTotal (c :: cs) = (c.map (fun x => |x|)).sum + absTotal cs := by
  simp [absTotal]

theorem absTotal_nonneg (cs : List (List Int)) : 0 ≤ absTotal cs := by
  unfold absTotal
  apply List.sum_nonneg
  intro x hx
  simp only [List.mem_map] at hx
  obtain ⟨y, _, rfl⟩ := hx
  exact abs_nonneg y

theorem weightedSum_le (cs : List (List Int)) :
    ∀ i : Nat, weightedSum i cs ≤ ((i : Int) + cs.length) * absTotal cs := by
  induction cs with
  | nil => intro i; simp [weightedSum, absTotal]
  | cons c cs ih =>
    intro i
    have h := ih (i + 1)
    have hc := (sum_le_sum_abs c).1
    have hn := absTotal_nonneg cs
    have hcn : 0 ≤ (c.map (fun x => |x|)).sum := by
      have := absTotal_nonneg [c]
      simpa [absTotal] using this
    rw [absTotal_cons]
    simp only [weightedSum, List.length_cons]
    push_cast at h ⊢
    have hi : (0 : Int) ≤ i := Int.ofNat_nonneg i
    have hl : (0 : Int) ≤ (cs.length : Int) := Int.ofNat_nonneg _
    nlinarith [mul_le_mul_of_nonneg_left hc hi, mul_nonneg hl hcn, mul_nonneg hi hn,
      mul_nonneg hl hn]

theorem absTotal_perm (cs cs' : List (List Int)) (h : cs'.flatten.Perm cs.flatten) :
    absTotal cs' = absTotal cs := by
  unfold absTotal
  exact (h.map _).sum_eq

theorem roundBound_decreases (cs : List (List Int)) (round : Nat) (log : List String)
    (h : (roundBody cs round log).2.1 = true) :
    roundBound (roundBody cs round log).1 + 1 ≤ roundBound cs := by
  obtain ⟨p, l, g, -⟩ := roundBody_spec cs round log
  have hg := g h
  have hlen : (roundBody cs round log).1.length = cs.length := by
    have := congrArg List.length l
    simpa using this
  have habs := absTotal_perm cs _ p
  have hb := weightedSum_le (roundBody cs round log).1 0
  unfold roundBound
  rw [hlen, habs]
  rw [hlen, habs] at hb
  simp only [Nat.cast_zero, zero_add] at hb
  omega

theorem afterRounds_succ (cs : List (List Int)) (round : Nat) (log : List String) :
    ∀ n, afterRounds cs round log (n + 1) =
      afterRounds (roundBody cs round log).1 (round + 1) (roundBody cs round log).2.2 n := by
  intro n
  induction n with
  | zero => rfl
  | succ n ih =>
    rw [afterRounds, ih]
    rfl

theorem swappedIn_succ (cs : List (List Int)) (round : Nat) (log : List String) (n : Nat) :
    swappedIn cs round log (n + 1) =
      swappedIn (roundBody cs round log).1 (round + 1) (roundBody cs round log).2.2 n := by
  unfold swappedIn
  rw [afterRounds_succ]

theorem roundLoop_succ (fuel : Nat) (cs : List (List Int)) (round : Nat) (log : List String) :
    roundLoop (fuel + 1) cs round log =
      if (roundBody cs round log).2.1 then
        roundLoop fuel (roundBody cs round log).1 (round + 1) (roundBody cs round log).2.2
      else some ((roundBody cs round log).1, round + 1, (roundBody cs round log).2.2) := rfl

/-- The loop stops: some pass `n ≤ b` is the first without a swap, and with
more than `n` units of fuel the loop returns the state after `n + 1` passes. -/
theorem roundLoop_terminates :
    ∀ (b : Nat) (cs : List (List Int)) (round : Nat) (log : List String),
      roundBound cs ≤ b →
      ∃ n, n ≤ b ∧ swappedIn cs round log n = false ∧
        (∀ m, m < n → swappedIn cs round log m = true) ∧
        ∀ fuel, n < fuel →
          roundLoop fuel cs round log = some (afterRounds cs round log (n + 1)) := by
  intro b
  induction b with
  | zero =>
    intro cs round log hb
    have hsw : (roundBody cs round log).2.1 = false := by
      cases h : (roundBody cs round log).2.1 with
      | false => rfl
      | true => have := roundBound_decreases cs round log h; omega
    refine ⟨0, le_refl _, hsw, fun m hm => absurd hm (Nat.not_lt_zero m), ?_⟩
    intro fuel hf
    obtain ⟨k, rfl⟩ : ∃ k, fuel = k + 1 := ⟨fuel - 1, by omega⟩
    rw [roundLoop_succ, hsw]
    rfl
  | succ b ih =>
    intro cs round log hb
    cases hsw : (roundBody cs round log).2.1 with
    | false =>
      refine ⟨0, Nat.zero_le _, hsw, fun m hm => absurd hm (Nat.not_lt_zero m), ?_⟩
      intro fuel hf
      obtain ⟨k, rfl⟩ : ∃ k, fuel = k + 1 := ⟨fuel - 1, by omega⟩
      rw [roundLoop_succ, hsw]
      rfl
    | true =>
      have hdec := roundBound_decreases cs round log hsw
      obtain ⟨n, hn, h0, hlt, hfuel⟩ :=
        ih (roundBody cs round log).1 (round + 1) (roundBody cs round log).2.2 (by omega)
      refine ⟨n + 1, by omega, ?_, ?_, ?_⟩
      · rw [swappedIn_succ]; exact h0
      · intro m hm
        cases m with
        | zero => exact hsw
        | succ m => rw [swappedIn_succ]; exact hlt m (by omega)
      · intro fuel hf
        obtain ⟨k, rfl⟩ : ∃ k, fuel = k + 1 := ⟨fuel - 1, by omega⟩
        rw [roundLoop_succ, hsw, afterRounds_succ]
        simp only [if_true]
        exact hfuel k (by omega)

theorem afterRounds_perm (cs : List (List Int)) (round : Nat) (log : List String) :
    ∀ n, (afterRounds cs round log n).1.flatten.Perm cs.flatten ∧
      (afterRounds cs round log n).1.map List.length = cs.map List.length ∧
      (afterRounds cs round log n).2.1 = round + n := by
  intro n
  induction n with
  | zero => exact ⟨List.Perm.refl _, rfl, rfl⟩
  | succ n ih =>
    obtain ⟨p, l, _, _⟩ := roundBody_spec (afterRounds cs round log n).1
      (afterRounds cs round log n).2.1 (afterRounds cs round log n).2.2
    refine ⟨?_, ?_, ?_⟩
    · exact p.trans ih.1
    · exact l.trans ih.2.1
    · show (afterRounds cs round log n).2.1 + 1 = round + (n + 1)
      rw [ih.2.2]; omega

end OddEvenSort

namespace OddEvenSort

/-! ## `splitIntoChunks` -/

theorem offsetAt_succ (base rem i : Nat) :
    offsetAt base rem (i + 1) = offsetAt base rem i + sizeAt base rem i := by
  unfold offsetAt sizeAt
  rw [Nat.succ_mul]
  split <;> omega

theorem offsetAt_le (base rem n i : Nat) (hi : i ≤ n) :
    offsetAt base rem i ≤ n * base + rem := by
  unfold offsetAt
  have := Nat.mul_le_mul_right base hi
  omega

theorem offsetAt_full (base rem n : Nat) (hr : rem ≤ n) :
    offsetAt base rem n = n * base + rem := by
  unfold offsetAt
  omega

theorem splitLoop_length (A : List Int) (base rem : Nat) :
    ∀ k i cursor, (splitLoop A base rem k i cursor).length = k := by
  intro k
  induction k with
  | zero => intro i cursor; rfl
  | succ k ih => intro i cursor; simp [splitLoop, ih]

theorem splitLoop_getElem? (A : List Int) (base rem : Nat) :
    ∀ k i cursor, cursor = offsetAt base rem i → ∀ j, j < k →
      (splitLoop A base rem k i cursor)[j]? =
        some { chunk := (A.drop (offsetAt base rem (i + j))).take (sizeAt base rem (i + j)),
               offset := offsetAt base rem (i + j) } := by
  intro k
  induction k with
  | zero => intro i cursor _ j hj; omega
  | succ k ih =>
    intro i cursor hc j hj
    cases j with
    | zero =>
      subst hc
      simp [splitLoop, sizeAt]
    | succ j =>
      have hc' : cursor + (base + if i < rem then 1 else 0) = offsetAt base rem (i + 1) := by
        rw [offsetAt_succ, hc]; rfl
      have := ih (i + 1) _ hc' j (by omega)
      simp only [splitLoop, List.getElem?_cons_succ]
      rw [this]
      have e : i + 1 + j = i + (j + 1) := by omega
      rw [e]

theorem splitLoop_flatten (A : List Int) (base rem : Nat) :
    ∀ k i cursor, cursor = offsetAt base rem i → A.length ≤ offsetAt base rem (i + k) →
      ((splitLoop A base rem k i cursor).map (·.chunk)).flatten = A.drop cursor := by
  intro k
  induction k with
  | zero =>
    intro i cursor hc hL
    subst hc
    simp only [splitLoop, List.map_nil, List.flatten_nil]
    exact (List.drop_eq_nil_of_le (by simpa using hL)).symm
  | succ k ih =>
    intro i cursor hc hL
    have hc' : cursor + (base + if i < rem then 1 else 0) = offsetAt base rem (i + 1) := by
      rw [offsetAt_succ, hc]; rfl
    have e : i + 1 + k = i + (k + 1) := by omega
    have := ih (i + 1) _ hc' (by rw [e]; exact hL)
    simp only [splitLoop, List.map_cons, List.flatten_cons]
    rw [this, ← List.drop_drop]
    exact List.take_append_drop _ _

/-- The chunk list as a table: entry `j` is the slice of length `sizeAt j`
starting at `offsetAt j`. -/
theorem splitIntoChunks_getElem? (A : List Int) (n j : Nat) (hj : j < n) :
    (splitIntoChunks A (n : Int))[j]? =
      some { chunk := (A.drop (offsetAt (A.length / n) (A.length % n) j)).take
                        (sizeAt (A.length / n) (A.length % n) j),
             offset := offsetAt (A.length / n) (A.length % n) j } := by
  unfold splitIntoChunks
  simp only [Int.toNat_ofNat]
  have := splitLoop_getElem? A (A.length / n) (A.length % n) n 0 0 (by simp [offsetAt]) j hj
  simpa using this

theorem splitIntoChunks_length (A : List Int) (n : Nat) :
    (splitIntoChunks A (n : Int)).length = n := by
  unfold splitIntoChunks
  simp only [Int.toNat_ofNat]
  exact splitLoop_length _ _ _ _ _ _

theorem slice_length (A : List Int) (n j : Nat) (hj : j < n) :
    ((A.drop (offsetAt (A.length / n) (A.length % n) j)).take
      (sizeAt (A.length / n) (A.length % n) j)).length =
      sizeAt (A.length / n) (A.length % n) j := by
  have h1 := offsetAt_le (A.length / n) (A.length % n) n (j + 1) (by omega)
  rw [offsetAt_succ] at h1
  have h2 : n * (A.length / n) + A.length % n = A.length := Nat.div_add_mod _ _
  rw [List.length_take, List.length_drop]
  omega

theorem splitIntoChunks_flatten (A : List Int) (n : Nat) (hn : 1 ≤ n) :
    ((splitIntoChunks A (n : Int)).map (·.chunk)).flatten = A := by
  unfold splitIntoChunks
  simp only [Int.toNat_ofNat]
  have hr : A.length % n ≤ n := (Nat.mod_lt _ (by omega)).le
  have h2 : n * (A.length / n) + A.length % n = A.length := Nat.div_add_mod _ _
  have := splitLoop_flatten A (A.length / n) (A.length % n) n 0 0 (by simp [offsetAt])
    (by rw [Nat.zero_add, offsetAt_full _ _ _ hr]; omega)
  simpa using this

theorem countP_lt_range (r : Nat) : ∀ n, r ≤ n →
    (List.range n).countP (fun j => decide (j < r)) = r := by
  intro n
  induction n with
  | zero => intro h; simp; omega
  | succ n ih =>
    intro h
    rw [List.range_succ, List.countP_append]
    by_cases hr : r ≤ n
    · rw [ih hr]
      have : ¬ n < r := by omega
      simp [this]
    · have hrn : r = n + 1 := by omega
      have hall : (List.range n).countP (fun j => decide (j < r)) = n := by
        rw [List.countP_eq_length.2]
        · simp
        · intro j hj
          simp only [List.mem_range] at hj
          simp; omega
      rw [hall]
      have : n < r := by omega
      simp [this, hrn]

end OddEvenSort

namespace OddEvenSort

theorem splitIntoChunks_eq_map (A : List Int) (n : Nat) :
    splitIntoChunks A (n : Int) = (List.range n).map (fun j =>
      ({ chunk := (A.drop (offsetAt (A.length / n) (A.length % n) j)).take
                    (sizeAt (A.length / n) (A.length % n) j),
         offset := offsetAt (A.length / n) (A.length % n) j } : Chunk)) := by
  apply List.ext_getElem?
  intro j
  by_cases hj : j < n
  · rw [splitIntoChunks_getElem? A n j hj]
    simp [hj]
  · have h1 : (splitIntoChunks A (n : Int))[j]? = none := by
      apply List.getElem?_eq_none
      rw [splitIntoChunks_length]; omega
    rw [h1]
    symm
    apply List.getElem?_eq_none
    rw [List.length_map, List.length_range]; omega

theorem prefix_sizes (A : List Int) (n : Nat) :
    ∀ i, i ≤ n →
      (((splitIntoChunks A (n : Int)).take i).map (fun d => d.chunk.length)).sum =
        offsetAt (A.length / n) (A.length % n) i := by
  intro i
  induction i with
  | zero => intro _; simp [offsetAt]
  | succ i ih =>
    intro hi
    have hi' : i < n := by omega
    rw [List.take_succ, splitIntoChunks_getElem? A n i hi', List.map_append, List.sum_append,
      ih (by omega), offsetAt_succ]
    simp only [Option.toList, List.map_cons, List.map_nil, List.sum_cons, List.sum_nil,
      Nat.add_zero]
    rw [slice_length A n i hi']

/-- Claim C2.  For an array of length `L` and an integer worker count `n ≥ 1`,
`splitIntoChunks` returns exactly `n` chunks; chunk `i` has `L / n + 1`
elements when `i < L % n` and `L / n` elements otherwise; hence exactly
`L % n` chunks, the first ones, have the larger size. -/
theorem splitIntoChunks_sizes (A : List Int) (n : Nat) (hn : 1 ≤ n) :
    (splitIntoChunks A (n : Int)).length = n ∧
    (∀ i, i < n →
      ((splitIntoChunks A (n : Int))[i]?).map (fun c => c.chunk.length) =
        some (A.length / n + if i < A.length % n then 1 else 0)) ∧
    (splitIntoChunks A (n : Int)).countP
      (fun c => decide (c.chunk.length = A.length / n + 1)) = A.length % n := by
  refine ⟨splitIntoChunks_length A n, ?_, ?_⟩
  · intro i hi
    rw [splitIntoChunks_getElem? A n i hi]
    simp only [Option.map_some']
    rw [slice_length A n i hi]
    rfl
  · rw [splitIntoChunks_eq_map, List.countP_map]
    have hr : A.length % n ≤ n := (Nat.mod_lt _ (by omega)).le
    refine Eq.trans ?_ (countP_lt_range (A.length % n) n hr)
    apply List.countP_congr
    intro j hj
    simp only [List.mem_range] at hj
    simp only [Function.comp_apply, decide_eq_true_eq]
    rw [slice_length A n j hj]
    unfold sizeAt
    split <;> omega

/-- Claim C2 at the array `[5, 3, 9, 1, 1, 0, 7]` and three workers. -/
theorem splitIntoChunks_sizes_witness :
    (1 ≤ 3) ∧
    (splitIntoChunks [5, 3, 9, 1, 1, 0, 7] ((3 : Nat) : Int)).length = 3 ∧
    (∀ i, i < 3 →
      ((splitIntoChunks [5, 3, 9, 1, 1, 0, 7] ((3 : Nat) : Int))[i]?).map
        (fun c => c.chunk.length) =
        some ([5, 3, 9, 1, 1, 0, 7].length / 3 +
          if i < [5, 3, 9, 1, 1, 0, 7].length % 3 then 1 else 0)) ∧
    (splitIntoChunks [5, 3, 9, 1, 1, 0, 7] ((3 : Nat) : Int)).countP
      (fun c => decide (c.chunk.length = [5, 3, 9, 1, 1, 0, 7].length / 3 + 1)) =
        [5, 3, 9, 1, 1, 0, 7].length % 3 :=
  ⟨by decide, splitIntoChunks_sizes [5, 3, 9, 1, 1, 0, 7] 3 (by decide)⟩

/-- Claim C3.  The chunks of `splitIntoChunks A n`, `n ≥ 1`, are contiguous and
do not overlap: the offset of chunk `i` is the sum of the sizes of the chunks
before it, chunk `i` lies inside `A` and is the slice of `A` that starts at
its offset, element for element, and the chunks concatenated in list order
give `A` back. -/
theorem splitIntoChunks_contiguous (A : List Int) (n : Nat) (hn : 1 ≤ n) :
    (∀ i c, (splitIntoChunks A (n : Int))[i]? = some c →
      c.offset = (((splitIntoChunks A (n : Int)).take i).map (fun d => d.chunk.length)).sum ∧
      c.offset + c.chunk.length ≤ A.length ∧
      c.chunk = (A.drop c.offset).take c.chunk.length ∧
      (∀ k, k < c.chunk.length → c.chunk[k]? = A[c.offset + k]?)) ∧
    ((splitIntoChunks A (n : Int)).map (·.chunk)).flatten = A := by
  refine ⟨?_, splitIntoChunks_flatten A n hn⟩
  intro i c hc
  have hi : i < n := by
    have := (List.getElem?_eq_some_iff.1 hc).1
    rwa [splitIntoChunks_length] at this
  rw [splitIntoChunks_getElem? A n i hi] at hc
  injection hc with hc
  subst hc
  have hlen := slice_length A n i hi
  have hle := offsetAt_le (A.length / n) (A.length % n) n (i + 1) (by omega)
  rw [offsetAt_succ] at hle
  have h2 : n * (A.length / n) + A.length % n = A.length := Nat.div_add_mod _ _
  refine ⟨(prefix_sizes A n i (by omega)).symm, ?_, ?_, ?_⟩
  · simp only [hlen]; omega
  · simp only [hlen]
  · intro k hk
    simp only [hlen] at hk
    simp only
    rw [List.getElem?_take_of_lt hk, List.getElem?_drop]

/-- Claim C3 at the array `[5, 3, 9, 1, 1, 0, 7]` and three workers: the
chunks concatenate to the array. -/
theorem splitIntoChunks_contiguous_witness :
    (1 ≤ 3) ∧ ((splitIntoChunks [5, 3, 9, 1, 1, 0, 7] ((3 : Nat) : Int)).map
      (·.chunk)).flatten = [5, 3, 9, 1, 1, 0, 7] :=
  ⟨by decide, (splitIntoChunks_contiguous [5, 3, 9, 1, 1, 0, 7] 3 (by decide)).2⟩

end OddEvenSort

namespace OddEvenSort

theorem roundLoop_none_before (n : Nat) :
    ∀ (fuel : Nat) (cs : List (List Int)) (round : Nat) (log : List String),
      (∀ m, m < n → swappedIn cs round log m = true) → fuel ≤ n →
      roundLoop fuel cs round log = none := by
  induction n with
  | zero =>
    intro fuel cs round log _ hf
    have : fuel = 0 := by omega
    subst this
    rfl
  | succ n ih =>
    intro fuel cs round log hsw hf
    cases fuel with
    | zero => rfl
    | succ fuel =>
      have h0 : (roundBody cs round log).2.1 = true := hsw 0 (by omega)
      rw [roundLoop_succ, h0]
      simp only [if_true]
      apply ih
      · intro m hm
        rw [← swappedIn_succ]
        exact hsw (m + 1) (by omega)
      · omega

theorem mergeArrays_sorted (arrays : List (List Int)) :
    (mergeArrays arrays).Sorted (· ≤ ·) :=
  List.sorted_insertionSort _ _

theorem mergeArrays_perm (arrays : List (List Int)) :
    (mergeArrays arrays).Perm arrays.flatten :=
  List.perm_insertionSort _ _

theorem localSort_flatten_perm (arrays : List (List Int)) :
    (arrays.map (fun c => insertionSort c 0 c.length)).flatten.Perm arrays.flatten := by
  induction arrays with
  | nil => exact List.Perm.refl _
  | cons c cs ih =>
    simp only [List.map_cons, List.flatten_cons]
    exact (insertionSort_perm c 0 c.length).append ih

/-- With enough fuel the engine returns, and what it returns is determined by
the state of the loop after its last pass. -/
theorem oddEvenSortParallel_some (chunks : List Chunk) :
    ∃ n, ∀ fuel, n < fuel → ∃ run, oddEvenSortParallel fuel chunks = some run ∧
      run.rounds = n + 1 ∧
      run.sorted = mergeArrays run.chunks ∧
      run.chunks.flatten.Perm (chunks.map (·.chunk)).flatten ∧
      run.chunks.map List.length = (chunks.map (·.chunk)).map List.length := by
  obtain ⟨arrays, harr⟩ :
    ∃ arrays, (chunks.map (·.chunk)).map (fun c => insertionSort c 0 c.length) = arrays :=
    ⟨_, rfl⟩
  obtain ⟨log0, hlog⟩ :
    ∃ log0, arrays.enum.map (fun p => localSortLine p.1 p.2) = log0 := ⟨_, rfl⟩
  obtain ⟨n, -, -, -, hfuel⟩ := roundLoop_terminates _ arrays 0 log0 (le_refl _)
  refine ⟨n, ?_⟩
  intro fuel hf
  have hrun := hfuel fuel hf
  obtain ⟨p, l, hr⟩ := afterRounds_perm arrays 0 log0 (n + 1)
  have hval : oddEvenSortParallel fuel chunks =
      some { chunks := (afterRounds arrays 0 log0 (n + 1)).1,
             rounds := (afterRounds arrays 0 log0 (n + 1)).2.1,
             sorted := mergeArrays (afterRounds arrays 0 log0 (n + 1)).1,
             log := (afterRounds arrays 0 log0 (n + 1)).2.2 ++
               ["All rounds done. Final merged array length = " ++
                 toString (mergeArrays (afterRounds arrays 0 log0 (n + 1)).1).length ++ "."] } := by
    simp only [oddEvenSortParallel, harr, hlog, hrun]
  refine ⟨_, hval, ?_, rfl, ?_, ?_⟩
  · simp only [hr]; omega
  · simp only
    rw [← harr] at p ⊢
    exact p.trans (localSort_flatten_perm _)
  · simp only
    rw [l, ← harr]
    simp [(insertionSort_perm _ _ _).length_eq, Function.comp]

/-- Claim C1.  For every array `A` of integers and every worker count `n ≥ 1`
(also `n > A.length`, where chunks are empty), once the fuel exceeds the
number of rounds `oddEvenSortParallel (splitIntoChunks A n)` returns an array
that is sorted in ascending order, is a permutation of `A`, has the length of
`A`, and is the ascending sort of `A`. -/
theorem oddEvenSortParallel_sorts (A : List Int) (n : Nat) (hn : 1 ≤ n) :
    ∃ r, ∀ fuel, r < fuel →
      ∃ run, oddEvenSortParallel fuel (splitIntoChunks A (n : Int)) = some run ∧
        run.sorted.Sorted (· ≤ ·) ∧ run.sorted.Perm A ∧
        run.sorted.length = A.length ∧ run.sorted = A.insertionSort (· ≤ ·) := by
  obtain ⟨r, hr⟩ := oddEvenSortParallel_some (splitIntoChunks A (n : Int))
  refine ⟨r, ?_⟩
  intro fuel hf
  obtain ⟨run, hrun, -, hs, hp, -⟩ := hr fuel hf
  rw [splitIntoChunks_flatten A n hn] at hp
  have hsorted : run.sorted.Sorted (· ≤ ·) := by rw [hs]; exact mergeArrays_sorted _
  have hperm : run.sorted.Perm A := by
    rw [hs]; exact (mergeArrays_perm _).trans hp
  refine ⟨run, hrun, hsorted, hperm, hperm.length_eq, ?_⟩
  exact List.eq_of_perm_of_sorted (hperm.trans (List.perm_insertionSort _ _).symm) hsorted
    (List.sorted_insertionSort _ _)

/-- Claim C1 at the array `[3, 1, 2]` with five workers, two of them with an
empty chunk. -/
theorem oddEvenSortParallel_sorts_witness :
    (1 ≤ 5) ∧ ∃ r, ∀ fuel, r < fuel →
      ∃ run, oddEvenSortParallel fuel (splitIntoChunks [3, 1, 2] ((5 : Nat) : Int)) = some run ∧
        run.sorted.Sorted (· ≤ ·) ∧ run.sorted.Perm [3, 1, 2] ∧
        run.sorted.length = [3, 1, 2].length ∧
        run.sorted = [3, 1, 2].insertionSort (· ≤ ·) :=
  ⟨by decide, oddEvenSortParallel_sorts [3, 1, 2] 5 (by decide)⟩

/-- Claim C4.  The round loop always ends.  From every list of chunk arrays
(and every value of the round counter) there is a pass `n` that is the first
one in which neither sub-phase swapped; the loop has not returned with `n` or
fewer passes allowed, and returns the state reached after pass `n` as soon as
more are allowed.  Hence `oddEvenSortParallel` returns on every chunk list. -/
theorem roundLoop_ends_at_first_quiet_round (arrays : List (List Int)) (round : Nat)
    (log : List String) (chunks : List Chunk) :
    (∃ n, swappedIn arrays round log n = false ∧
      (∀ m, m < n → swappedIn arrays round log m = true) ∧
      (∀ fuel, fuel ≤ n → roundLoop fuel arrays round log = none) ∧
      (∀ fuel, n < fuel →
        roundLoop fuel arrays round log = some (afterRounds arrays round log (n + 1))) ∧
      (afterRounds arrays round log (n + 1)).2.1 = round + (n + 1)) ∧
    (∃ n, ∀ fuel, n < fuel →
      ∃ run, oddEvenSortParallel fuel chunks = some run ∧ run.rounds = n + 1) := by
  constructor
  · obtain ⟨n, -, h0, hlt, hfuel⟩ := roundLoop_terminates _ arrays round log (le_refl _)
    exact ⟨n, h0, hlt, fun fuel hf => roundLoop_none_before n fuel arrays round log hlt hf,
      hfuel, (afterRounds_perm arrays round log (n + 1)).2.2⟩
  · obtain ⟨n, hn⟩ := oddEvenSortParallel_some chunks
    refine ⟨n, fun fuel hf => ?_⟩
    obtain ⟨run, h1, h2, -⟩ := hn fuel hf
    exact ⟨run, h1, h2⟩

end OddEvenSort

/-! ## Association lists -/

namespace Server

theorem lookup_isSome_iff (ws : List (String × WorkerInfo)) (id : String) :
    (ws.lookup id).isSome = true ↔ id ∈ ws.map (fun p => p.1) := by
  induction ws with
  | nil => simp
  | cons p ps ih =>
    obtain ⟨k, v⟩ := p
    by_cases h : id = k
    · subst h; simp [List.lookup]
    · have h' : (id == k) = false := by simpa using h
      simp only [List.lookup, h', List.map_cons, List.mem_cons, h, false_or]
      exact ih

theorem lookup_eq_none_iff (ws : List (String × WorkerInfo)) (id : String) :
    ws.lookup id = none ↔ ∀ p ∈ ws, p.1 ≠ id := by
  induction ws with
  | nil => simp
  | cons p ps ih =>
    obtain ⟨k, v⟩ := p
    by_cases h : id = k
    · subst h; simp [List.lookup]
    · have h' : (id == k) = false := by simpa using h
      simp only [List.lookup, h', List.mem_cons, forall_eq_or_imp, ih]
      constructor
      · intro hall; exact ⟨fun e => h e.symm, hall⟩
      · intro hall; exact hall.2

theorem lookup_cons_self (ps : List (String × WorkerInfo)) (k : String) (v : WorkerInfo) :
    ((k, v) :: ps).lookup k = some v := by
  simp [List.lookup]

theorem lookup_cons_ne (ps : List (String × WorkerInfo)) (k x : String) (v : WorkerInfo)
    (h : x ≠ k) : ((k, v) :: ps).lookup x = ps.lookup x := by
  have h' : (x == k) = false := by simpa using h
  simp [List.lookup, h']

theorem lookup_filter_ne (ws : List (String × WorkerInfo)) (id x : String) (hx : x ≠ id) :
    (ws.filter (fun p => decide (p.1 ≠ id))).lookup x = ws.lookup x := by
  induction ws with
  | nil => rfl
  | cons p ps ih =>
    obtain ⟨k, v⟩ := p
    by_cases hk : k = id
    · subst hk
      rw [List.filter_cons_of_neg (by simp), lookup_cons_ne _ _ _ _ hx, ih]
    · rw [List.filter_cons_of_pos (by simpa using hk)]
      by_cases hxk : x = k
      · subst hxk
        rw [lookup_cons_self, lookup_cons_self]
      · rw [lookup_cons_ne _ _ _ _ hxk, lookup_cons_ne _ _ _ _ hxk, ih]

theorem lookup_filter_self (ws : List (String × WorkerInfo)) (id : String) :
    (ws.filter (fun p => decide (p.1 ≠ id))).lookup id = none := by
  rw [lookup_eq_none_iff]
  intro p hp
  simp only [List.mem_filter, decide_eq_true_eq] at hp
  exact hp.2

theorem lookup_mapStatus_ne (ws : List (String × WorkerInfo)) (id status x : String)
    (hx : x ≠ id) :
    (ws.map (fun p => if p.1 = id then (p.1, { p.2 with status := status }) else p)).lookup x =
      ws.lookup x := by
  induction ws with
  | nil => rfl
  | cons p ps ih =>
    obtain ⟨k, v⟩ := p
    rw [List.map_cons]
    by_cases hk : k = id
    · subst hk
      rw [if_pos rfl, lookup_cons_ne _ _ _ _ hx, lookup_cons_ne _ _ _ _ hx, ih]
    · rw [if_neg hk]
      by_cases hxk : x = k
      · subst hxk
        rw [lookup_cons_self, lookup_cons_self]
      · rw [lookup_cons_ne _ _ _ _ hxk, lookup_cons_ne _ _ _ _ hxk, ih]

theorem lookup_mapStatus_self (ws : List (String × WorkerInfo)) (id status : String) :
    (ws.map (fun p => if p.1 = id then (p.1, { p.2 with status := status }) else p)).lookup id =
      (ws.lookup id).map (fun info => { info with status := status }) := by
  induction ws with
  | nil => rfl
  | cons p ps ih =>
    obtain ⟨k, v⟩ := p
    rw [List.map_cons]
    by_cases hk : k = id
    · subst hk
      rw [if_pos rfl, lookup_cons_self, lookup_cons_self]
      rfl
    · have hne : id ≠ k := fun e => hk e.symm
      rw [if_neg hk, lookup_cons_ne _ _ _ _ hne, lookup_cons_ne _ _ _ _ hne, ih]

theorem keys_mapStatus (ws : List (String × WorkerInfo)) (id status : String) :
    (ws.map (fun p => if p.1 = id then (p.1, { p.2 with status := status }) else p)).map
      (fun p => p.1) = ws.map (fun p => p.1) := by
  rw [List.map_map]
  apply List.map_congr_left
  intro p _
  simp only [Function.comp_apply]
  split <;> rfl

theorem mapStatus_id (ws : List (String × WorkerInfo)) (id status : String)
    (h : ∀ p ∈ ws, p.1 = id → p.2.status = status) :
    ws.map (fun p => if p.1 = id then (p.1, { p.2 with status := status }) else p) = ws := by
  induction ws with
  | nil => rfl
  | cons p ps ih =>
    simp only [List.map_cons]
    rw [ih (fun q hq => h q (List.mem_cons_of_mem _ hq))]
    congr 1
    split
    · next hk =>
      have := h p (List.mem_cons_self _ _) hk
      obtain ⟨k, v⟩ := p
      obtain ⟨n, st, c⟩ := v
      simp only at this
      subst this
      rfl
    · rfl

theorem mapStatus_idem (ws : List (String × WorkerInfo)) (id status : String) :
    (ws.map (fun p => if p.1 = id then (p.1, { p.2 with status := status }) else p)).map
      (fun p => if p.1 = id then (p.1, { p.2 with status := status }) else p) =
    ws.map (fun p => if p.1 = id then (p.1, { p.2 with status := status }) else p) := by
  apply mapStatus_id
  intro p hp hk
  simp only [List.mem_map] at hp
  obtain ⟨q, _, rfl⟩ := hp
  split
  · rfl
  · next hq =>
    split at hk
    · next hq' => exact absurd hq' hq
    · exact absurd hk hq

end Server

/-! ## The registry of `backend/server.js` -/

namespace Backend

open Server OddEvenSort

theorem has_iff (ws : List (String × WorkerInfo)) (id : String) :
    has ws id = true ↔ id ∈ ws.map (fun p => p.1) :=
  lookup_isSome_iff ws id

theorem keys_setStatus (ws : List (String × WorkerInfo)) (id status : String) :
    (setStatus ws id status).map (fun p => p.1) = ws.map (fun p => p.1) := by
  unfold setStatus
  rw [List.map_map]
  apply List.map_congr_left
  intro p _
  simp only [Function.comp_apply]
  split <;> rfl

theorem has_setStatus (ws : List (String × WorkerInfo)) (id status x : String) :
    has (setStatus ws id status) x = has ws x := by
  rw [Bool.eq_iff_iff, has_iff, has_iff, keys_setStatus]

theorem has_append (ws : List (String × WorkerInfo)) (id : String) (w : WorkerInfo)
    (x : String) : has (ws ++ [(id, w)]) x = true ↔ has ws x = true ∨ x = id := by
  rw [has_iff, has_iff]
  simp

theorem has_delete (ws : List (String × WorkerInfo)) (id x : String) :
    has (delete ws id) x = true ↔ has ws x = true ∧ x ≠ id := by
  rw [has_iff, has_iff]
  unfold delete
  simp only [List.mem_map, List.mem_filter, decide_eq_true_eq]
  constructor
  · rintro ⟨p, ⟨hp, hne⟩, rfl⟩
    exact ⟨⟨p, hp, rfl⟩, hne⟩
  · rintro ⟨⟨p, hp, rfl⟩, hne⟩
    exact ⟨p, ⟨hp, hne⟩, rfl⟩

@[simp] theorem emit_workers (s : State) (e : Event) : (emit s e).workers = s.workers := rfl

@[simp] theorem emit_coordinator (s : State) (e : Event) :
    (emit s e).currentCoordinatorId = s.currentCoordinatorId := rfl

@[simp] theorem emit_logBuffer (s : State) (e : Event) :
    (emit s e).logBuffer = s.logBuffer := rfl

@[simp] theorem addLog_workers (s : State) (ts m : String) :
    (addLog s ts m).workers = s.workers := rfl

@[simp] theorem addLog_coordinator (s : State) (ts m : String) :
    (addLog s ts m).currentCoordinatorId = s.currentCoordinatorId := rfl

theorem assignLoop_frame (clock : Nat → String) :
    ∀ (pairs : List (String × Chunk)) (i : Nat) (s : State),
      (assignLoop clock i pairs s).workers = s.workers ∧
      (assignLoop clock i pairs s).currentCoordinatorId = s.currentCoordinatorId := by
  intro pairs
  induction pairs with
  | nil => intro i s; exact ⟨rfl, rfl⟩
  | cons p ps ih =>
    intro i s
    obtain ⟨wid, c⟩ := p
    simp only [assignLoop]
    obtain ⟨h1, h2⟩ := ih (i + 1)
      (addLog (emit s (Event.assignChunk wid c.chunk c.offset)) (clock (2 + i))
        ("Assigned chunk of size " ++ toString c.chunk.length ++ " to Worker " ++ wid))
    exact ⟨h1, h2⟩

theorem engineLog_frame (lines : List String) :
    ∀ s : State,
      (lines.foldl (fun st line => emit st (Event.engineLog line)) s).workers = s.workers ∧
      (lines.foldl (fun st line => emit st (Event.engineLog line)) s).currentCoordinatorId =
        s.currentCoordinatorId := by
  induction lines with
  | nil => intro s; exact ⟨rfl, rfl⟩
  | cons l ls ih =>
    intro s
    simp only [List.foldl_cons]
    obtain ⟨h1, h2⟩ := ih (emit s (Event.engineLog l))
    exact ⟨h1, h2⟩

theorem markCoordinator_frame (s s' : State) (status : String)
    (h : markCoordinator s status = some s') :
    s'.workers.map (fun p => p.1) = s.workers.map (fun p => p.1) ∧
    s'.currentCoordinatorId = s.currentCoordinatorId := by
  unfold markCoordinator at h
  split at h
  · next id hid =>
    split at h
    · injection h with h; subst h; exact ⟨rfl, rfl⟩
    · split at h
      · injection h with h; subst h
        exact ⟨keys_setStatus _ _ _, rfl⟩
      · cases h
  · injection h with h; subst h; exact ⟨rfl, rfl⟩

theorem sortFinished_frame (s : State) (ts tsError : String) (sorted : List Int) :
    (sortFinished s ts tsError sorted).workers.map (fun p => p.1) =
      s.workers.map (fun p => p.1) ∧
    (sortFinished s ts tsError sorted).currentCoordinatorId = s.currentCoordinatorId := by
  unfold sortFinished
  simp only
  split
  · next s2 h2 =>
    obtain ⟨h1, h2⟩ := markCoordinator_frame _ _ _ h2
    exact ⟨h1, h2⟩
  · exact ⟨rfl, rfl⟩

/-- The handler of `POST /start-sort` neither adds nor removes a worker and
leaves the coordinator reference alone. -/
theorem startSort_frame (keys : List String) (s : State) (clock : Nat → String)
    (rand : Nat → Nat) (fuel : Nat) (algorithm : Option String) (arrayLength : ArrayLength)
    (r : State × Response)
    (h : startSort keys s clock rand fuel algorithm arrayLength = some r) :
    r.1.workers.map (fun p => p.1) = s.workers.map (fun p => p.1) ∧
    r.1.currentCoordinatorId = s.currentCoordinatorId := by
  unfold startSort at h
  split at h
  · next alg n =>
    split at h
    · injection h with h; subst h; exact ⟨rfl, rfl⟩
    · split at h
      · injection h with h; subst h; exact ⟨rfl, rfl⟩
      · simp only at h
        split at h
        · injection h with h; subst h; exact ⟨rfl, rfl⟩
        · split at h
          · injection h with h; subst h; exact ⟨rfl, rfl⟩
          · obtain ⟨a1, a2⟩ := assignLoop_frame clock
              ((activeWorkers s.workers).zip
                (splitIntoChunks (randomArray rand n.toNat)
                  ((activeWorkers s.workers).length : Int))) 0
              (addLog (addLog s (clock 0)
                ("🚀 Starting sort: algorithm=" ++ alg ++ ", arrayLength=" ++ toString n))
                (clock 1)
                ("Generated random array: [" ++ joinArray (randomArray rand n.toNat) ++ "]"))
            split at h
            · injection h with h; subst h
              exact ⟨by rw [a1]; rfl, by rw [a2]; rfl⟩
            · next s4 h4 =>
              obtain ⟨m1, m2⟩ := markCoordinator_frame _ _ _ h4
              split at h
              · cases h
              · next run hrun =>
                injection h with h; subst h
                obtain ⟨f1, f2⟩ := sortFinished_frame
                  (run.log.foldl (fun st line => emit st (Event.engineLog line)) s4)
                  (clock (2 + (activeWorkers s.workers).length))
                  (clock (3 + (activeWorkers s.workers).length)) run.sorted
                obtain ⟨e1, e2⟩ := engineLog_frame run.log s4
                refine ⟨?_, ?_⟩
                · simp only
                  rw [f1, e1, m1, a1]; rfl
                · simp only
                  rw [f2, e2, m2, a2]; rfl
  · injection h with h; subst h; exact ⟨rfl, rfl⟩

end Backend

namespace Backend

open Server OddEvenSort

theorem register_present (s : State) (now : Nat) (ts id name status : String)
    (hid : id ≠ "") (hn : name ≠ "") (hs : status ≠ "") (hp : has s.workers id = true) :
    (register s now ts (some id) (some name) (some status)).1.workers =
        setStatus s.workers id status ∧
    (register s now ts (some id) (some name) (some status)).1.currentCoordinatorId =
        s.currentCoordinatorId ∧
    (register s now ts (some id) (some name) (some status)).2 =
        Response.ok s.currentCoordinatorId := by
  simp [register, hid, hn, hs, hp]

theorem register_new (s : State) (now : Nat) (ts id name status : String)
    (hid : id ≠ "") (hn : name ≠ "") (hs : status ≠ "") (hp : has s.workers id = false) :
    (register s now ts (some id) (some name) (some status)).1.workers =
        s.workers ++ [(id, { name := name, status := status, createdAt := now })] ∧
    (register s now ts (some id) (some name) (some status)).1.currentCoordinatorId =
        (if truthy s.currentCoordinatorId then s.currentCoordinatorId else some id) ∧
    (register s now ts (some id) (some name) (some status)).2 =
        Response.ok (register s now ts (some id) (some name) (some status)).1.currentCoordinatorId := by
  simp only [register, hid, hn, hs, hp, or_self, if_false, Bool.false_eq_true]
  split <;> simp

theorem register_rejected (s : State) (now : Nat) (ts : String) (id name status : Option String)
    (h : truthy id = false ∨ truthy name = false ∨ truthy status = false) :
    register s now ts id name status =
      (s, Response.error 400 "id, name, and status are required") := by
  cases id with
  | none => rfl
  | some id =>
    cases name with
    | none => rfl
    | some name =>
      cases status with
      | none => rfl
      | some status =>
        simp only [truthy, decide_eq_false_iff_not, not_not] at h
        simp [register, h]

theorem unregister_present (s : State) (ts id : String) (hid : id ≠ "")
    (hp : has s.workers id = true) :
    (unregister s ts (some id)).1.workers = delete s.workers id ∧
    (unregister s ts (some id)).1.currentCoordinatorId =
        (if s.currentCoordinatorId = some id then none else s.currentCoordinatorId) ∧
    (unregister s ts (some id)).2 =
        Response.ok (unregister s ts (some id)).1.currentCoordinatorId := by
  simp only [unregister, hid, hp, not_true_eq_false, or_self, if_false]
  split <;> simp

theorem unregister_rejected (s : State) (ts : String) (id : Option String)
    (h : truthy id = false ∨ ∃ i, id = some i ∧ has s.workers i = false) :
    unregister s ts id = (s, Response.error 400 "invalid id") := by
  cases id with
  | none => rfl
  | some id =>
    rcases h with h | ⟨i, hi, hp⟩
    · simp only [truthy, decide_eq_false_iff_not, not_not] at h
      simp [unregister, h]
    · injection hi with hi
      subst hi
      simp [unregister, hp]

theorem manualUnregister_present (s : State) (ts id : String)
    (hp : has s.workers id = true) :
    (manualUnregister s ts id).workers = delete s.workers id ∧
    (manualUnregister s ts id).currentCoordinatorId =
        (if s.currentCoordinatorId = some id then none else s.currentCoordinatorId) := by
  simp only [manualUnregister, hp, if_true]
  split <;> simp

theorem manualUnregister_absent (s : State) (ts id : String)
    (hp : has s.workers id = false) : manualUnregister s ts id = s := by
  simp [manualUnregister, hp]

theorem step_coordinatorValid (keys : List String) (s s' : State) (op : Op)
    (hv : CoordinatorValid s) (h : step keys s op = some s') : CoordinatorValid s' := by
  cases op with
  | register now ts id name status =>
    simp only [step, Option.some.injEq] at h
    subst h
    by_cases hr : truthy id = false ∨ truthy name = false ∨ truthy status = false
    · rw [register_rejected s now ts id name status hr]; exact hv
    · simp only [not_or, Bool.not_eq_false] at hr
      obtain ⟨h1, h2, h3⟩ := hr
      obtain ⟨id, rfl⟩ : ∃ i, id = some i := by
        cases id with
        | none => simp [truthy] at h1
        | some i => exact ⟨i, rfl⟩
      obtain ⟨name, rfl⟩ : ∃ i, name = some i := by
        cases name with
        | none => simp [truthy] at h2
        | some i => exact ⟨i, rfl⟩
      obtain ⟨status, rfl⟩ : ∃ i, status = some i := by
        cases status with
        | none => simp [truthy] at h3
        | some i => exact ⟨i, rfl⟩
      simp only [truthy, decide_eq_true_eq] at h1 h2 h3
      rcases Bool.eq_false_or_eq_true (has s.workers id) with hp | hp
      · obtain ⟨e1, e2, -⟩ := register_present s now ts id name status h1 h2 h3 hp
        unfold CoordinatorValid
        rw [e1, e2]
        rcases hv with hv | ⟨c, hc, hcp⟩
        · exact Or.inl hv
        · exact Or.inr ⟨c, hc, by rw [has_setStatus]; exact hcp⟩
      · obtain ⟨e1, e2, -⟩ := register_new s now ts id name status h1 h2 h3 hp
        unfold CoordinatorValid
        rw [e1, e2]
        right
        split
        · next ht =>
          rcases hv with hv | ⟨c, hc, hcp⟩
          · rw [hv] at ht; simp [truthy] at ht
          · exact ⟨c, hc, (has_append _ _ _ _).2 (Or.inl hcp)⟩
        · exact ⟨id, rfl, (has_append _ _ _ _).2 (Or.inr rfl)⟩
  | unregister ts id =>
    simp only [step, Option.some.injEq] at h
    subst h
    by_cases hr : truthy id = false ∨ ∃ i, id = some i ∧ has s.workers i = false
    · rw [unregister_rejected s ts id hr]; exact hv
    · simp only [not_or, Bool.not_eq_false, not_exists, not_and] at hr
      obtain ⟨h1, h2⟩ := hr
      obtain ⟨id, rfl⟩ : ∃ i, id = some i := by
        cases id with
        | none => simp [truthy] at h1
        | some i => exact ⟨i, rfl⟩
      simp only [truthy, decide_eq_true_eq] at h1
      have hp : has s.workers id = true := h2 id rfl
      obtain ⟨e1, e2, -⟩ := unregister_present s ts id h1 hp
      unfold CoordinatorValid
      rw [e1, e2]
      split
      · exact Or.inl rfl
      · next hne =>
        rcases hv with hv | ⟨c, hc, hcp⟩
        · exact Or.inl hv
        · refine Or.inr ⟨c, hc, (has_delete _ _ _).2 ⟨hcp, ?_⟩⟩
          intro hcid
          apply hne
          rw [hc, hcid]
  | requestCoordinatorSwitch ts newId =>
    simp only [step, Option.some.injEq] at h
    subst h
    unfold requestCoordinatorSwitch
    split
    · exact hv
    · next hp =>
      simp only [Bool.not_eq_true, Bool.not_eq_false] at hp
      exact Or.inr ⟨newId, rfl, hp⟩
  | manualUpdate ts id status =>
    simp only [step, Option.some.injEq] at h
    subst h
    unfold manualUpdate
    split
    · rcases hv with hv | ⟨c, hc, hcp⟩
      · exact Or.inl hv
      · exact Or.inr ⟨c, hc, by
          show has (setStatus s.workers id status) c = true
          rw [has_setStatus]; exact hcp⟩
    · exact hv
  | manualUnregister ts id =>
    simp only [step, Option.some.injEq] at h
    subst h
    rcases Bool.eq_false_or_eq_true (has s.workers id) with hp | hp
    · obtain ⟨e1, e2⟩ := manualUnregister_present s ts id hp
      unfold CoordinatorValid
      rw [e1, e2]
      split
      · exact Or.inl rfl
      · next hne =>
        rcases hv with hv | ⟨c, hc, hcp⟩
        · exact Or.inl hv
        · refine Or.inr ⟨c, hc, (has_delete _ _ _).2 ⟨hcp, ?_⟩⟩
          intro hcid
          apply hne
          rw [hc, hcid]
    · rw [manualUnregister_absent s ts id hp]; exact hv
  | startSort clock rand fuel algorithm arrayLength =>
    simp only [step, Option.map_eq_some'] at h
    obtain ⟨r, hr, rfl⟩ := h
    obtain ⟨f1, f2⟩ := startSort_frame keys s clock rand fuel algorithm arrayLength r hr
    rcases hv with hv | ⟨c, hc, hcp⟩
    · exact Or.inl (by rw [f2]; exact hv)
    · refine Or.inr ⟨c, by rw [f2]; exact hc, ?_⟩
      rw [has_iff] at hcp ⊢
      rw [f1]; exact hcp

theorem run_coordinatorValid (keys : List String) :
    ∀ (ops : List Op) (s s' : State), CoordinatorValid s → run keys s ops = some s' →
      CoordinatorValid s' := by
  intro ops
  induction ops with
  | nil =>
    intro s s' hv h
    simp only [run, Option.some.injEq] at h
    subst h; exact hv
  | cons op ops ih =>
    intro s s' hv h
    simp only [run] at h
    split at h
    · next s1 h1 => exact ih s1 s' (step_coordinatorValid keys s s1 op hv h1) h
    · cases h

/-- In `backend/server.js` the coordinator reference of every reachable state
is empty or the id of a worker in the map. -/
theorem reachable_coordinatorValid (keys : List String) (s : State)
    (h : Reachable keys s) : CoordinatorValid s := by
  obtain ⟨ops, hops⟩ := h
  exact run_coordinatorValid keys ops State.empty s (Or.inl rfl) hops

end Backend

/-! ## The registry of `WebsiteFinal/backend/server.js` -/

namespace WebsiteFinal

open Server OddEvenSort

@[simp] theorem emit_workers_obj (s : State) (e : Event) : (emit s e).workers = s.workers := rfl

@[simp] theorem emit_prototypeStatus (s : State) (e : Event) :
    (emit s e).prototypeStatus = s.prototypeStatus := rfl

@[simp] theorem emit_coordinator_obj (s : State) (e : Event) :
    (emit s e).currentCoordinatorId = s.currentCoordinatorId := rfl

@[simp] theorem addLog_workers_obj (s : State) (ts m : String) :
    (addLog s ts m).workers = s.workers := rfl

@[simp] theorem addLog_prototypeStatus (s : State) (ts m : String) :
    (addLog s ts m).prototypeStatus = s.prototypeStatus := rfl

@[simp] theorem addLog_coordinator_obj (s : State) (ts m : String) :
    (addLog s ts m).currentCoordinatorId = s.currentCoordinatorId := rfl

theorem lookup_record_of (s : State) (id : String) (info : WorkerInfo)
    (h : s.workers.lookup id = some info) : lookup s id = Slot.record info := by
  simp [lookup, h]

theorem lookup_proto_of (s : State) (id : String) (h : s.workers.lookup id = none)
    (hid : id = "__proto__") : lookup s id = Slot.prototypeObject := by
  unfold lookup
  rw [h]
  simp only [hid, if_true]

theorem lookup_builtin_of (s : State) (id : String) (h : s.workers.lookup id = none)
    (hid : id ≠ "__proto__") (hm : id ∈ objectPrototypeMembers) :
    lookup s id = Slot.builtin := by
  unfold lookup
  rw [h]
  simp only [hid, if_false, hm, if_true]

theorem lookup_inherited_of (s : State) (id v : String) (h : s.workers.lookup id = none)
    (hid : id ≠ "__proto__") (hm : id ∉ objectPrototypeMembers) (hs : id = "status")
    (hv : s.prototypeStatus = some v) : lookup s id = Slot.inherited v := by
  unfold lookup
  rw [h]
  simp only [hid, if_false, hm, hv]
  simp only [hs, if_true]

/-- The five outcomes of the read `workers[id]`. -/
theorem lookup_cases (s : State) (id : String) :
    (∃ info, s.workers.lookup id = some info ∧ lookup s id = Slot.record info) ∨
    (s.workers.lookup id = none ∧ id = "__proto__" ∧ lookup s id = Slot.prototypeObject) ∨
    (s.workers.lookup id = none ∧ id ≠ "__proto__" ∧ id ∈ objectPrototypeMembers ∧
      lookup s id = Slot.builtin) ∨
    (s.workers.lookup id = none ∧ id ≠ "__proto__" ∧ id ∉ objectPrototypeMembers ∧
      id = "status" ∧ ∃ v, s.prototypeStatus = some v ∧ lookup s id = Slot.inherited v) ∨
    (s.workers.lookup id = none ∧ lookup s id = Slot.undefined) := by
  cases h : s.workers.lookup id with
  | some info => exact Or.inl ⟨info, rfl, lookup_record_of s id info h⟩
  | none =>
    right
    by_cases hid : id = "__proto__"
    · exact Or.inl ⟨rfl, hid, lookup_proto_of s id h hid⟩
    · right
      by_cases hm : id ∈ objectPrototypeMembers
      · exact Or.inl ⟨rfl, hid, hm, lookup_builtin_of s id h hid hm⟩
      · right
        by_cases hs : id = "status"
        · cases hv : s.prototypeStatus with
          | some v => exact Or.inl ⟨rfl, hid, hm, hs, v, rfl, lookup_inherited_of s id v h hid hm hs hv⟩
          | none =>
            right
            refine ⟨rfl, ?_⟩
            unfold lookup
            rw [h]
            simp only [hid, if_false, hm, hv]
            simp only [hs, if_true]
        · right
          refine ⟨rfl, ?_⟩
          unfold lookup
          rw [h]
          simp only [hid, if_false, hm, hs]

theorem bodyStatus_idem (s : State) (status : Option String) :
    bodyStatus s (bodyStatus s status) = bodyStatus s status := by
  cases status with
  | some v => rfl
  | none =>
    simp only [bodyStatus]
    cases s.prototypeStatus <;> rfl

/-- The handler sees the field `status` only through the read `req.body.status`. -/
theorem register_bodyStatus (s : State) (now : Nat) (ts : String)
    (id name status : Option String) :
    register s now ts id name status = register s now ts id name (bodyStatus s status) := by
  unfold register
  rw [bodyStatus_idem]

theorem register_rejected_obj (s : State) (now : Nat) (ts : String) (id name status : Option String)
    (h : truthy id = false ∨ truthy name = false ∨ truthy (bodyStatus s status) = false) :
    register s now ts id name status =
      (s, Response.error 400 "id, name, and status are required") := by
  unfold register
  cases id with
  | none => rfl
  | some id =>
    cases name with
    | none => rfl
    | some name =>
      cases hb : bodyStatus s status with
      | none => rfl
      | some status =>
        rw [hb] at h
        simp only [truthy, decide_eq_false_iff_not, not_not] at h
        simp [h]

theorem register_existing (s s1 : State) (now : Nat) (ts id name status : String)
    (hid : id ≠ "") (hn : name ≠ "") (hs : status ≠ "") (he : exists? s id = true)
    (ha : assignStatus s id status = some s1) :
    (register s now ts (some id) (some name) (some status)).1.workers = s1.workers ∧
    (register s now ts (some id) (some name) (some status)).1.prototypeStatus =
        s1.prototypeStatus ∧
    (register s now ts (some id) (some name) (some status)).1.currentCoordinatorId =
        s1.currentCoordinatorId ∧
    (register s now ts (some id) (some name) (some status)).2 =
        Response.ok s1.currentCoordinatorId := by
  simp [register, bodyStatus, hid, hn, hs, he, ha]

theorem register_new_obj (s : State) (now : Nat) (ts id name status : String)
    (hid : id ≠ "") (hn : name ≠ "") (hs : status ≠ "") (he : exists? s id = false) :
    (register s now ts (some id) (some name) (some status)).1.workers =
        insertOwn s.workers id { name := name, status := status, createdAt := now } ∧
    (register s now ts (some id) (some name) (some status)).1.prototypeStatus =
        s.prototypeStatus ∧
    (register s now ts (some id) (some name) (some status)).1.currentCoordinatorId =
        (if truthy s.currentCoordinatorId then s.currentCoordinatorId else some id) ∧
    (register s now ts (some id) (some name) (some status)).2 =
        Response.ok (register s now ts (some id) (some name) (some status)).1.currentCoordinatorId := by
  simp only [register, bodyStatus, hid, hn, hs, he, or_self, if_false, Bool.false_eq_true]
  split <;> simp

/-- A register request is answered `400` with the state left alone, or it is
handled as the request with the three values the reads of the body yield. -/
theorem register_cases (s : State) (now : Nat) (ts : String) (id name status : Option String) :
    ((truthy id = false ∨ truthy name = false ∨ truthy (bodyStatus s status) = false) ∧
      register s now ts id name status =
        (s, Response.error 400 "id, name, and status are required")) ∨
    (∃ i n st, id = some i ∧ name = some n ∧ bodyStatus s status = some st ∧
      i ≠ "" ∧ n ≠ "" ∧ st ≠ "" ∧
      register s now ts id name status = register s now ts (some i) (some n) (some st)) := by
  by_cases h : truthy id = false ∨ truthy name = false ∨ truthy (bodyStatus s status) = false
  · exact Or.inl ⟨h, register_rejected_obj s now ts id name status h⟩
  · right
    cases id with
    | none => exact absurd (Or.inl rfl) h
    | some i =>
      cases name with
      | none => exact absurd (Or.inr (Or.inl rfl)) h
      | some n =>
        cases hb : bodyStatus s status with
        | none => exact absurd (Or.inr (Or.inr (by rw [hb]; rfl))) h
        | some st =>
          rw [hb] at h
          refine ⟨i, n, st, rfl, rfl, rfl, ?_, ?_, ?_, ?_⟩
          · intro e; exact h (Or.inl (by simp [truthy, e]))
          · intro e; exact h (Or.inr (Or.inl (by simp [truthy, e])))
          · intro e; exact h (Or.inr (Or.inr (by simp [truthy, e])))
          · rw [register_bodyStatus, hb]

theorem unregister_existing (s : State) (ts id : String) (hid : id ≠ "")
    (he : exists? s id = true) :
    (unregister s ts (some id)).1.workers = deleteOwn s.workers id ∧
    (unregister s ts (some id)).1.prototypeStatus = s.prototypeStatus ∧
    (unregister s ts (some id)).1.currentCoordinatorId =
        (if s.currentCoordinatorId = some id then none else s.currentCoordinatorId) ∧
    (unregister s ts (some id)).2 =
        Response.ok (unregister s ts (some id)).1.currentCoordinatorId := by
  simp only [unregister, hid, he, not_true_eq_false, or_self, if_false]
  split <;> simp

theorem insertOwn_split (ws : List (String × WorkerInfo)) (id : String) (info : WorkerInfo) :
    ∃ l1 l2, insertOwn ws id info = l1 ++ (id, info) :: l2 ∧ ws = l1 ++ l2 := by
  unfold insertOwn
  split
  · exact ⟨_, _, rfl, (List.takeWhile_append_dropWhile _ _).symm⟩
  · exact ⟨ws, [], rfl, (List.append_nil _).symm⟩

theorem lookup_insertOwn (ws : List (String × WorkerInfo)) (id : String) (info : WorkerInfo)
    (h : ws.lookup id = none) : (insertOwn ws id info).lookup id = some info := by
  obtain ⟨l1, l2, e, rfl⟩ := insertOwn_split ws id info
  rw [e]
  rw [lookup_eq_none_iff] at h
  have h1 : ∀ p ∈ l1, p.1 ≠ id := fun p hp => h p (List.mem_append_left _ hp)
  clear h e
  induction l1 with
  | nil => exact lookup_cons_self _ _ _
  | cons p ps ih =>
    obtain ⟨k, v⟩ := p
    have hk : id ≠ k := fun e => h1 (k, v) (List.mem_cons_self _ _) e.symm
    rw [List.cons_append, lookup_cons_ne _ _ _ _ hk]
    exact ih (fun q hq => h1 q (List.mem_cons_of_mem _ hq))

theorem setOwnStatus_insertOwn (ws : List (String × WorkerInfo)) (id name status : String)
    (now : Nat) (h : ws.lookup id = none) :
    setOwnStatus (insertOwn ws id { name := name, status := status, createdAt := now })
      id status = insertOwn ws id { name := name, status := status, createdAt := now } := by
  unfold setOwnStatus
  apply mapStatus_id
  intro p hp hk
  obtain ⟨l1, l2, e, hw⟩ := insertOwn_split ws id
    { name := name, status := status, createdAt := now }
  rw [e] at hp
  rw [lookup_eq_none_iff, hw] at h
  simp only [List.mem_append, List.mem_cons] at hp
  rcases hp with hp | hp | hp
  · exact absurd hk (h p (List.mem_append_left _ hp))
  · rw [hp]
  · exact absurd hk (h p (List.mem_append_right _ hp))

end WebsiteFinal

/-! ## The claims about the registry -/

namespace Registry

open Server

/-- Claim C5.  In `backend/server.js` every state reachable from the empty
registry by register, unregister, request_coordinator_switch, manual_update,
manual_unregister and start-sort has a coordinator reference that is empty or
the id of a worker in the map.  In `WebsiteFinal/backend/server.js` the same
does not hold: from the empty registry, `request_coordinator_switch` with the
id `constructor` passes the test `!workers[newId]` (the object literal
inherits `constructor`) and leaves the coordinator reference pointing at an id
for which there is no worker. -/
theorem coordinator_reference_invariant :
    (∀ (keys : List String) (s : Backend.State),
      Backend.Reachable keys s → Backend.CoordinatorValid s) ∧
    (∃ s, WebsiteFinal.run [] WebsiteFinal.State.empty
        [WebsiteFinal.Op.requestCoordinatorSwitch "t" "constructor"] = some s ∧
      s.currentCoordinatorId = some "constructor" ∧ s.workers = [] ∧
      WebsiteFinal.enumerate s = []) :=
  ⟨Backend.reachable_coordinatorValid, ⟨_, rfl, by decide, by decide, by decide⟩⟩

/-- Claim C6.  In `backend/server.js`, register of an id that is not in the map
makes that worker the coordinator when none is set, leaves the coordinator
alone when one is set, and answers with the coordinator id held after the
call; `w1` then `w2` both answer `w1`.  In `WebsiteFinal/backend/server.js`
the id `constructor`, never registered before, is taken for an existing
worker: no worker is created, no coordinator is set and the answer carries no
coordinator. -/
theorem register_elects_first :
    (∀ (s : Backend.State) (now : Nat) (ts id name status : String),
      id ≠ "" → name ≠ "" → status ≠ "" → Backend.has s.workers id = false →
      (s.currentCoordinatorId = none →
        (Backend.register s now ts (some id) (some name) (some status)).1.currentCoordinatorId
          = some id) ∧
      (∀ c, s.currentCoordinatorId = some c → c ≠ "" →
        (Backend.register s now ts (some id) (some name) (some status)).1.currentCoordinatorId
          = some c) ∧
      (Backend.register s now ts (some id) (some name) (some status)).2 =
        Response.ok
          (Backend.register s now ts (some id) (some name) (some status)).1.currentCoordinatorId ∧
      (Backend.register s now ts (some id) (some name) (some status)).1.workers =
        s.workers ++ [(id, { name := name, status := status, createdAt := now })]) ∧
    ((Backend.register Backend.State.empty 1 "t1" (some "w1") (some "a")
        (some "connected")).2 = Response.ok (some "w1") ∧
     (Backend.register (Backend.register Backend.State.empty 1 "t1" (some "w1") (some "a")
        (some "connected")).1 2 "t2" (some "w2") (some "b") (some "connected")).2 =
        Response.ok (some "w1")) ∧
    ((WebsiteFinal.register WebsiteFinal.State.empty 1 "t1" (some "constructor") (some "a")
        (some "connected")).2 = Response.ok none ∧
     (WebsiteFinal.register WebsiteFinal.State.empty 1 "t1" (some "constructor") (some "a")
        (some "connected")).1.currentCoordinatorId = none ∧
     (WebsiteFinal.register WebsiteFinal.State.empty 1 "t1" (some "constructor") (some "a")
        (some "connected")).1.workers = []) := by
  refine ⟨?_, ⟨by decide, by decide⟩, ⟨by decide, by decide, by decide⟩⟩
  intro s now ts id name status hid hn hs hp
  obtain ⟨e1, e2, e3⟩ := Backend.register_new s now ts id name status hid hn hs hp
  refine ⟨?_, ?_, e3, e1⟩
  · intro hc
    rw [e2, hc]
    rfl
  · intro c hc hne
    rw [e2, hc]
    simp [truthy, hne]

/-- Claim C7.  In both servers, unregister of a present id (ids are non-empty)
removes exactly that worker: the other workers keep their records and their
order; if the id was the coordinator the reference becomes empty, whatever
workers remain, and otherwise it is unchanged. -/
theorem unregister_removes_exactly (sB : Backend.State) (sW : WebsiteFinal.State)
    (ts id : String) (hid : id ≠ "") (hB : Backend.has sB.workers id = true)
    (hW : (sW.workers.lookup id).isSome = true) :
    ((Backend.unregister sB ts (some id)).1.workers =
        sB.workers.filter (fun p => decide (p.1 ≠ id)) ∧
      (Backend.unregister sB ts (some id)).1.workers.lookup id = none ∧
      (∀ x, x ≠ id →
        (Backend.unregister sB ts (some id)).1.workers.lookup x = sB.workers.lookup x) ∧
      (sB.currentCoordinatorId = some id →
        (Backend.unregister sB ts (some id)).1.currentCoordinatorId = none) ∧
      (sB.currentCoordinatorId ≠ some id →
        (Backend.unregister sB ts (some id)).1.currentCoordinatorId =
          sB.currentCoordinatorId)) ∧
    ((WebsiteFinal.unregister sW ts (some id)).1.workers =
        sW.workers.filter (fun p => decide (p.1 ≠ id)) ∧
      (WebsiteFinal.unregister sW ts (some id)).1.workers.lookup id = none ∧
      (∀ x, x ≠ id →
        (WebsiteFinal.unregister sW ts (some id)).1.workers.lookup x = sW.workers.lookup x) ∧
      (sW.currentCoordinatorId = some id →
        (WebsiteFinal.unregister sW ts (some id)).1.currentCoordinatorId = none) ∧
      (sW.currentCoordinatorId ≠ some id →
        (WebsiteFinal.unregister sW ts (some id)).1.currentCoordinatorId =
          sW.currentCoordinatorId)) := by
  constructor
  · obtain ⟨e1, e2, -⟩ := Backend.unregister_present sB ts id hid hB
    rw [e1, e2]
    refine ⟨rfl, lookup_filter_self _ _, fun x hx => lookup_filter_ne _ _ _ hx, ?_, ?_⟩
    · intro hc; rw [if_pos hc]
    · intro hc; rw [if_neg hc]
  · obtain ⟨info, hinfo⟩ := Option.isSome_iff_exists.1 hW
    have he : WebsiteFinal.exists? sW id = true := by
      unfold WebsiteFinal.exists?
      rw [WebsiteFinal.lookup_record_of sW id info hinfo]
      rfl
    obtain ⟨e1, -, e2, -⟩ := WebsiteFinal.unregister_existing sW ts id hid he
    rw [e1, e2]
    refine ⟨rfl, lookup_filter_self _ _, fun x hx => lookup_filter_ne _ _ _ hx, ?_, ?_⟩
    · intro hc; rw [if_pos hc]
    · intro hc; rw [if_neg hc]

end Registry

namespace Registry

open Server

/-- Claim C7 on the example registries: unregistering the coordinator `w1`
leaves `w2` alone and empties the coordinator reference in both servers. -/
theorem unregister_removes_exactly_witness :
    ("w1" ≠ "") ∧ Backend.has exampleBackend.workers "w1" = true ∧
    (exampleWebsiteFinal.workers.lookup "w1").isSome = true ∧
    (Backend.unregister exampleBackend "t" (some "w1")).1.currentCoordinatorId = none ∧
    (WebsiteFinal.unregister exampleWebsiteFinal "t" (some "w1")).1.currentCoordinatorId = none ∧
    (Backend.unregister exampleBackend "t" (some "w1")).1.workers =
      exampleBackend.workers.filter (fun p => decide (p.1 ≠ "w1")) :=
  ⟨by decide, by decide, by decide,
   (unregister_removes_exactly exampleBackend exampleWebsiteFinal "t" "w1"
      (by decide) (by decide) (by decide)).1.2.2.2.1 rfl,
   (unregister_removes_exactly exampleBackend exampleWebsiteFinal "t" "w1"
      (by decide) (by decide) (by decide)).2.2.2.2.1 rfl,
   (unregister_removes_exactly exampleBackend exampleWebsiteFinal "t" "w1"
      (by decide) (by decide) (by decide)).1.1⟩

/-- Claim C8.  In `backend/server.js`, unregister answers `400` exactly when the
id is missing, empty, or not the id of a worker in the map, and then the whole
state (worker map, coordinator reference, log, events broadcast) is unchanged.
In `WebsiteFinal/backend/server.js` the test `!workers[id]` lets the id
`toString` through on the empty registry: the answer is a success, a line is
logged and `worker_removed` is broadcast, although no such worker exists. -/
theorem unregister_rejects_unknown :
    (∀ (s : Backend.State) (ts : String) (id : Option String),
      ((Backend.unregister s ts id).2 = Response.error 400 "invalid id" ↔
        (id = none ∨ id = some "" ∨ ∃ i, id = some i ∧ Backend.has s.workers i = false)) ∧
      ((Backend.unregister s ts id).2 = Response.error 400 "invalid id" →
        (Backend.unregister s ts id).1 = s)) ∧
    (WebsiteFinal.unregister WebsiteFinal.State.empty "t" (some "toString") =
      ({ workers := [], prototypeStatus := none, currentCoordinatorId := none,
         logBuffer := ["[t] Worker left: toString"],
         emitted := [Event.logUpdate "[t] Worker left: toString",
                     Event.workerRemoved "toString" none] },
       Response.ok none)) := by
  refine ⟨?_, by decide⟩
  intro s ts id
  by_cases hr : truthy id = false ∨ ∃ i, id = some i ∧ Backend.has s.workers i = false
  · have e := Backend.unregister_rejected s ts id hr
    rw [e]
    refine ⟨⟨fun _ => ?_, fun _ => rfl⟩, fun _ => rfl⟩
    rcases hr with hr | hr
    · cases id with
      | none => exact Or.inl rfl
      | some i =>
        simp only [truthy, decide_eq_false_iff_not, not_not] at hr
        exact Or.inr (Or.inl (by rw [hr]))
    · exact Or.inr (Or.inr hr)
  · simp only [not_or, Bool.not_eq_false, not_exists, not_and] at hr
    obtain ⟨h1, h2⟩ := hr
    obtain ⟨i, rfl⟩ : ∃ i, id = some i := by
      cases id with
      | none => simp [truthy] at h1
      | some i => exact ⟨i, rfl⟩
    simp only [truthy, decide_eq_true_eq] at h1
    have hp : Backend.has s.workers i = true := h2 i rfl
    obtain ⟨-, -, e3⟩ := Backend.unregister_present s ts i h1 hp
    rw [e3]
    refine ⟨⟨fun h => (by cases h), ?_⟩, fun h => (by cases h)⟩
    rintro (h | h | ⟨j, hj, hjp⟩)
    · cases h
    · injection h with h; exact absurd h h1
    · injection hj with hj
      subst hj
      rw [hp] at hjp
      cases hjp

/-- Claim C9.  In both servers, register of an id that is present (with the
three fields non-empty) changes only the status of that worker: its name and
creation time are kept whatever name is supplied, the other records, the
worker ids and their order are unchanged, and so is the coordinator
reference, which the answer carries. -/
theorem register_present_updates_status (sB : Backend.State) (sW : WebsiteFinal.State)
    (now : Nat) (ts id name status : String)
    (hid : id ≠ "") (hn : name ≠ "") (hs : status ≠ "")
    (hB : Backend.has sB.workers id = true) (hW : (sW.workers.lookup id).isSome = true) :
    ((Backend.register sB now ts (some id) (some name) (some status)).1.workers.map
        (fun p => p.1) = sB.workers.map (fun p => p.1) ∧
      (Backend.register sB now ts (some id) (some name) (some status)).1.workers.lookup id =
        (sB.workers.lookup id).map (fun info => { info with status := status }) ∧
      (∀ x, x ≠ id →
        (Backend.register sB now ts (some id) (some name) (some status)).1.workers.lookup x =
          sB.workers.lookup x) ∧
      (Backend.register sB now ts (some id) (some name) (some status)).1.currentCoordinatorId =
        sB.currentCoordinatorId ∧
      (Backend.register sB now ts (some id) (some name) (some status)).2 =
        Response.ok sB.currentCoordinatorId) ∧
    ((WebsiteFinal.register sW now ts (some id) (some name) (some status)).1.workers.map
        (fun p => p.1) = sW.workers.map (fun p => p.1) ∧
      (WebsiteFinal.register sW now ts (some id) (some name) (some status)).1.workers.lookup id =
        (sW.workers.lookup id).map (fun info => { info with status := status }) ∧
      (∀ x, x ≠ id →
        (WebsiteFinal.register sW now ts (some id) (some name) (some status)).1.workers.lookup x =
          sW.workers.lookup x) ∧
      (WebsiteFinal.register sW now ts (some id) (some name)
        (some status)).1.currentCoordinatorId = sW.currentCoordinatorId ∧
      (WebsiteFinal.register sW now ts (some id) (some name) (some status)).2 =
        Response.ok sW.currentCoordinatorId) := by
  constructor
  · obtain ⟨e1, e2, e3⟩ := Backend.register_present sB now ts id name status hid hn hs hB
    rw [e1, e2, e3]
    exact ⟨keys_mapStatus _ _ _, lookup_mapStatus_self _ _ _,
      fun x hx => lookup_mapStatus_ne _ _ _ _ hx, rfl, rfl⟩
  · obtain ⟨info, hinfo⟩ := Option.isSome_iff_exists.1 hW
    have hl := WebsiteFinal.lookup_record_of sW id info hinfo
    have he : WebsiteFinal.exists? sW id = true := by
      unfold WebsiteFinal.exists?; rw [hl]; rfl
    have ha : WebsiteFinal.assignStatus sW id status =
        some { sW with workers := WebsiteFinal.setOwnStatus sW.workers id status } := by
      unfold WebsiteFinal.assignStatus; rw [hl]
    obtain ⟨e1, -, e2, e3⟩ :=
      WebsiteFinal.register_existing sW _ now ts id name status hid hn hs he ha
    rw [e1, e2, e3]
    exact ⟨keys_mapStatus _ _ _, lookup_mapStatus_self _ _ _,
      fun x hx => lookup_mapStatus_ne _ _ _ _ hx, rfl, rfl⟩

/-- Claim C9 on the example registries: `w2` registers again under another
name; its record keeps the name `b` and the creation time `2`. -/
theorem register_present_updates_status_witness :
    ("w2" ≠ "") ∧ ("other" ≠ "") ∧ ("suspended" ≠ "") ∧
    Backend.has exampleBackend.workers "w2" = true ∧
    (exampleWebsiteFinal.workers.lookup "w2").isSome = true ∧
    (Backend.register exampleBackend 9 "t" (some "w2") (some "other")
        (some "suspended")).1.workers.lookup "w2" =
      (exampleBackend.workers.lookup "w2").map (fun info => { info with status := "suspended" }) ∧
    (WebsiteFinal.register exampleWebsiteFinal 9 "t" (some "w2") (some "other")
        (some "suspended")).1.workers.lookup "w2" =
      (exampleWebsiteFinal.workers.lookup "w2").map
        (fun info => { info with status := "suspended" }) :=
  ⟨by decide, by decide, by decide, by decide, by decide,
   (register_present_updates_status exampleBackend exampleWebsiteFinal 9 "t" "w2" "other"
      "suspended" (by decide) (by decide) (by decide) (by decide) (by decide)).1.2.1,
   (register_present_updates_status exampleBackend exampleWebsiteFinal 9 "t" "w2" "other"
      "suspended" (by decide) (by decide) (by decide) (by decide) (by decide)).2.2.1⟩

end Registry

namespace Backend

open Server

theorem has_eq_false_iff (ws : List (String × WorkerInfo)) (id : String) :
    has ws id = false ↔ ws.lookup id = none := by
  unfold has
  cases ws.lookup id <;> simp

theorem register_twice (s : State) (now1 now2 : Nat) (ts1 ts2 : String)
    (id name status : Option String) :
    (register (register s now1 ts1 id name status).1 now2 ts2 id name status).1.workers =
      (register s now1 ts1 id name status).1.workers ∧
    (register (register s now1 ts1 id name status).1 now2 ts2 id name
      status).1.currentCoordinatorId =
      (register s now1 ts1 id name status).1.currentCoordinatorId ∧
    (register (register s now1 ts1 id name status).1 now2 ts2 id name status).2 =
      (register s now1 ts1 id name status).2 := by
  by_cases hr : truthy id = false ∨ truthy name = false ∨ truthy status = false
  · rw [register_rejected s now1 ts1 id name status hr]
    simp only
    rw [register_rejected s now2 ts2 id name status hr]
    exact ⟨rfl, rfl, rfl⟩
  · simp only [not_or, Bool.not_eq_false] at hr
    obtain ⟨h1, h2, h3⟩ := hr
    obtain ⟨id, rfl⟩ : ∃ i, id = some i := by
      cases id with
      | none => simp [truthy] at h1
      | some i => exact ⟨i, rfl⟩
    obtain ⟨name, rfl⟩ : ∃ i, name = some i := by
      cases name with
      | none => simp [truthy] at h2
      | some i => exact ⟨i, rfl⟩
    obtain ⟨status, rfl⟩ : ∃ i, status = some i := by
      cases status with
      | none => simp [truthy] at h3
      | some i => exact ⟨i, rfl⟩
    simp only [truthy, decide_eq_true_eq] at h1 h2 h3
    rcases Bool.eq_false_or_eq_true (has s.workers id) with hp | hp
    · obtain ⟨e1, e2, e3⟩ := register_present s now1 ts1 id name status h1 h2 h3 hp
      have hp' : has (register s now1 ts1 (some id) (some name) (some status)).1.workers id
          = true := by rw [e1, has_setStatus]; exact hp
      obtain ⟨f1, f2, f3⟩ := register_present _ now2 ts2 id name status h1 h2 h3 hp'
      rw [f1, f2, f3, e1, e2, e3]
      exact ⟨mapStatus_idem _ _ _, rfl, rfl⟩
    · obtain ⟨e1, e2, e3⟩ := register_new s now1 ts1 id name status h1 h2 h3 hp
      have hp' : has (register s now1 ts1 (some id) (some name) (some status)).1.workers id
          = true := by rw [e1]; exact (has_append _ _ _ _).2 (Or.inr rfl)
      obtain ⟨f1, f2, f3⟩ := register_present _ now2 ts2 id name status h1 h2 h3 hp'
      rw [f1, f2, f3, e3]
      refine ⟨?_, rfl, rfl⟩
      rw [e1]
      unfold setStatus
      apply mapStatus_id
      intro p hp2 hk
      rw [has_eq_false_iff, lookup_eq_none_iff] at hp
      simp only [List.mem_append, List.mem_singleton] at hp2
      rcases hp2 with hp2 | hp2
      · exact absurd hk (hp p hp2)
      · rw [hp2]

end Backend

namespace WebsiteFinal

open Server

theorem assignStatus_record (s : State) (id status : String) (info : WorkerInfo)
    (hl : lookup s id = Slot.record info) :
    assignStatus s id status =
      some { s with workers := setOwnStatus s.workers id status } := by
  unfold assignStatus; rw [hl]

theorem assignStatus_proto (s : State) (id status : String)
    (hl : lookup s id = Slot.prototypeObject) :
    assignStatus s id status = some { s with prototypeStatus := some status } := by
  unfold assignStatus; rw [hl]

theorem assignStatus_builtin (s : State) (id status : String)
    (hl : lookup s id = Slot.builtin) : assignStatus s id status = some s := by
  unfold assignStatus; rw [hl]

theorem assignStatus_inherited (s : State) (id status v : String)
    (hl : lookup s id = Slot.inherited v) : assignStatus s id status = some s := by
  unfold assignStatus; rw [hl]

/-- A register that finds its id and whose assignment changes neither the
worker map nor the inherited status changes nothing that the claims look at. -/
theorem register_again (r r1 : State) (now : Nat) (ts id name status : String)
    (hid : id ≠ "") (hn : name ≠ "") (hs : status ≠ "") (he : exists? r id = true)
    (ha : assignStatus r id status = some r1) (hw : r1.workers = r.workers)
    (hp : r1.prototypeStatus = r.prototypeStatus)
    (hc : r1.currentCoordinatorId = r.currentCoordinatorId) :
    (register r now ts (some id) (some name) (some status)).1.workers = r.workers ∧
    (register r now ts (some id) (some name) (some status)).1.prototypeStatus =
      r.prototypeStatus ∧
    (register r now ts (some id) (some name) (some status)).1.currentCoordinatorId =
      r.currentCoordinatorId ∧
    (register r now ts (some id) (some name) (some status)).2 =
      Response.ok r.currentCoordinatorId := by
  obtain ⟨f1, f2, f3, f4⟩ := register_existing r r1 now ts id name status hid hn hs he ha
  rw [f1, f2, f3, f4, hw, hp, hc]
  exact ⟨rfl, rfl, rfl, rfl⟩

theorem assignStatus_prototypeStatus (s s1 : State) (id status : String)
    (h : assignStatus s id status = some s1) :
    s1.prototypeStatus = s.prototypeStatus ∨ s1.prototypeStatus = some status := by
  unfold assignStatus at h
  split at h
  · injection h with h; subst h; exact Or.inl rfl
  · injection h with h; subst h; exact Or.inr rfl
  · injection h with h; subst h; exact Or.inl rfl
  · injection h with h; subst h; exact Or.inl rfl
  · cases h

/-- After a register request that supplies `status`, `Object.prototype.status`
is what it was or is that status. -/
theorem register_prototypeStatus (s : State) (now : Nat) (ts id name status : String)
    (hid : id ≠ "") (hn : name ≠ "") (hs : status ≠ "") :
    (register s now ts (some id) (some name) (some status)).1.prototypeStatus =
        s.prototypeStatus ∨
    (register s now ts (some id) (some name) (some status)).1.prototypeStatus =
        some status := by
  by_cases he : exists? s id = true
  · cases ha : assignStatus s id status with
    | some s1 =>
      rw [(register_existing s s1 now ts id name status hid hn hs he ha).2.1]
      exact assignStatus_prototypeStatus s s1 id status ha
    | none =>
      left
      simp [register, bodyStatus, hid, hn, hs, he, ha]
  · left
    exact (register_new_obj s now ts id name status hid hn hs (by simpa using he)).2.1

theorem register_twice_some (s : State) (now1 now2 : Nat) (ts1 ts2 : String)
    (id name status : String) (h1 : id ≠ "") (h2 : name ≠ "") (h3 : status ≠ "") :
    (register (register s now1 ts1 (some id) (some name) (some status)).1 now2 ts2 (some id)
      (some name) (some status)).1.workers =
      (register s now1 ts1 (some id) (some name) (some status)).1.workers ∧
    (register (register s now1 ts1 (some id) (some name) (some status)).1 now2 ts2 (some id)
      (some name) (some status)).1.prototypeStatus =
      (register s now1 ts1 (some id) (some name) (some status)).1.prototypeStatus ∧
    (register (register s now1 ts1 (some id) (some name) (some status)).1 now2 ts2 (some id)
      (some name) (some status)).1.currentCoordinatorId =
      (register s now1 ts1 (some id) (some name) (some status)).1.currentCoordinatorId ∧
    (register (register s now1 ts1 (some id) (some name) (some status)).1 now2 ts2 (some id)
      (some name) (some status)).2 =
      (register s now1 ts1 (some id) (some name) (some status)).2 := by
  · obtain ⟨r, hrdef⟩ :
      ∃ r, (register s now1 ts1 (some id) (some name) (some status)).1 = r := ⟨_, rfl⟩
    -- the first call creates the worker
    have fresh : exists? s id = false → s.workers.lookup id = none →
        (register r now2 ts2 (some id) (some name) (some status)).1.workers = r.workers ∧
        (register r now2 ts2 (some id) (some name) (some status)).1.prototypeStatus =
          r.prototypeStatus ∧
        (register r now2 ts2 (some id) (some name) (some status)).1.currentCoordinatorId =
          r.currentCoordinatorId ∧
        (register r now2 ts2 (some id) (some name) (some status)).2 =
          (register s now1 ts1 (some id) (some name) (some status)).2 := by
      intro he hown
      obtain ⟨e1, e2, e3, e4⟩ := register_new_obj s now1 ts1 id name status h1 h2 h3 he
      rw [hrdef] at e1 e2 e3 e4
      have hl1 : lookup r id =
          Slot.record { name := name, status := status, createdAt := now1 } := by
        apply lookup_record_of
        rw [e1]
        exact lookup_insertOwn _ _ _ hown
      have hfix : setOwnStatus r.workers id status = r.workers := by
        rw [e1]
        exact setOwnStatus_insertOwn _ _ _ _ _ hown
      obtain ⟨g1, g2, g3, g4⟩ := register_again r _ now2 ts2 id name status h1 h2 h3
        (by unfold exists?; rw [hl1]; rfl) (assignStatus_record r id status _ hl1) hfix rfl rfl
      exact ⟨g1, g2, g3, by rw [g4, e4]⟩
    rw [hrdef]
    rcases lookup_cases s id with ⟨info, hown, hl⟩ | ⟨hown, hid, hl⟩ | ⟨hown, hid, hm, hl⟩ |
      ⟨hown, hid, hm, hst, v, hv, hl⟩ | ⟨hown, hl⟩
    · obtain ⟨e1, e2, e3, e4⟩ := register_existing s _ now1 ts1 id name status h1 h2 h3
        (by unfold exists?; rw [hl]; rfl) (assignStatus_record s id status info hl)
      rw [hrdef] at e1 e2 e3
      simp only at e1 e2 e3 e4
      have hl1 : lookup r id = Slot.record { info with status := status } := by
        apply lookup_record_of
        rw [e1]
        unfold setOwnStatus
        rw [lookup_mapStatus_self, hown]; rfl
      have hfix : setOwnStatus r.workers id status = r.workers := by
        rw [e1]
        exact mapStatus_idem _ _ _
      obtain ⟨g1, g2, g3, g4⟩ := register_again r _ now2 ts2 id name status h1 h2 h3
        (by unfold exists?; rw [hl1]; rfl) (assignStatus_record r id status _ hl1) hfix rfl rfl
      exact ⟨g1, g2, g3, by rw [g4, e4, e3]⟩
    · obtain ⟨e1, e2, e3, e4⟩ := register_existing s _ now1 ts1 id name status h1 h2 h3
        (by unfold exists?; rw [hl]; rfl) (assignStatus_proto s id status hl)
      rw [hrdef] at e1 e2 e3
      simp only at e1 e2 e3 e4
      have hl1 : lookup r id = Slot.prototypeObject :=
        lookup_proto_of r id (by rw [e1]; exact hown) hid
      obtain ⟨g1, g2, g3, g4⟩ := register_again r _ now2 ts2 id name status h1 h2 h3
        (by unfold exists?; rw [hl1]; rfl) (assignStatus_proto r id status hl1) rfl
        (by show some status = r.prototypeStatus; rw [e2]) rfl
      exact ⟨g1, g2, g3, by rw [g4, e4, e3]⟩
    · obtain ⟨e1, e2, e3, e4⟩ := register_existing s _ now1 ts1 id name status h1 h2 h3
        (by unfold exists?; rw [hl]; rfl) (assignStatus_builtin s id status hl)
      rw [hrdef] at e1 e2 e3
      have hl1 : lookup r id = Slot.builtin :=
        lookup_builtin_of r id (by rw [e1]; exact hown) hid hm
      obtain ⟨g1, g2, g3, g4⟩ := register_again r _ now2 ts2 id name status h1 h2 h3
        (by unfold exists?; rw [hl1]; rfl) (assignStatus_builtin r id status hl1) rfl rfl rfl
      exact ⟨g1, g2, g3, by rw [g4, e4, e3]⟩
    · by_cases hv0 : v = ""
      · exact fresh (by unfold exists?; rw [hl]; simp [Slot.truthy, hv0]) hown
      · obtain ⟨e1, e2, e3, e4⟩ := register_existing s _ now1 ts1 id name status h1 h2 h3
          (by unfold exists?; rw [hl]; simp [Slot.truthy, hv0])
          (assignStatus_inherited s id status v hl)
        rw [hrdef] at e1 e2 e3
        have hl1 : lookup r id = Slot.inherited v :=
          lookup_inherited_of r id v (by rw [e1]; exact hown) hid hm hst (by rw [e2]; exact hv)
        obtain ⟨g1, g2, g3, g4⟩ := register_again r _ now2 ts2 id name status h1 h2 h3
          (by unfold exists?; rw [hl1]; simp [Slot.truthy, hv0])
          (assignStatus_inherited r id status v hl1) rfl rfl rfl
        exact ⟨g1, g2, g3, by rw [g4, e4, e3]⟩
    · exact fresh (by unfold exists?; rw [hl]; rfl) hown

theorem register_twice_obj (s : State) (now1 now2 : Nat) (ts1 ts2 : String)
    (id name status : Option String) :
    (register (register s now1 ts1 id name status).1 now2 ts2 id name status).1.workers =
      (register s now1 ts1 id name status).1.workers ∧
    (register (register s now1 ts1 id name status).1 now2 ts2 id name
      status).1.prototypeStatus =
      (register s now1 ts1 id name status).1.prototypeStatus ∧
    (register (register s now1 ts1 id name status).1 now2 ts2 id name
      status).1.currentCoordinatorId =
      (register s now1 ts1 id name status).1.currentCoordinatorId ∧
    (register (register s now1 ts1 id name status).1 now2 ts2 id name status).2 =
      (register s now1 ts1 id name status).2 := by
  rcases register_cases s now1 ts1 id name status with ⟨hr, hrej⟩ |
    ⟨i, n, st, rfl, rfl, hb, h1, h2, h3, heq⟩
  · rw [hrej]
    simp only
    rw [register_rejected_obj s now2 ts2 id name status hr]
    exact ⟨rfl, rfl, rfl, rfl⟩
  · rw [heq]
    have hb2 : bodyStatus (register s now1 ts1 (some i) (some n) (some st)).1 status =
        some st := by
      cases status with
      | some v => exact hb
      | none =>
        simp only [bodyStatus] at hb ⊢
        rcases register_prototypeStatus s now1 ts1 i n st h1 h2 h3 with hp | hp
        · rw [hp, hb]
        · exact hp
    rw [register_bodyStatus (register s now1 ts1 (some i) (some n) (some st)).1 now2 ts2
      (some i) (some n) status, hb2]
    exact register_twice_some s now1 now2 ts1 ts2 i n st h1 h2 h3

end WebsiteFinal

namespace Registry

open Server

/-- Claim C10.  In both servers register is an idempotent upsert: after any
state and for any request (accepted or not), a second register with the same
id, name and status leaves the worker map (ids, names, statuses, creation
times, order) and the coordinator reference as the first call left them, and
answers what the first call answered. -/
theorem register_idempotent (sB : Backend.State) (sW : WebsiteFinal.State)
    (now1 now2 : Nat) (ts1 ts2 : String) (id name status : Option String) :
    ((Backend.register (Backend.register sB now1 ts1 id name status).1 now2 ts2 id name
        status).1.workers = (Backend.register sB now1 ts1 id name status).1.workers ∧
      (Backend.register (Backend.register sB now1 ts1 id name status).1 now2 ts2 id name
        status).1.currentCoordinatorId =
        (Backend.register sB now1 ts1 id name status).1.currentCoordinatorId ∧
      (Backend.register (Backend.register sB now1 ts1 id name status).1 now2 ts2 id name
        status).2 = (Backend.register sB now1 ts1 id name status).2) ∧
    ((WebsiteFinal.register (WebsiteFinal.register sW now1 ts1 id name status).1 now2 ts2 id
        name status).1.workers = (WebsiteFinal.register sW now1 ts1 id name status).1.workers ∧
      (WebsiteFinal.register (WebsiteFinal.register sW now1 ts1 id name status).1 now2 ts2 id
        name status).1.prototypeStatus =
        (WebsiteFinal.register sW now1 ts1 id name status).1.prototypeStatus ∧
      (WebsiteFinal.register (WebsiteFinal.register sW now1 ts1 id name status).1 now2 ts2 id
        name status).1.currentCoordinatorId =
        (WebsiteFinal.register sW now1 ts1 id name status).1.currentCoordinatorId ∧
      (WebsiteFinal.register (WebsiteFinal.register sW now1 ts1 id name status).1 now2 ts2 id
        name status).2 = (WebsiteFinal.register sW now1 ts1 id name status).2) :=
  ⟨Backend.register_twice sB now1 now2 ts1 ts2 id name status,
   WebsiteFinal.register_twice_obj sW now1 now2 ts1 ts2 id name status⟩

end Registry

/-! ## The partitioner and the engine on degenerate input -/

namespace OddEvenSort

/-- Claim C17, as stated, fails: for the array `[5, 3]` and four workers
`splitIntoChunks` does not fail, it returns four chunks, two of them empty. -/
theorem splitIntoChunks_returns_empty_chunks :
    splitIntoChunks [5, 3] 4 =
      [{ chunk := [5], offset := 0 }, { chunk := [3], offset := 1 },
       { chunk := [], offset := 2 }, { chunk := [], offset := 2 }] ∧
    (∃ c, c ∈ splitIntoChunks [5, 3] 4 ∧ c.chunk = []) ∧
    splitIntoChunks [5, 3] 0 = [] ∧ splitIntoChunks [5, 3] (-2) = [] := by
  refine ⟨by decide, ⟨{ chunk := [], offset := 2 }, by decide, rfl⟩, by decide, by decide⟩

/-- Claim C17, amended.  `splitIntoChunks` has no failing path: for a worker
count `N ≤ 0` it returns the empty list of chunks, and for `N` greater than the
length `L` of the array it returns `N` chunks, the first `L` with one element
each and the other `N - L` empty. -/
theorem splitIntoChunks_degenerate (A : List Int) (N : Int) :
    (N ≤ 0 → splitIntoChunks A N = []) ∧
    (∀ n : Nat, N = (n : Int) → A.length < n →
      (splitIntoChunks A N).length = n ∧
      (∀ i, i < n →
        ((splitIntoChunks A N)[i]?).map (fun c => c.chunk.length) =
          some (if i < A.length then 1 else 0)) ∧
      (splitIntoChunks A N).countP (fun c => decide (c.chunk = [])) = n - A.length) := by
  constructor
  · intro h
    unfold splitIntoChunks
    rw [Int.toNat_of_nonpos h]
    rfl
  · intro n hN hlt
    subst hN
    have hdiv : A.length / n = 0 := Nat.div_eq_of_lt hlt
    have hmod : A.length % n = A.length := Nat.mod_eq_of_lt hlt
    refine ⟨splitIntoChunks_length A n, ?_, ?_⟩
    · intro i hi
      rw [splitIntoChunks_getElem? A n i hi]
      simp only [Option.map_some']
      rw [slice_length A n i hi, hdiv, hmod]
      simp [sizeAt]
    · rw [splitIntoChunks_eq_map, List.countP_map]
      have hcount : (List.range n).countP (fun j => decide (j < A.length)) = A.length :=
        countP_lt_range A.length n (by omega)
      have hsplit := List.length_eq_countP_add_countP (fun j => decide (j < A.length))
        (List.range n)
      rw [hcount, List.length_range] at hsplit
      have hcongr : (List.range n).countP
          ((fun c : Chunk => decide (c.chunk = [])) ∘ fun j =>
            ({ chunk := (A.drop (offsetAt (A.length / n) (A.length % n) j)).take
                          (sizeAt (A.length / n) (A.length % n) j),
               offset := offsetAt (A.length / n) (A.length % n) j } : Chunk)) =
          (List.range n).countP (fun j => decide ¬ decide (j < A.length) = true) := by
        apply List.countP_congr
        intro j hj
        simp only [List.mem_range] at hj
        simp only [Function.comp_apply, decide_eq_true_eq]
        rw [← List.length_eq_zero, slice_length A n j hj, hdiv, hmod]
        unfold sizeAt
        split
        · next h => simp [h]
        · next h => simp [h]
      rw [hcongr]
      omega

/-- Claim C17, amended, on the array `[5, 3]`: with no worker there is no chunk,
with four workers there are four chunks, two of them empty. -/
theorem splitIntoChunks_degenerate_witness :
    ((0 : Int) ≤ 0 ∧ splitIntoChunks [5, 3] 0 = []) ∧
    (4 : Int) = ((4 : Nat) : Int) ∧ ([5, 3] : List Int).length < 4 ∧
    (splitIntoChunks [5, 3] 4).length = 4 ∧
    (splitIntoChunks [5, 3] 4).countP (fun c => decide (c.chunk = [])) =
      4 - ([5, 3] : List Int).length :=
  ⟨⟨by decide, (splitIntoChunks_degenerate [5, 3] 0).1 (by decide)⟩, by decide, by decide,
   ((splitIntoChunks_degenerate [5, 3] 4).2 4 (by decide) (by decide)).1,
   ((splitIntoChunks_degenerate [5, 3] 4).2 4 (by decide) (by decide)).2.2⟩

/-- Claim C18, as stated, fails: on the chunks `[3]`, `[]`, `[1]` the engine
does not fail, it returns the sorted array `[1, 3]` after one round. -/
theorem oddEvenSortParallel_accepts_empty_chunk :
    oddEvenSortParallel 1
      [{ chunk := [3], offset := 0 }, { chunk := [], offset := 1 },
       { chunk := [1], offset := 1 }] =
      some { chunks := [[3], [], [1]], rounds := 1, sorted := [1, 3],
             log := ["Worker 0 locally sorted its chunk: [3]",
                     "Worker 1 locally sorted its chunk: []",
                     "Worker 2 locally sorted its chunk: [1]",
                     "Round 0 completed. Swapped false.",
                     "All rounds done. Final merged array length = 2."] } := by
  decide

/-- Claim C18, amended.  `oddEvenSortParallel` has no failing path: a call of
`trySwapNeighbor` with an empty chunk on either side returns `false` and
changes nothing, and on every list of chunks, empty ones included, the engine
returns (once the fuel exceeds the number of rounds) the ascending sort of the
concatenation of the chunks. -/
theorem oddEvenSortParallel_total (chunks : List Chunk) :
    (∀ b, trySwapNeighbor [] b = ([], b, false)) ∧
    (∀ a, trySwapNeighbor a [] = (a, [], false)) ∧
    ∃ r, ∀ fuel, r < fuel →
      ∃ run, oddEvenSortParallel fuel chunks = some run ∧
        run.sorted.Sorted (· ≤ ·) ∧ run.sorted.Perm (chunks.map (·.chunk)).flatten := by
  refine ⟨fun b => by simp [trySwapNeighbor], fun a => ?_, ?_⟩
  · rcases trySwapNeighbor_cases a [] with ⟨x, y, _, hb, _⟩ | h
    · simp at hb
    · exact h
  · obtain ⟨r, hr⟩ := oddEvenSortParallel_some chunks
    refine ⟨r, fun fuel hf => ?_⟩
    obtain ⟨run, hrun, -, hs, hp, -⟩ := hr fuel hf
    refine ⟨run, hrun, ?_, ?_⟩
    · rw [hs]; exact mergeArrays_sorted _
    · rw [hs]; exact (mergeArrays_perm _).trans hp

end OddEvenSort

/-! ## The chunk invariant -/

namespace OddEvenSort

theorem engineStep_invariant (cs cs' : List (List Int)) (h : EngineStep cs cs') :
    cs'.map List.length = cs.map List.length ∧ cs'.flatten.Perm cs.flatten := by
  cases h with
  | localSort i hi =>
    have hp := insertionSort_perm cs[i] 0 cs[i].length
    constructor
    · apply List.ext_getElem?
      intro k
      simp only [List.getElem?_map, List.getElem?_set]
      by_cases hk : i = k
      · subst hk
        simp [hi, hp.length_eq]
      · simp [hk]
    · clear hp
      induction cs generalizing i with
      | nil => simp at hi
      | cons c cs ih =>
        cases i with
        | zero =>
          simp only [List.set_cons_zero, List.flatten_cons, List.getElem_cons_zero]
          exact (insertionSort_perm c 0 c.length).append_right _
        | succ i =>
          simp only [List.set_cons_succ, List.flatten_cons, List.getElem_cons_succ]
          exact List.Perm.append_left _ (ih i (by simpa using hi))
  | exchange w hw =>
    obtain ⟨e1, e2, -⟩ := exchange_spec cs w hw _ rfl
    exact ⟨e2, e1⟩

theorem engineSteps_invariant (cs cs' : List (List Int))
    (h : Relation.ReflTransGen EngineStep cs cs') :
    cs'.map List.length = cs.map List.length ∧ cs'.flatten.Perm cs.flatten := by
  induction h with
  | refl => exact ⟨rfl, List.Perm.refl _⟩
  | tail _ hstep ih =>
    obtain ⟨h1, h2⟩ := engineStep_invariant _ _ hstep
    exact ⟨h1.trans ih.1, h2.trans ih.2⟩

theorem engineStep_cons (c : List Int) (cs cs' : List (List Int)) (h : EngineStep cs cs') :
    EngineStep (c :: cs) (c :: cs') := by
  cases h with
  | localSort i hi =>
    have := EngineStep.localSort (c :: cs) (i + 1) (by simpa using hi)
    simpa using this
  | exchange w hw =>
    have := EngineStep.exchange (c :: cs) (w + 1) (by simpa using hw)
    simpa using this

theorem engineSteps_cons (c : List Int) (cs cs' : List (List Int))
    (h : Relation.ReflTransGen EngineStep cs cs') :
    Relation.ReflTransGen EngineStep (c :: cs) (c :: cs') := by
  induction h with
  | refl => exact Relation.ReflTransGen.refl
  | tail _ hstep ih => exact ih.tail (engineStep_cons c _ _ hstep)

theorem localSort_steps (arrays : List (List Int)) :
    Relation.ReflTransGen EngineStep arrays
      (arrays.map (fun c => insertionSort c 0 c.length)) := by
  induction arrays with
  | nil => exact Relation.ReflTransGen.refl
  | cons c cs ih =>
    have h0 := EngineStep.localSort (c :: cs) 0 (by simp)
    simp only [List.set_cons_zero, List.getElem_cons_zero] at h0
    exact Relation.ReflTransGen.head h0 (engineSteps_cons _ _ _ ih)

theorem phaseLoop_steps (phase : String) (round : Nat) :
    ∀ (fuel w : Nat) (cs : List (List Int)) (s : Bool) (log : List String),
      Relation.ReflTransGen EngineStep cs (phaseLoop phase round fuel w cs s log).1 := by
  intro fuel
  induction fuel with
  | zero => intro w cs s log; exact Relation.ReflTransGen.refl
  | succ fuel ih =>
    intro w cs s log
    by_cases h : w + 1 < cs.length
    · rw [phaseLoop_step phase round fuel w cs s log h _ rfl]
      exact Relation.ReflTransGen.head (EngineStep.exchange cs w h) (ih _ _ _ _)
    · rw [phaseLoop_stop phase round _ w cs s log h]

theorem roundBody_steps (cs : List (List Int)) (round : Nat) (log : List String) :
    Relation.ReflTransGen EngineStep cs (roundBody cs round log).1 := by
  have h1 := phaseLoop_steps "Odd" round cs.length 1 cs false log
  have h2 := phaseLoop_steps "Even" round
    (phaseLoop "Odd" round cs.length 1 cs false log).1.length 0
    (phaseLoop "Odd" round cs.length 1 cs false log).1
    (phaseLoop "Odd" round cs.length 1 cs false log).2.1
    (phaseLoop "Odd" round cs.length 1 cs false log).2.2
  exact h1.trans h2

theorem roundLoop_steps :
    ∀ (fuel : Nat) (cs : List (List Int)) (round : Nat) (log : List String)
      (r : List (List Int) × Nat × List String),
      roundLoop fuel cs round log = some r → Relation.ReflTransGen EngineStep cs r.1 := by
  intro fuel
  induction fuel with
  | zero => intro cs round log r h; cases h
  | succ fuel ih =>
    intro cs round log r h
    rw [roundLoop_succ] at h
    split at h
    · exact (roundBody_steps cs round log).trans (ih _ _ _ r h)
    · injection h with h
      subst h
      exact roundBody_steps cs round log

theorem oddEvenSortParallel_steps (fuel : Nat) (chunks : List Chunk) (run : SortRun)
    (h : oddEvenSortParallel fuel chunks = some run) :
    Relation.ReflTransGen EngineStep (chunks.map (·.chunk)) run.chunks := by
  unfold oddEvenSortParallel at h
  simp only at h
  split at h
  · cases h
  · next final round log hloop =>
    injection h with h
    subst h
    exact (localSort_steps _).trans (roundLoop_steps fuel _ 0 _ _ hloop)

/-- Claim C20.  Every write of an engine run is the local sort of one chunk or
one call of `trySwapNeighbor` on a pair of neighbours, and each such step, hence
every state reached by any number of them, keeps the length of every chunk and
leaves the concatenation of the chunks a permutation of what it was.  The local
sort phase, every sub-phase stopped after any number of its calls, every round
and the whole run (from the chunks passed in to the chunks left behind) consist
of such steps. -/
theorem chunk_invariant :
    (∀ cs cs' : List (List Int), Relation.ReflTransGen EngineStep cs cs' →
      cs'.map List.length = cs.map List.length ∧ cs'.flatten.Perm cs.flatten) ∧
    (∀ arrays : List (List Int),
      Relation.ReflTransGen EngineStep arrays
        (arrays.map (fun c => insertionSort c 0 c.length))) ∧
    (∀ (phase : String) (round calls w : Nat) (cs : List (List Int)) (s : Bool)
      (log : List String),
      Relation.ReflTransGen EngineStep cs (phaseLoop phase round calls w cs s log).1) ∧
    (∀ (cs : List (List Int)) (round : Nat) (log : List String) (n : Nat),
      (afterRounds cs round log n).1.map List.length = cs.map List.length ∧
      (afterRounds cs round log n).1.flatten.Perm cs.flatten) ∧
    (∀ (fuel : Nat) (chunks : List Chunk) (run : SortRun),
      oddEvenSortParallel fuel chunks = some run →
      Relation.ReflTransGen EngineStep (chunks.map (·.chunk)) run.chunks ∧
      run.chunks.map List.length = (chunks.map (·.chunk)).map List.length ∧
      run.chunks.flatten.Perm (chunks.map (·.chunk)).flatten) := by
  refine ⟨engineSteps_invariant, localSort_steps, phaseLoop_steps, ?_, ?_⟩
  · intro cs round log n
    obtain ⟨p, l, -⟩ := afterRounds_perm cs round log n
    exact ⟨l, p⟩
  · intro fuel chunks run h
    have hs := oddEvenSortParallel_steps fuel chunks run h
    obtain ⟨h1, h2⟩ := engineSteps_invariant _ _ hs
    exact ⟨hs, h1, h2⟩

end OddEvenSort

/-! ## `POST /sort` -/

namespace WebsiteFinal

open Server OddEvenSort

/-- Claim C19.  `POST /sort` of `WebsiteFinal/backend/server.js` takes the worker
count `req.body.workers || 4`, so `4` stands for a missing count and for `0`.
For every array of integers and every count that is then at least `1` it
answers (once the fuel exceeds the number of rounds) with the ascending sort of
the submitted array, a sorted permutation of it; the handler reads the
submitted array through `slice` only, and it answers `400` when the algorithm
or the array is missing.  The sign of the count is not checked: with the count
`-1`, `splitIntoChunks` builds no chunk and the array `[2, 1]` is answered with
`200` and the empty array, which is no permutation of it; so is every array
with every negative count. -/
theorem sortRequest_sorts :
    (effectiveWorkers none = 4 ∧ effectiveWorkers (some 0) = 4) ∧
    (∀ (s : State) (array : List Int) (workers : Option Int),
      1 ≤ effectiveWorkers workers →
      ∃ r, ∀ fuel, r < fuel →
        ∃ s' sorted, sortRequest s fuel (some "oddevensort") (some array) workers =
            some (s', SortReply.sorted sorted) ∧
          sorted.Sorted (· ≤ ·) ∧ sorted.Perm array ∧
          sorted = array.insertionSort (· ≤ ·)) ∧
    (∀ (s : State) (fuel : Nat) (algorithm : Option String) (array : Option (List Int))
      (workers : Option Int), truthy algorithm = false ∨ array = none →
      sortRequest s fuel algorithm array workers =
        some (s, SortReply.error 400 "algorithm and array are required")) ∧
    (sortRequest State.empty 9 (some "oddevensort") (some [3, 1, 2]) (some 3)).map
      (fun r => r.2) = some (SortReply.sorted [1, 2, 3]) ∧
    ((sortRequest State.empty 1 (some "oddevensort") (some [2, 1]) (some (-1))).map
      (fun r => r.2) = some (SortReply.sorted []) ∧ ¬ ([] : List Int).Perm [2, 1]) ∧
    (∀ (s : State) (array : List Int) (workers : Option Int),
      effectiveWorkers workers < 0 →
      ∀ fuel, 0 < fuel →
        ∃ s', sortRequest s fuel (some "oddevensort") (some array) workers =
          some (s', SortReply.sorted [])) := by
  refine ⟨⟨rfl, rfl⟩, ?_, ?_, by decide, ⟨by decide, ?_⟩, ?_⟩
  · intro s array workers hN
    obtain ⟨n, hn⟩ : ∃ n : Nat, effectiveWorkers workers = (n : Int) :=
      ⟨(effectiveWorkers workers).toNat, (Int.toNat_of_nonneg (by omega)).symm⟩
    have hn1 : 1 ≤ n := by omega
    obtain ⟨r, hr⟩ := oddEvenSortParallel_some (splitIntoChunks array (n : Int))
    refine ⟨r, fun fuel hf => ?_⟩
    obtain ⟨run, hrun, -, hs, hp, -⟩ := hr fuel hf
    rw [splitIntoChunks_flatten array n hn1] at hp
    have h1 : run.sorted.Sorted (· ≤ ·) := by rw [hs]; exact mergeArrays_sorted _
    have h2 : run.sorted.Perm array := by rw [hs]; exact (mergeArrays_perm _).trans hp
    have h4 : run.sorted = array.insertionSort (· ≤ ·) :=
      List.eq_of_perm_of_sorted (h2.trans (List.perm_insertionSort _ _).symm) h1
        (List.sorted_insertionSort _ _)
    refine ⟨run.log.foldl (fun st line => emit st (Event.engineLog line)) s, run.sorted,
      ?_, h1, h2, h4⟩
    simp only [sortRequest, hn, hrun]
    rfl
  · intro s fuel algorithm array workers h
    unfold sortRequest
    cases algorithm with
    | none => rfl
    | some a =>
      cases array with
      | none => rfl
      | some arr =>
        rcases h with h | h
        · simp only [truthy, decide_eq_false_iff_not, not_not] at h
          simp [h]
        · cases h
  · intro h
    have := h.length_eq
    simp at this
  · intro s array workers hN fuel hf
    have hsplit : splitIntoChunks array (effectiveWorkers workers) = [] := by
      unfold splitIntoChunks
      rw [Int.toNat_of_nonpos (by omega)]
      rfl
    obtain ⟨k, rfl⟩ : ∃ k, fuel = k + 1 := ⟨fuel - 1, by omega⟩
    refine ⟨["Round 0 completed. Swapped false.",
      "All rounds done. Final merged array length = 0."].foldl
        (fun st line => emit st (Event.engineLog line)) s, ?_⟩
    simp only [sortRequest, hsplit]
    rfl

end WebsiteFinal

/-! ## The claims about the coordinator switch, the eligibility set and start-sort -/

namespace Registry

open Server

/-- Claim C11.  In `backend/server.js`, `request_coordinator_switch` with an id
that is not in the map changes nothing (state, log and broadcast events are
the same), and with an id in the map it makes that id the coordinator and
leaves the worker map alone.  In `WebsiteFinal/backend/server.js` the id
`constructor`, which is no worker, passes the guard `!workers[newId]` on the
empty registry: the coordinator reference is set, a line is logged and two
events are broadcast. -/
theorem coordinator_switch_guard :
    (∀ (s : Backend.State) (ts newId : String),
      (Backend.has s.workers newId = false →
        Backend.requestCoordinatorSwitch s ts newId = s) ∧
      (Backend.has s.workers newId = true →
        (Backend.requestCoordinatorSwitch s ts newId).currentCoordinatorId = some newId ∧
        (Backend.requestCoordinatorSwitch s ts newId).workers = s.workers)) ∧
    (WebsiteFinal.requestCoordinatorSwitch WebsiteFinal.State.empty "t" "constructor" =
      { workers := [], prototypeStatus := none, currentCoordinatorId := some "constructor",
        logBuffer := ["[t] Coordinator switched from (none) to constructor"],
        emitted := [Event.logUpdate "[t] Coordinator switched from (none) to constructor",
                    Event.coordinatorSwitched "constructor" none] }) := by
  refine ⟨?_, by decide⟩
  intro s ts newId
  constructor
  · intro h
    simp [Backend.requestCoordinatorSwitch, h]
  · intro h
    simp [Backend.requestCoordinatorSwitch, h]

end Registry

namespace Server

theorem keys_filter_ne (ws : List (String × WorkerInfo)) (id : String) :
    (ws.filter (fun p => decide (p.1 ≠ id))).map (fun p => p.1) =
      (ws.map (fun p => p.1)).filter (fun x => decide (x ≠ id)) := by
  induction ws with
  | nil => rfl
  | cons p ps ih =>
    by_cases h : p.1 = id
    · rw [List.filter_cons_of_neg (by simpa using h), List.map_cons,
        List.filter_cons_of_neg (by simpa using h), ih]
    · rw [List.filter_cons_of_pos (by simpa using h), List.map_cons, List.map_cons,
        List.filter_cons_of_pos (by simpa using h), ih]

theorem filter_ne_of_not_mem (l : List String) (id : String) (h : id ∉ l) :
    l.filter (fun x => decide (x ≠ id)) = l := by
  apply List.filter_eq_self.2
  intro x hx
  simp only [decide_eq_true_eq]
  intro e
  exact h (e ▸ hx)

theorem mem_iff_lookup (ws : List (String × WorkerInfo))
    (hnd : (ws.map (fun p => p.1)).Nodup) (id : String) (info : WorkerInfo) :
    (id, info) ∈ ws ↔ ws.lookup id = some info := by
  induction ws with
  | nil => simp
  | cons p ps ih =>
    obtain ⟨k, v⟩ := p
    simp only [List.map_cons, List.nodup_cons] at hnd
    by_cases hk : id = k
    · subst hk
      rw [lookup_cons_self]
      constructor
      · intro h
        rcases List.mem_cons.1 h with h | h
        · injection h with _ h2; rw [h2]
        · exact absurd (List.mem_map_of_mem (fun p => p.1) h) hnd.1
      · intro h
        injection h with h
        rw [h]
        exact List.mem_cons_self _ _
    · rw [lookup_cons_ne _ _ _ _ hk, ← ih hnd.2]
      constructor
      · intro h
        rcases List.mem_cons.1 h with h | h
        · injection h with h1 _; exact absurd h1 hk
        · exact h
      · intro h; exact List.mem_cons_of_mem _ h

end Server

namespace Backend

open Server OddEvenSort

theorem keys_delete (ws : List (String × WorkerInfo)) (id : String) :
    (delete ws id).map (fun p => p.1) =
      (ws.map (fun p => p.1)).filter (fun x => decide (x ≠ id)) :=
  keys_filter_ne ws id

theorem keys_step (algorithmKeys : List String) (s s' : State) (op : Op)
    (h : step algorithmKeys s op = some s') :
    s'.workers.map (fun p => p.1) = registrationStep (s.workers.map (fun p => p.1)) op := by
  cases op with
  | register now ts id name status =>
    simp only [step, Option.some.injEq] at h
    subst h
    by_cases hr : truthy id = false ∨ truthy name = false ∨ truthy status = false
    · rw [register_rejected s now ts id name status hr]
      cases id with
      | none => rfl
      | some id =>
        cases name with
        | none => rfl
        | some name =>
          cases status with
          | none => rfl
          | some status =>
            simp only [truthy, decide_eq_false_iff_not, not_not] at hr
            simp only [registrationStep, hr, if_true]
    · simp only [not_or, Bool.not_eq_false] at hr
      obtain ⟨h1, h2, h3⟩ := hr
      obtain ⟨id, rfl⟩ : ∃ i, id = some i := by
        cases id with
        | none => simp [truthy] at h1
        | some i => exact ⟨i, rfl⟩
      obtain ⟨name, rfl⟩ : ∃ i, name = some i := by
        cases name with
        | none => simp [truthy] at h2
        | some i => exact ⟨i, rfl⟩
      obtain ⟨status, rfl⟩ : ∃ i, status = some i := by
        cases status with
        | none => simp [truthy] at h3
        | some i => exact ⟨i, rfl⟩
      simp only [truthy, decide_eq_true_eq] at h1 h2 h3
      have hvalid : ¬ (id = "" ∨ name = "" ∨ status = "") := by
        rintro (h | h | h)
        · exact h1 h
        · exact h2 h
        · exact h3 h
      rcases Bool.eq_false_or_eq_true (has s.workers id) with hp | hp
      · obtain ⟨e1, -, -⟩ := register_present s now ts id name status h1 h2 h3 hp
        rw [e1, keys_setStatus]
        have hmem : id ∈ s.workers.map (fun p => p.1) := (has_iff _ _).1 hp
        simp only [registrationStep, hvalid, if_false, hmem, if_true]
      · obtain ⟨e1, -, -⟩ := register_new s now ts id name status h1 h2 h3 hp
        rw [e1]
        have hmem : id ∉ s.workers.map (fun p => p.1) := by
          intro hm
          rw [(has_iff _ _).2 hm] at hp
          cases hp
        simp only [registrationStep, hvalid, if_false, hmem, List.map_append, List.map_cons,
          List.map_nil]
  | unregister ts id =>
    simp only [step, Option.some.injEq] at h
    subst h
    cases id with
    | none => rfl
    | some id =>
      by_cases hid : id = ""
      · rw [unregister_rejected s ts (some id) (Or.inl (by simp [truthy, hid]))]
        simp only [registrationStep, hid, if_true]
      · rcases Bool.eq_false_or_eq_true (has s.workers id) with hp | hp
        · obtain ⟨e1, -, -⟩ := unregister_present s ts id hid hp
          rw [e1, keys_delete]
          simp only [registrationStep, hid, if_false]
        · rw [unregister_rejected s ts (some id) (Or.inr ⟨id, rfl, hp⟩)]
          have hmem : id ∉ s.workers.map (fun p => p.1) := by
            intro hm
            rw [(has_iff _ _).2 hm] at hp
            cases hp
          simp only [registrationStep, hid, if_false]
          exact (filter_ne_of_not_mem _ _ hmem).symm
  | requestCoordinatorSwitch ts newId =>
    simp only [step, Option.some.injEq] at h
    subst h
    unfold requestCoordinatorSwitch
    split <;> rfl
  | manualUpdate ts id status =>
    simp only [step, Option.some.injEq] at h
    subst h
    unfold manualUpdate
    split
    · exact keys_setStatus _ _ _
    · rfl
  | manualUnregister ts id =>
    simp only [step, Option.some.injEq] at h
    subst h
    rcases Bool.eq_false_or_eq_true (has s.workers id) with hp | hp
    · obtain ⟨e1, -⟩ := manualUnregister_present s ts id hp
      rw [e1, keys_delete]
      rfl
    · rw [manualUnregister_absent s ts id hp]
      have hmem : id ∉ s.workers.map (fun p => p.1) := by
        intro hm
        rw [(has_iff _ _).2 hm] at hp
        cases hp
      exact (filter_ne_of_not_mem _ _ hmem).symm
  | startSort clock rand fuel algorithm arrayLength =>
    simp only [step, Option.map_eq_some'] at h
    obtain ⟨r, hr, rfl⟩ := h
    exact (startSort_frame algorithmKeys s clock rand fuel algorithm arrayLength r hr).1

theorem registrationStep_nodup (order : List String) (op : Op) (h : order.Nodup) :
    (registrationStep order op).Nodup := by
  cases op with
  | register now ts id name status =>
    cases id with
    | none => exact h
    | some id =>
      cases name with
      | none => exact h
      | some name =>
        cases status with
        | none => exact h
        | some status =>
          simp only [registrationStep]
          split
          · exact h
          · split
            · exact h
            · next hmem =>
              rw [List.nodup_append]
              refine ⟨h, List.nodup_singleton _, ?_⟩
              intro a ha hb
              rw [List.mem_singleton] at hb
              exact hmem (hb ▸ ha)
  | unregister ts id =>
    cases id with
    | none => exact h
    | some id =>
      simp only [registrationStep]
      split
      · exact h
      · exact h.filter _
  | requestCoordinatorSwitch ts newId => exact h
  | manualUpdate ts id status => exact h
  | manualUnregister ts id => exact h.filter _
  | startSort clock rand fuel algorithm arrayLength => exact h

theorem keys_run (algorithmKeys : List String) :
    ∀ (ops : List Op) (s s' : State), run algorithmKeys s ops = some s' →
      s'.workers.map (fun p => p.1) = ops.foldl registrationStep (s.workers.map (fun p => p.1)) := by
  intro ops
  induction ops with
  | nil =>
    intro s s' h
    simp only [run, Option.some.injEq] at h
    subst h; rfl
  | cons op ops ih =>
    intro s s' h
    simp only [run] at h
    split at h
    · next s1 h1 =>
      rw [List.foldl_cons, ← keys_step algorithmKeys s s1 op h1]
      exact ih s1 s' h
    · cases h

theorem foldl_registrationStep_nodup :
    ∀ (ops : List Op) (order : List String), order.Nodup →
      (ops.foldl registrationStep order).Nodup := by
  intro ops
  induction ops with
  | nil => intro order h; exact h
  | cons op ops ih =>
    intro order h
    exact ih _ (registrationStep_nodup order op h)

theorem activeWorkers_mem (ws : List (String × WorkerInfo))
    (hnd : (ws.map (fun p => p.1)).Nodup) (id : String) :
    id ∈ activeWorkers ws ↔
      ∃ info, ws.lookup id = some info ∧
        (info.status = "connected" ∨ info.status = "working") := by
  unfold activeWorkers
  simp only [List.mem_map, List.mem_filter, decide_eq_true_eq]
  constructor
  · rintro ⟨p, ⟨hp, hs⟩, rfl⟩
    exact ⟨p.2, (mem_iff_lookup ws hnd p.1 p.2).1 hp, hs⟩
  · rintro ⟨info, hl, hs⟩
    exact ⟨(id, info), ⟨(mem_iff_lookup ws hnd id info).2 hl, hs⟩, rfl⟩

end Backend

namespace Registry

open Server

/-- Claim C12.  In `backend/server.js`, after any sequence of operations on the
empty registry, the ids in the map are, in order, the registration order of the
present workers (a new id goes last, a worker that registers again keeps its
place), and the list `activeWorkers` of start-sort follows that order, holds no
id twice, and holds exactly the ids of the workers whose status is `connected`
or `working`.  In `WebsiteFinal/backend/server.js` the list is filled by
`for … in` over an object literal, which visits keys that are array indices
first and in ascending order: after `2` and then `1` have registered, the list
is `1`, `2`. -/
theorem active_workers_in_registration_order :
    (∀ (algorithmKeys : List String) (ops : List Backend.Op) (s : Backend.State),
      Backend.run algorithmKeys Backend.State.empty ops = some s →
      s.workers.map (fun p => p.1) = Backend.registrationOrder ops ∧
      (Backend.activeWorkers s.workers).Sublist (Backend.registrationOrder ops) ∧
      (Backend.activeWorkers s.workers).Nodup ∧
      (∀ id, id ∈ Backend.activeWorkers s.workers ↔
        ∃ info, s.workers.lookup id = some info ∧
          (info.status = "connected" ∨ info.status = "working"))) ∧
    ((WebsiteFinal.run [] WebsiteFinal.State.empty
        [WebsiteFinal.Op.register 1 "t1" (some "2") (some "a") (some "connected"),
         WebsiteFinal.Op.register 2 "t2" (some "1") (some "b") (some "connected")]).map
        WebsiteFinal.activeWorkers = some ["1", "2"] ∧
     Backend.registrationOrder
        [Backend.Op.register 1 "t1" (some "2") (some "a") (some "connected"),
         Backend.Op.register 2 "t2" (some "1") (some "b") (some "connected")] = ["2", "1"]) := by
  refine ⟨?_, by decide, by decide⟩
  intro algorithmKeys ops s h
  have hk : s.workers.map (fun p => p.1) = Backend.registrationOrder ops :=
    Backend.keys_run algorithmKeys ops Backend.State.empty s h
  have hnd : (s.workers.map (fun p => p.1)).Nodup := by
    rw [hk]
    exact Backend.foldl_registrationStep_nodup ops [] List.nodup_nil
  have hsub : (Backend.activeWorkers s.workers).Sublist (s.workers.map (fun p => p.1)) :=
    (List.filter_sublist _).map _
  refine ⟨hk, hk ▸ hsub, hsub.nodup hnd, Backend.activeWorkers_mem s.workers hnd⟩

end Registry

namespace Backend

open Server OddEvenSort

theorem activeWorkers_eq_nil (ws : List (String × WorkerInfo))
    (h : ∀ p ∈ ws, ¬ (p.2.status = "connected" ∨ p.2.status = "working")) :
    activeWorkers ws = [] := by
  unfold activeWorkers
  rw [List.map_eq_nil_iff, List.filter_eq_nil_iff]
  intro p hp
  simpa using h p hp

theorem startSort_no_active (algorithmKeys : List String) (s : State) (clock : Nat → String)
    (rand : Nat → Nat) (fuel : Nat) (algorithm : Option String) (arrayLength : ArrayLength)
    (h : activeWorkers s.workers = []) :
    ∃ msg, startSort algorithmKeys s clock rand fuel algorithm arrayLength =
      some (s, Response.error 400 msg) := by
  unfold startSort
  split
  · split
    · exact ⟨_, rfl⟩
    · split
      · exact ⟨_, rfl⟩
      · simp only [h, List.length_nil, if_true]
        exact ⟨_, rfl⟩
  · exact ⟨_, rfl⟩

end Backend

namespace Registry

open Server

/-- Claim C13.  In `backend/server.js`, a start-sort request made while no worker
in the map has the status `connected` or `working` is answered with `400`,
whatever its fields are, and the whole state (worker map, coordinator
reference, log, events broadcast) is what it was.  In
`WebsiteFinal/backend/server.js`, once the id `__proto__` has registered with the
status `connected` (which assigns `Object.prototype.status`), `for … in` visits
the inherited key `status`, whose status reads `connected`: with no worker in
the registry the sort is started for one worker, lines are logged and events
are broadcast. -/
theorem start_sort_without_eligible_worker :
    (∀ (algorithmKeys : List String) (s : Backend.State) (clock : Nat → String)
      (rand : Nat → Nat) (fuel : Nat) (algorithm : Option String) (arrayLength : ArrayLength),
      (∀ p ∈ s.workers, ¬ (p.2.status = "connected" ∨ p.2.status = "working")) →
      ∃ msg, Backend.startSort algorithmKeys s clock rand fuel algorithm arrayLength =
        some (s, Response.error 400 msg)) ∧
    (((WebsiteFinal.register WebsiteFinal.State.empty 1 "t0" (some "__proto__") (some "x")
        (some "connected")).1.workers = [] ∧
      WebsiteFinal.activeWorkers (WebsiteFinal.register WebsiteFinal.State.empty 1 "t0"
        (some "__proto__") (some "x") (some "connected")).1 = ["status"]) ∧
     WebsiteFinal.startSort ["oddevensort"]
        (WebsiteFinal.register WebsiteFinal.State.empty 1 "t0" (some "__proto__") (some "x")
          (some "connected")).1
        (fun k => toString k) (fun _ => 5) 1 (some "oddevensort") (ArrayLength.integer 2) =
      some ({ workers := [], prototypeStatus := some "connected", currentCoordinatorId := none,
              logBuffer := ["[t0] Worker __proto__ status updated → connected",
                            "[0] Start sort: oddevensort, size=2",
                            "[1] Random array: [5, 5]",
                            "[2] Chunk of size 2 → status",
                            "[3] Sort complete: [5, 5]"],
              emitted := [Event.logUpdate "[t0] Worker __proto__ status updated → connected",
                          Event.workerUpdated "__proto__" "connected",
                          Event.logUpdate "[0] Start sort: oddevensort, size=2",
                          Event.logUpdate "[1] Random array: [5, 5]",
                          Event.assignChunk "status" [5, 5] 0,
                          Event.logUpdate "[2] Chunk of size 2 → status",
                          Event.engineLog "Worker 0 locally sorted its chunk: [5, 5]",
                          Event.engineLog "Round 0 completed. Swapped false.",
                          Event.engineLog "All rounds done. Final merged array length = 2.",
                          Event.logUpdate "[3] Sort complete: [5, 5]",
                          Event.sortComplete [5, 5]] },
            Response.started "Sorting started with 1 workers.")) := by
  refine ⟨?_, ⟨by decide, by decide⟩, by decide⟩
  intro algorithmKeys s clock rand fuel algorithm arrayLength h
  exact Backend.startSort_no_active algorithmKeys s clock rand fuel algorithm arrayLength
    (Backend.activeWorkers_eq_nil s.workers h)

/-- Claim C15.  In `backend/server.js` the `initial_snapshot` sent to a socket
that connects lists the workers of the map, with their ids, names, statuses
and creation times and in the order of the map, together with the coordinator
reference, and the lines sent after it are the entries of `logBuffer`, in
order, as the buffer stands when they are sent (the line about this connection
is its last entry).  In `WebsiteFinal/backend/server.js`, once the id `__proto__`
has registered, the snapshot of an empty registry lists an entry with the id
`status` that is no worker. -/
theorem snapshot_matches_registry :
    (∀ (s : Backend.State) (ts socketId : String),
      ∃ live, (Backend.connect s ts socketId).2 =
        live :: Delivery.initialSnapshot
          ((Backend.connect s ts socketId).1.workers.map (fun p =>
            { id := p.1, name := some p.2.name, status := some p.2.status,
              createdAt := some p.2.createdAt }))
          (Backend.connect s ts socketId).1.currentCoordinatorId ::
        (Backend.connect s ts socketId).1.logBuffer.map
          (fun line => Delivery.event (Event.logUpdate line)) ∧
      (Backend.connect s ts socketId).1.workers = s.workers ∧
      (Backend.connect s ts socketId).1.currentCoordinatorId = s.currentCoordinatorId ∧
      (Backend.connect s ts socketId).1.logBuffer =
        s.logBuffer ++ ["[" ++ ts ++ "] " ++ ("🔌 Frontend client connected (" ++ socketId ++ ")")]) ∧
    ((WebsiteFinal.connect (WebsiteFinal.register WebsiteFinal.State.empty 1 "t0"
        (some "__proto__") (some "x") (some "connected")).1 "t" "abc").2 =
      [Delivery.event (Event.logUpdate "[t] Client connected (abc)"),
       Delivery.initialSnapshot
         [{ id := "status", name := none, status := some "connected", createdAt := none }] none,
       Delivery.event (Event.logUpdate "[t0] Worker __proto__ status updated → connected"),
       Delivery.event (Event.logUpdate "[t] Client connected (abc)")] ∧
     (WebsiteFinal.connect (WebsiteFinal.register WebsiteFinal.State.empty 1 "t0"
        (some "__proto__") (some "x") (some "connected")).1 "t" "abc").1.workers = []) := by
  refine ⟨?_, by decide, by decide⟩
  intro s ts socketId
  exact ⟨_, rfl, rfl, rfl, rfl⟩

/-- Claim C16.  In both servers the handler of a new connection first calls
`addLog`, whose broadcast reaches the new socket, and only then sends the
snapshot and replays `logBuffer`, which by then ends with that same line.  So
what a new observer receives starts with a live log line, not with the
snapshot, and that line reaches it a second time within the same connection;
on a server just started the observer receives the line, the snapshot, and the
line again. -/
theorem replay_before_live_events :
    (∀ (s : Backend.State) (ts socketId : String),
      ∃ entry rest,
        (Backend.connect s ts socketId).2 =
          Delivery.event (Event.logUpdate entry) :: rest ∧
        2 ≤ (Backend.connect s ts socketId).2.count (Delivery.event (Event.logUpdate entry))) ∧
    (∀ (s : WebsiteFinal.State) (ts socketId : String),
      ∃ entry rest,
        (WebsiteFinal.connect s ts socketId).2 =
          Delivery.event (Event.logUpdate entry) :: rest ∧
        2 ≤ (WebsiteFinal.connect s ts socketId).2.count
          (Delivery.event (Event.logUpdate entry))) ∧
    (Backend.connect Backend.State.empty "t" "abc").2 =
      [Delivery.event (Event.logUpdate "[t] 🔌 Frontend client connected (abc)"),
       Delivery.initialSnapshot [] none,
       Delivery.event (Event.logUpdate "[t] 🔌 Frontend client connected (abc)")] ∧
    (WebsiteFinal.connect WebsiteFinal.State.empty "t" "abc").2 =
      [Delivery.event (Event.logUpdate "[t] Client connected (abc)"),
       Delivery.initialSnapshot [] none,
       Delivery.event (Event.logUpdate "[t] Client connected (abc)")] := by
  refine ⟨?_, ?_, by decide, by decide⟩
  · intro s ts socketId
    refine ⟨"[" ++ ts ++ "] " ++ ("🔌 Frontend client connected (" ++ socketId ++ ")"), _, rfl, ?_⟩
    simp only [Backend.connect, Backend.addLog, Backend.emit, List.map_append, List.map_cons,
      List.map_nil, List.count_cons_self, List.count_cons, List.count_append]
    simp
  · intro s ts socketId
    refine ⟨"[" ++ ts ++ "] " ++ ("Client connected (" ++ socketId ++ ")"), _, rfl, ?_⟩
    simp only [WebsiteFinal.connect, WebsiteFinal.addLog, WebsiteFinal.emit, List.map_append,
      List.map_cons, List.map_nil, List.count_cons_self, List.count_cons, List.count_append]
    simp

end Registry

/-! ## The coordinator during a sort run -/

namespace Backend

open Server OddEvenSort

theorem markCoordinator_present (s : State) (c status : String)
    (hc : s.currentCoordinatorId = some c) (hne : c ≠ "") (hp : has s.workers c = true) :
    markCoordinator s status =
      some (emit { s with workers := setStatus s.workers c status }
        (Event.workerUpdated c status)) := by
  simp [markCoordinator, hc, hne, hp]

/-- An accepted `POST /start-sort` runs the engine from `stateAtEngineCall` and
ends with `sortFinished`. -/
theorem startSort_started (algorithmKeys : List String) (s s' : State) (clock : Nat → String)
    (rand : Nat → Nat) (fuel : Nat) (algorithm : Option String) (arrayLength : ArrayLength)
    (msg : String)
    (h : startSort algorithmKeys s clock rand fuel algorithm arrayLength =
      some (s', Response.started msg)) :
    ∃ alg n atCall run, algorithm = some alg ∧ arrayLength = ArrayLength.integer n ∧
      stateAtEngineCall s clock rand alg n = some atCall ∧
      oddEvenSortParallel fuel (splitIntoChunks (randomArray rand n.toNat)
        ((activeWorkers s.workers).length : Int)) = some run ∧
      s' = sortFinished
        (run.log.foldl (fun st line => emit st (Event.engineLog line)) atCall)
        (clock (2 + (activeWorkers s.workers).length))
        (clock (3 + (activeWorkers s.workers).length)) run.sorted := by
  unfold startSort at h
  split at h
  · next alg n =>
    split at h
    · injection h with h; injection h with _ h2; cases h2
    · split at h
      · injection h with h; injection h with _ h2; cases h2
      · simp only at h
        split at h
        · injection h with h; injection h with _ h2; cases h2
        · split at h
          · injection h with h; injection h with _ h2; cases h2
          · split at h
            · injection h with h; injection h with _ h2; cases h2
            · next s4 h4 =>
              split at h
              · cases h
              · next run hrun =>
                injection h with h
                injection h with h1 _
                exact ⟨alg, n, s4, run, rfl, rfl, h4, hrun, h1.symm⟩
  · injection h with h; injection h with _ h2; cases h2

theorem stateAtEngineCall_present (s atCall : State) (clock : Nat → String) (rand : Nat → Nat)
    (alg : String) (n : Int) (c : String)
    (hc : s.currentCoordinatorId = some c) (hne : c ≠ "") (hp : has s.workers c = true)
    (h : stateAtEngineCall s clock rand alg n = some atCall) :
    atCall.workers = setStatus s.workers c "working" ∧
    atCall.currentCoordinatorId = some c := by
  unfold stateAtEngineCall at h
  simp only at h
  obtain ⟨a1, a2⟩ := assignLoop_frame clock
    ((activeWorkers s.workers).zip
      (splitIntoChunks (randomArray rand n.toNat) ((activeWorkers s.workers).length : Int))) 0
    (addLog (addLog s (clock 0)
      ("🚀 Starting sort: algorithm=" ++ alg ++ ", arrayLength=" ++ toString n))
      (clock 1) ("Generated random array: [" ++ joinArray (randomArray rand n.toNat) ++ "]"))
  rw [markCoordinator_present _ c "working" (by rw [a2]; exact hc) hne
    (by rw [a1]; exact hp)] at h
  injection h with h
  subst h
  exact ⟨by simp only [emit_workers]; rw [a1]; rfl, by simp only [emit_coordinator]; rw [a2]; exact hc⟩

theorem sortFinished_present (s : State) (ts tsError : String) (sorted : List Int) (c : String)
    (hc : s.currentCoordinatorId = some c) (hne : c ≠ "") (hp : has s.workers c = true) :
    (sortFinished s ts tsError sorted).workers = setStatus s.workers c "connected" ∧
    (sortFinished s ts tsError sorted).currentCoordinatorId = some c := by
  have hm := markCoordinator_present
    (addLog s ts ("Sorting complete. Final array: [" ++ joinArray sorted ++ "]")) c "connected"
    hc hne hp
  unfold sortFinished
  simp only
  rw [hm]
  exact ⟨rfl, hc⟩

/-- The coordinator of an accepted start-sort in `backend/server.js`. -/
theorem startSort_coordinator (algorithmKeys : List String) (s s' : State)
    (clock : Nat → String) (rand : Nat → Nat) (fuel : Nat) (algorithm : Option String)
    (arrayLength : ArrayLength) (msg c : String) (hne : c ≠ "")
    (h : startSort algorithmKeys s clock rand fuel algorithm arrayLength =
      some (s', Response.started msg))
    (hc : s.currentCoordinatorId = some c) (hp : has s.workers c = true) :
    ∃ alg n atCall, algorithm = some alg ∧ arrayLength = ArrayLength.integer n ∧
      stateAtEngineCall s clock rand alg n = some atCall ∧
      atCall.workers = setStatus s.workers c "working" ∧
      atCall.currentCoordinatorId = some c ∧
      s'.workers = setStatus (setStatus s.workers c "working") c "connected" ∧
      s'.currentCoordinatorId = some c := by
  obtain ⟨alg, n, atCall, run, e1, e2, hat, -, hs'⟩ :=
    startSort_started algorithmKeys s s' clock rand fuel algorithm arrayLength msg h
  obtain ⟨w1, w2⟩ := stateAtEngineCall_present s atCall clock rand alg n c hc hne hp hat
  obtain ⟨g1, g2⟩ := engineLog_frame run.log atCall
  obtain ⟨f1, f2⟩ := sortFinished_present
    (run.log.foldl (fun st line => emit st (Event.engineLog line)) atCall)
    (clock (2 + (activeWorkers s.workers).length))
    (clock (3 + (activeWorkers s.workers).length)) run.sorted c
    (by rw [g2]; exact w2) hne (by rw [g1, w1, has_setStatus]; exact hp)
  refine ⟨alg, n, atCall, e1, e2, hat, w1, w2, ?_, ?_⟩
  · rw [hs', f1, g1, w1]
  · rw [hs', f2]

end Backend

namespace WebsiteFinal

open Server OddEvenSort

theorem assignLoop_frame_obj (clock : Nat → String) :
    ∀ (pairs : List (String × Chunk)) (i : Nat) (s : State),
      (assignLoop clock i pairs s).workers = s.workers ∧
      (assignLoop clock i pairs s).prototypeStatus = s.prototypeStatus ∧
      (assignLoop clock i pairs s).currentCoordinatorId = s.currentCoordinatorId := by
  intro pairs
  induction pairs with
  | nil => intro i s; exact ⟨rfl, rfl, rfl⟩
  | cons p ps ih =>
    intro i s
    obtain ⟨wid, c⟩ := p
    simp only [assignLoop]
    obtain ⟨h1, h2, h3⟩ := ih (i + 1)
      (addLog (emit s (Event.assignChunk wid c.chunk c.offset)) (clock (2 + i))
        ("Chunk of size " ++ toString c.chunk.length ++ " → " ++ wid))
    exact ⟨h1, h2, h3⟩

theorem engineLog_frame_obj (lines : List String) :
    ∀ s : State,
      (lines.foldl (fun st line => emit st (Event.engineLog line)) s).workers = s.workers ∧
      (lines.foldl (fun st line => emit st (Event.engineLog line)) s).prototypeStatus =
        s.prototypeStatus ∧
      (lines.foldl (fun st line => emit st (Event.engineLog line)) s).currentCoordinatorId =
        s.currentCoordinatorId := by
  induction lines with
  | nil => intro s; exact ⟨rfl, rfl, rfl⟩
  | cons l ls ih =>
    intro s
    simp only [List.foldl_cons]
    obtain ⟨h1, h2, h3⟩ := ih (emit s (Event.engineLog l))
    exact ⟨h1, h2, h3⟩

theorem markCoordinator_own (s : State) (c status : String) (info : WorkerInfo)
    (hc : s.currentCoordinatorId = some c) (hne : c ≠ "")
    (hp : s.workers.lookup c = some info) :
    markCoordinator s status =
      some (emit { s with workers := setOwnStatus s.workers c status }
        (Event.workerUpdated c status)) := by
  have ha := assignStatus_record s c status info (lookup_record_of s c info hp)
  unfold markCoordinator
  split
  · next id hid =>
    have hidc : id = c := by
      rw [hc] at hid
      injection hid with hid
      exact hid.symm
    subst hidc
    rw [if_neg hne, ha]
  · next hnone =>
    rw [hc] at hnone
    cases hnone

theorem sortFinished_own (s : State) (ts tsError : String) (sorted : List Int) (c : String)
    (info : WorkerInfo) (hc : s.currentCoordinatorId = some c) (hne : c ≠ "")
    (hp : s.workers.lookup c = some info) :
    (sortFinished s ts tsError sorted).workers = setOwnStatus s.workers c "connected" ∧
    (sortFinished s ts tsError sorted).currentCoordinatorId = some c ∧
    (sortFinished s ts tsError sorted).prototypeStatus = s.prototypeStatus := by
  have hm := markCoordinator_own
    (addLog s ts ("Sort complete: [" ++ joinArray sorted ++ "]")) c "connected" info hc hne hp
  unfold sortFinished
  simp only
  rw [hm]
  exact ⟨rfl, hc, rfl⟩

theorem startSort_started_obj (algorithmKeys : List String) (s s' : State)
    (clock : Nat → String) (rand : Nat → Nat) (fuel : Nat) (algorithm : Option String)
    (arrayLength : ArrayLength) (msg : String)
    (h : startSort algorithmKeys s clock rand fuel algorithm arrayLength =
      some (s', Response.started msg)) :
    ∃ alg n atCall run, algorithm = some alg ∧ arrayLength = ArrayLength.integer n ∧
      stateAtEngineCall s clock rand alg n = some atCall ∧
      oddEvenSortParallel fuel (splitIntoChunks (randomArray rand n.toNat)
        ((activeWorkers s).length : Int)) = some run ∧
      s' = sortFinished
        (run.log.foldl (fun st line => emit st (Event.engineLog line)) atCall)
        (clock (2 + (activeWorkers s).length))
        (clock (3 + (activeWorkers s).length)) run.sorted := by
  unfold startSort at h
  split at h
  · next alg n =>
    split at h
    · injection h with h; injection h with _ h2; cases h2
    · split at h
      · injection h with h; injection h with _ h2; cases h2
      · simp only at h
        split at h
        · injection h with h; injection h with _ h2; cases h2
        · split at h
          · injection h with h; injection h with _ h2; cases h2
          · split at h
            · injection h with h; injection h with _ h2; cases h2
            · next s4 h4 =>
              split at h
              · cases h
              · next run hrun =>
                injection h with h
                injection h with h1 _
                exact ⟨alg, n, s4, run, rfl, rfl, h4, hrun, h1.symm⟩
  · injection h with h; injection h with _ h2; cases h2

/-- The coordinator of an accepted start-sort in `WebsiteFinal/backend/server.js`,
when the coordinator reference names an own property of `workers`. -/
theorem startSort_coordinator_obj (algorithmKeys : List String) (s s' : State)
    (clock : Nat → String) (rand : Nat → Nat) (fuel : Nat) (algorithm : Option String)
    (arrayLength : ArrayLength) (msg c : String) (hne : c ≠ "")
    (h : startSort algorithmKeys s clock rand fuel algorithm arrayLength =
      some (s', Response.started msg))
    (hc : s.currentCoordinatorId = some c) (hp : (s.workers.lookup c).isSome = true) :
    ∃ alg n atCall, algorithm = some alg ∧ arrayLength = ArrayLength.integer n ∧
      stateAtEngineCall s clock rand alg n = some atCall ∧
      atCall.workers = setOwnStatus s.workers c "working" ∧
      atCall.currentCoordinatorId = some c ∧
      s'.workers = setOwnStatus (setOwnStatus s.workers c "working") c "connected" ∧
      s'.currentCoordinatorId = some c ∧ s'.prototypeStatus = s.prototypeStatus := by
  obtain ⟨info, hinfo⟩ := Option.isSome_iff_exists.1 hp
  obtain ⟨alg, n, atCall, run, e1, e2, hat, -, hs'⟩ :=
    startSort_started_obj algorithmKeys s s' clock rand fuel algorithm arrayLength msg h
  have hat' := hat
  unfold stateAtEngineCall at hat'
  simp only at hat'
  obtain ⟨a1, a2, a3⟩ := assignLoop_frame_obj clock
    ((activeWorkers s).zip
      (splitIntoChunks (randomArray rand n.toNat) ((activeWorkers s).length : Int))) 0
    (addLog (addLog s (clock 0) ("Start sort: " ++ alg ++ ", size=" ++ toString n))
      (clock 1) ("Random array: [" ++ joinArray (randomArray rand n.toNat) ++ "]"))
  rw [markCoordinator_own _ c "working" info (by rw [a3]; exact hc) hne
    (by rw [a1]; exact hinfo)] at hat'
  injection hat' with hat'
  have w1 : atCall.workers = setOwnStatus s.workers c "working" := by
    rw [← hat']; simp only [emit_workers_obj]; rw [a1]; rfl
  have w2 : atCall.currentCoordinatorId = some c := by
    rw [← hat']; simp only [emit_coordinator_obj]; rw [a3]; exact hc
  have w3 : atCall.prototypeStatus = s.prototypeStatus := by
    rw [← hat']; simp only [emit_prototypeStatus]; rw [a2]; rfl
  obtain ⟨g1, g2, g3⟩ := engineLog_frame_obj run.log atCall
  obtain ⟨f1, f2, f3⟩ := sortFinished_own
    (run.log.foldl (fun st line => emit st (Event.engineLog line)) atCall)
    (clock (2 + (activeWorkers s).length)) (clock (3 + (activeWorkers s).length)) run.sorted c
    { info with status := "working" } (by rw [g3]; exact w2) hne
    (by
      rw [g1, w1]
      unfold setOwnStatus
      rw [lookup_mapStatus_self, hinfo]
      rfl)
  refine ⟨alg, n, atCall, e1, e2, hat, w1, w2, ?_, ?_, ?_⟩
  · rw [hs', f1, g1, w1]
  · rw [hs', f2]
  · rw [hs', f3, g2, w3]

end WebsiteFinal

/-! ## Start-sort and the coordinator: the trace of an accepted request -/

namespace Backend

open Server OddEvenSort

theorem engineLog_emitted (lines : List String) :
    ∀ s : State,
      (lines.foldl (fun st line => emit st (Event.engineLog line)) s).emitted =
        s.emitted ++ lines.map Event.engineLog := by
  induction lines with
  | nil => intro s; simp
  | cons l ls ih =>
    intro s
    rw [List.foldl_cons, ih]
    simp [emit]

theorem registrationStep_nonempty (order : List String) (op : Op)
    (h : ∀ x ∈ order, x ≠ "") : ∀ x ∈ registrationStep order op, x ≠ "" := by
  cases op with
  | register now ts id name status =>
    cases id with
    | none => exact h
    | some i =>
      cases name with
      | none => exact h
      | some n =>
        cases status with
        | none => exact h
        | some st =>
          simp only [registrationStep]
          split
          · exact h
          · next hv =>
            split
            · exact h
            · intro x hx
              rcases List.mem_append.mp hx with hx | hx
              · exact h x hx
              · rw [List.mem_singleton.mp hx]
                intro e
                exact hv (Or.inl e)
  | unregister ts id =>
    cases id with
    | none => exact h
    | some i =>
      simp only [registrationStep]
      split
      · exact h
      · intro x hx
        exact h x (List.mem_filter.mp hx).1
  | requestCoordinatorSwitch ts newId => exact h
  | manualUpdate ts id status => exact h
  | manualUnregister ts id =>
    intro x hx
    exact h x (List.mem_filter.mp hx).1
  | startSort clock rand fuel algorithm arrayLength => exact h

theorem registrationOrder_nonempty :
    ∀ (ops : List Op) (order : List String), (∀ x ∈ order, x ≠ "") →
      ∀ x ∈ ops.foldl registrationStep order, x ≠ "" := by
  intro ops
  induction ops with
  | nil => intro order h; exact h
  | cons op rest ih =>
    intro order h
    rw [List.foldl_cons]
    exact ih _ (registrationStep_nonempty order op h)

/-- In a state the server can be in, no worker has the empty id. -/
theorem reachable_keys_nonempty (algorithmKeys : List String) (s : State)
    (h : Reachable algorithmKeys s) (id : String) (hp : has s.workers id = true) : id ≠ "" := by
  obtain ⟨ops, hops⟩ := h
  have hk := keys_run algorithmKeys ops State.empty s hops
  have hmem := (has_iff s.workers id).1 hp
  rw [hk] at hmem
  exact registrationOrder_nonempty ops _ (by intro x hx; cases hx) id hmem

theorem stateAtEngineCall_emitted (s atCall : State) (clock : Nat → String)
    (rand : Nat → Nat) (alg : String) (n : Int) (c : String)
    (hc : s.currentCoordinatorId = some c) (hne : c ≠ "") (hp : has s.workers c = true)
    (h : stateAtEngineCall s clock rand alg n = some atCall) :
    ∃ before, atCall.emitted = before ++ [Event.workerUpdated c "working"] := by
  unfold stateAtEngineCall at h
  simp only at h
  obtain ⟨a1, a2⟩ := assignLoop_frame clock
    ((activeWorkers s.workers).zip
      (splitIntoChunks (randomArray rand n.toNat) ((activeWorkers s.workers).length : Int))) 0
    (addLog (addLog s (clock 0)
      ("🚀 Starting sort: algorithm=" ++ alg ++ ", arrayLength=" ++ toString n))
      (clock 1) ("Generated random array: [" ++ joinArray (randomArray rand n.toNat) ++ "]"))
  rw [markCoordinator_present _ c "working" (by rw [a2]; exact hc) hne
    (by rw [a1]; exact hp)] at h
  injection h with h
  subst h
  exact ⟨_, rfl⟩

theorem sortFinished_emitted (s : State) (ts tsError : String) (sorted : List Int) (c : String)
    (hc : s.currentCoordinatorId = some c) (hne : c ≠ "") (hp : has s.workers c = true) :
    (sortFinished s ts tsError sorted).emitted =
      s.emitted ++
        [Event.logUpdate ("[" ++ ts ++ "] " ++
            ("Sorting complete. Final array: [" ++ joinArray sorted ++ "]")),
         Event.workerUpdated c "connected", Event.sortComplete sorted] := by
  have hm := markCoordinator_present
    (addLog s ts ("Sorting complete. Final array: [" ++ joinArray sorted ++ "]")) c "connected"
    hc hne hp
  unfold sortFinished
  simp only
  rw [hm]
  simp [emit, addLog]

/-- An accepted start-sort of `backend/server.js`, issued while the coordinator
reference names a worker of the map: what the handler and its callback
broadcast, and what they leave in the map. -/
theorem startSort_trace (algorithmKeys : List String) (s s' : State)
    (clock : Nat → String) (rand : Nat → Nat) (fuel : Nat) (algorithm : Option String)
    (arrayLength : ArrayLength) (msg c : String) (hne : c ≠ "")
    (h : startSort algorithmKeys s clock rand fuel algorithm arrayLength =
      some (s', Response.started msg))
    (hc : s.currentCoordinatorId = some c) (hp : has s.workers c = true) :
    ∃ alg n atCall run before info,
      algorithm = some alg ∧ arrayLength = ArrayLength.integer n ∧
      stateAtEngineCall s clock rand alg n = some atCall ∧
      oddEvenSortParallel fuel (splitIntoChunks (randomArray rand n.toNat)
        ((activeWorkers s.workers).length : Int)) = some run ∧
      s' = sortFinished
        (run.log.foldl (fun st line => emit st (Event.engineLog line)) atCall)
        (clock (2 + (activeWorkers s.workers).length))
        (clock (3 + (activeWorkers s.workers).length)) run.sorted ∧
      atCall.emitted = before ++ [Event.workerUpdated c "working"] ∧
      s'.emitted = before ++ [Event.workerUpdated c "working"] ++
        run.log.map Event.engineLog ++
        [Event.logUpdate ("[" ++ clock (2 + (activeWorkers s.workers).length) ++ "] " ++
            ("Sorting complete. Final array: [" ++ joinArray run.sorted ++ "]")),
         Event.workerUpdated c "connected", Event.sortComplete run.sorted] ∧
      s.workers.lookup c = some info ∧
      atCall.workers.lookup c = some { info with status := "working" } ∧
      s'.workers.lookup c = some { info with status := "connected" } ∧
      atCall.currentCoordinatorId = some c ∧ s'.currentCoordinatorId = some c ∧
      (∀ x, x ≠ c → atCall.workers.lookup x = s.workers.lookup x ∧
        s'.workers.lookup x = s.workers.lookup x) ∧
      s'.workers.map (fun p => p.1) = s.workers.map (fun p => p.1) := by
  obtain ⟨alg, n, atCall, run, e1, e2, hat, hrun, hs'⟩ :=
    startSort_started algorithmKeys s s' clock rand fuel algorithm arrayLength msg h
  obtain ⟨w1, w2⟩ := stateAtEngineCall_present s atCall clock rand alg n c hc hne hp hat
  obtain ⟨before, hbefore⟩ := stateAtEngineCall_emitted s atCall clock rand alg n c hc hne hp hat
  obtain ⟨g1, g2⟩ := engineLog_frame run.log atCall
  have hc5 : (run.log.foldl (fun st line => emit st (Event.engineLog line))
      atCall).currentCoordinatorId = some c := by rw [g2]; exact w2
  have hp5 : has (run.log.foldl (fun st line => emit st (Event.engineLog line))
      atCall).workers c = true := by rw [g1, w1, has_setStatus]; exact hp
  obtain ⟨f1, f2⟩ := sortFinished_present
    (run.log.foldl (fun st line => emit st (Event.engineLog line)) atCall)
    (clock (2 + (activeWorkers s.workers).length))
    (clock (3 + (activeWorkers s.workers).length)) run.sorted c hc5 hne hp5
  have f3 := sortFinished_emitted
    (run.log.foldl (fun st line => emit st (Event.engineLog line)) atCall)
    (clock (2 + (activeWorkers s.workers).length))
    (clock (3 + (activeWorkers s.workers).length)) run.sorted c hc5 hne hp5
  obtain ⟨info, hinfo⟩ := Option.isSome_iff_exists.mp hp
  have hw' : s'.workers = setStatus (setStatus s.workers c "working") c "connected" := by
    rw [hs', f1, g1, w1]
  refine ⟨alg, n, atCall, run, before, info, e1, e2, hat, hrun, hs', hbefore, ?_, hinfo, ?_, ?_,
    w2, by rw [hs', f2], ?_, ?_⟩
  · rw [hs', f3, engineLog_emitted, hbefore]
  · rw [w1]
    unfold setStatus
    rw [lookup_mapStatus_self, hinfo]
    rfl
  · rw [hw']
    unfold setStatus
    rw [lookup_mapStatus_self, lookup_mapStatus_self, hinfo]
    rfl
  · intro x hx
    constructor
    · rw [w1]
      unfold setStatus
      exact lookup_mapStatus_ne _ _ _ _ hx
    · rw [hw']
      unfold setStatus
      exact (lookup_mapStatus_ne _ _ _ _ hx).trans (lookup_mapStatus_ne _ _ _ _ hx)
  · rw [hw', keys_setStatus, keys_setStatus]

end Backend

namespace Registry

open Server OddEvenSort

/-- Claim C14.  In `backend/server.js`, in every state the server can be in, an
accepted start-sort request issued while a coordinator is set finds the
coordinator in the map; the handler gives its record the status `working` and
broadcasts `worker_updated … working`, then the engine runs (its log lines
follow in the broadcast), then the callback logs the result, gives the record
the status `connected` and broadcasts `worker_updated … connected` and
`sort_complete`; the name and creation time of the coordinator, the coordinator
reference, the ids and their order and the record of every other worker are
the same before the request, at the call of the engine and after the run.  A
run from the empty registry shows it for a coordinator that registered as
`suspended`.  In `WebsiteFinal/backend/server.js` the coordinator reference can
name no worker.  After a switch to `__proto__` the writes of an accepted
start-sort go to `Object.prototype.status`: no worker gets the status
`working`, and after the run the registry lists an entry `status` that it did
not list before.  After a switch to the inherited key `status` the writes are
lost on a primitive string: the status read for the coordinator at the call of
the engine is still `connected`. -/
theorem coordinator_working_then_connected :
    (∀ (algorithmKeys : List String) (s s' : Backend.State) (clock : Nat → String)
      (rand : Nat → Nat) (fuel : Nat) (algorithm : Option String) (arrayLength : ArrayLength)
      (msg c : String),
      Backend.Reachable algorithmKeys s →
      s.currentCoordinatorId = some c →
      Backend.startSort algorithmKeys s clock rand fuel algorithm arrayLength =
        some (s', Response.started msg) →
      ∃ alg n atCall run before info,
        algorithm = some alg ∧ arrayLength = ArrayLength.integer n ∧
        Backend.stateAtEngineCall s clock rand alg n = some atCall ∧
        oddEvenSortParallel fuel (splitIntoChunks (randomArray rand n.toNat)
          ((Backend.activeWorkers s.workers).length : Int)) = some run ∧
        s' = Backend.sortFinished
          (run.log.foldl (fun st line => Backend.emit st (Event.engineLog line)) atCall)
          (clock (2 + (Backend.activeWorkers s.workers).length))
          (clock (3 + (Backend.activeWorkers s.workers).length)) run.sorted ∧
        atCall.emitted = before ++ [Event.workerUpdated c "working"] ∧
        s'.emitted = before ++ [Event.workerUpdated c "working"] ++
          run.log.map Event.engineLog ++
          [Event.logUpdate
              ("[" ++ clock (2 + (Backend.activeWorkers s.workers).length) ++ "] " ++
                ("Sorting complete. Final array: [" ++ joinArray run.sorted ++ "]")),
           Event.workerUpdated c "connected", Event.sortComplete run.sorted] ∧
        s.workers.lookup c = some info ∧
        atCall.workers.lookup c = some { info with status := "working" } ∧
        s'.workers.lookup c = some { info with status := "connected" } ∧
        atCall.currentCoordinatorId = some c ∧ s'.currentCoordinatorId = some c ∧
        (∀ x, x ≠ c → atCall.workers.lookup x = s.workers.lookup x ∧
          s'.workers.lookup x = s.workers.lookup x) ∧
        s'.workers.map (fun p => p.1) = s.workers.map (fun p => p.1)) ∧
    ((Backend.run ["oddevensort"] Backend.State.empty
        [Backend.Op.register 1 "t1" (some "w1") (some "a") (some "suspended"),
         Backend.Op.register 2 "t2" (some "w2") (some "b") (some "connected"),
         Backend.Op.startSort exampleClock exampleRand 2 (some "oddevensort")
           (ArrayLength.integer 2)]).map
        (fun s => (s.workers, s.currentCoordinatorId, s.emitted)) =
      some ([("w1", { name := "a", status := "connected", createdAt := 1 }),
             ("w2", { name := "b", status := "connected", createdAt := 2 })],
            some "w1",
            [Event.logUpdate "[t1] 🟢 First worker w1 joined and became Coordinator",
             Event.workerAdded "w1" "a" "suspended" 1 (some "w1"),
             Event.logUpdate "[t2] ↗ Worker registered: w2 (b). Coordinator=w1",
             Event.workerAdded "w2" "b" "connected" 2 (some "w1"),
             Event.logUpdate "[0] 🚀 Starting sort: algorithm=oddevensort, arrayLength=2",
             Event.logUpdate "[1] Generated random array: [5, 4]",
             Event.assignChunk "w2" [5, 4] 0,
             Event.logUpdate "[2] Assigned chunk of size 2 to Worker w2",
             Event.workerUpdated "w1" "working",
             Event.engineLog "Worker 0 locally sorted its chunk: [4, 5]",
             Event.engineLog "Round 0 completed. Swapped false.",
             Event.engineLog "All rounds done. Final merged array length = 2.",
             Event.logUpdate "[3] Sorting complete. Final array: [4, 5]",
             Event.workerUpdated "w1" "connected",
             Event.sortComplete [4, 5]])) ∧
    ((WebsiteFinal.run ["oddevensort"] WebsiteFinal.State.empty
        [WebsiteFinal.Op.register 1 "t1" (some "w1") (some "a") (some "connected"),
         WebsiteFinal.Op.requestCoordinatorSwitch "t2" "__proto__"]).map
        (fun s => (s.workers, s.prototypeStatus, s.currentCoordinatorId,
          WebsiteFinal.enumerate s)) =
      some ([("w1", { name := "a", status := "connected", createdAt := 1 })], none,
            some "__proto__", ["w1"]) ∧
     (WebsiteFinal.run ["oddevensort"] WebsiteFinal.State.empty
        [WebsiteFinal.Op.register 1 "t1" (some "w1") (some "a") (some "connected"),
         WebsiteFinal.Op.requestCoordinatorSwitch "t2" "__proto__",
         WebsiteFinal.Op.startSort exampleClock exampleRand 2 (some "oddevensort")
           (ArrayLength.integer 2)]).map
        (fun s => (s.workers, s.prototypeStatus, s.currentCoordinatorId,
          WebsiteFinal.enumerate s)) =
      some ([("w1", { name := "a", status := "connected", createdAt := 1 })],
            some "connected", some "__proto__", ["w1", "status"]) ∧
     (WebsiteFinal.run ["oddevensort"] WebsiteFinal.State.empty
        [WebsiteFinal.Op.register 1 "t1" (some "w1") (some "a") (some "connected"),
         WebsiteFinal.Op.requestCoordinatorSwitch "t2" "__proto__",
         WebsiteFinal.Op.startSort exampleClock exampleRand 2 (some "oddevensort")
           (ArrayLength.integer 2)]).map
        (fun s => (WebsiteFinal.activeWorkers s, s.emitted)) =
      some (["w1", "status"],
            [Event.logUpdate "[t1] First worker w1 became Coordinator",
             Event.workerAdded "w1" "a" "connected" 1 (some "w1"),
             Event.logUpdate "[t2] Coordinator switched from w1 to __proto__",
             Event.coordinatorSwitched "__proto__" (some "w1"),
             Event.logUpdate "[0] Start sort: oddevensort, size=2",
             Event.logUpdate "[1] Random array: [5, 4]",
             Event.assignChunk "w1" [5, 4] 0,
             Event.logUpdate "[2] Chunk of size 2 → w1",
             Event.workerUpdated "__proto__" "working",
             Event.engineLog "Worker 0 locally sorted its chunk: [4, 5]",
             Event.engineLog "Round 0 completed. Swapped false.",
             Event.engineLog "All rounds done. Final merged array length = 2.",
             Event.logUpdate "[3] Sort complete: [4, 5]",
             Event.workerUpdated "__proto__" "connected",
             Event.sortComplete [4, 5]])) ∧
    (((WebsiteFinal.run ["oddevensort"] WebsiteFinal.State.empty
        [WebsiteFinal.Op.register 1 "t1" (some "__proto__") (some "x") (some "connected"),
         WebsiteFinal.Op.requestCoordinatorSwitch "t2" "status"]).bind
        (fun s => WebsiteFinal.stateAtEngineCall s exampleClock exampleRand "oddevensort" 2)).map
        (fun atCall => (atCall.currentCoordinatorId, WebsiteFinal.statusOf atCall "status",
          atCall.emitted.getLast?)) =
      some (some "status", some "connected", some (Event.workerUpdated "status" "working")) ∧
     (WebsiteFinal.run ["oddevensort"] WebsiteFinal.State.empty
        [WebsiteFinal.Op.register 1 "t1" (some "__proto__") (some "x") (some "connected"),
         WebsiteFinal.Op.requestCoordinatorSwitch "t2" "status",
         WebsiteFinal.Op.startSort exampleClock exampleRand 2 (some "oddevensort")
           (ArrayLength.integer 2)]) =
      ((WebsiteFinal.run ["oddevensort"] WebsiteFinal.State.empty
        [WebsiteFinal.Op.register 1 "t1" (some "__proto__") (some "x") (some "connected"),
         WebsiteFinal.Op.requestCoordinatorSwitch "t2" "status"]).bind
        (fun s => WebsiteFinal.stateAtEngineCall s exampleClock exampleRand "oddevensort" 2)).map
        (fun atCall => WebsiteFinal.sortFinished
          (["Worker 0 locally sorted its chunk: [4, 5]", "Round 0 completed. Swapped false.",
            "All rounds done. Final merged array length = 2."].foldl
            (fun st line => WebsiteFinal.emit st (Event.engineLog line)) atCall)
          "3" "4" [4, 5])) := by
  refine ⟨?_, by decide, ⟨by decide, by decide, by decide⟩, by decide, by decide⟩
  intro algorithmKeys s s' clock rand fuel algorithm arrayLength msg c hreach hc h
  have hp : Backend.has s.workers c = true := by
    rcases Backend.reachable_coordinatorValid algorithmKeys s hreach with hv | ⟨id, hid, hp⟩
    · rw [hv] at hc; cases hc
    · rw [hc] at hid
      injection hid with hid
      rw [hid]; exact hp
  exact Backend.startSort_trace algorithmKeys s s' clock rand fuel algorithm arrayLength msg c
    (Backend.reachable_keys_nonempty algorithmKeys s hreach c hp) h hc hp

end Registry

/-! ## `insertionSort`: what it does to the range it is given -/

namespace OddEvenSort

theorem insertionSortInnerBy_id (start : Nat) (key : Int) :
    ∀ (j : Nat) (arr : List Int),
      insertionSortInnerBy id start key j arr = insertionSortInner start key j arr := by
  intro j
  induction j with
  | zero => intro arr; rfl
  | succ j ih =>
    intro arr
    unfold insertionSortInnerBy insertionSortInner
    cases arr[j]? with
    | none => rfl
    | some aj =>
      simp only [id]
      split
      · exact ih _
      · rfl

theorem insertionSortStepBy_id (start : Nat) (arr : List Int) (i : Nat) :
    insertionSortStepBy id start arr i = insertionSortStep start arr i := by
  unfold insertionSortStepBy insertionSortStep
  cases arr[i]? with
  | none => rfl
  | some key => exact insertionSortInnerBy_id start key i arr

theorem insertionSortBy_id (arr : List Int) (start stop : Nat) :
    insertionSortBy id arr start stop = insertionSort arr start stop := by
  unfold insertionSortBy insertionSort
  congr 1
  funext a i
  exact insertionSortStepBy_id start a i

theorem set_at_length {α : Type} (l₁ : List α) (a b : α) (l₂ : List α) :
    (l₁ ++ a :: l₂).set l₁.length b = l₁ ++ b :: l₂ := by
  induction l₁ with
  | nil => rfl
  | cons c l ih => simp [List.set, ih]

theorem getElem?_at_length {α : Type} (l₁ : List α) (a : α) (l₂ : List α) :
    (l₁ ++ a :: l₂)[l₁.length]? = some a := by
  induction l₁ with
  | nil => simp
  | cons c l ih => simpa using ih

/-- The inner loop on an array `P ++ S ++ junk :: rest`, entered with the free
slot at `junk` and `start = P.length`: the element `x` lands inside `S`, after
the elements it is not smaller than and before those greater than it. -/
theorem insertionSortInnerBy_spec {α : Type} (key : α → Int) (x : α) (P : List α) :
    ∀ (S : List α) (junk : α) (rest : List α),
      ∃ S₁ S₂, S = S₁ ++ S₂ ∧ (∀ y ∈ S₂, key x < key y) ∧
        (S₁ = [] ∨ ∃ k a, S₁ = k ++ [a] ∧ key a ≤ key x) ∧
        insertionSortInnerBy key P.length x (P ++ S).length (P ++ S ++ junk :: rest) =
          P ++ S₁ ++ x :: (S₂ ++ rest) := by
  intro S
  induction S using List.reverseRecOn with
  | nil =>
    intro junk rest
    refine ⟨[], [], rfl, by simp, Or.inl rfl, ?_⟩
    simp only [List.append_nil, List.nil_append]
    cases hP : P.length with
    | zero =>
      have : P = [] := List.length_eq_zero.mp hP
      subst this
      rfl
    | succ j =>
      unfold insertionSortInnerBy
      have hset : (P ++ junk :: rest).set (j + 1) x = P ++ x :: rest := by
        rw [← hP]; exact set_at_length P junk x rest
      cases (P ++ junk :: rest)[j]? with
      | none => exact hset
      | some aj =>
        simp only
        rw [if_neg (by omega)]
        exact hset
  | append_singleton S a ih =>
    intro junk rest
    have hlen : (P ++ (S ++ [a])).length = (P ++ S).length + 1 := by simp; omega
    rw [hlen]
    unfold insertionSortInnerBy
    have hget : (P ++ (S ++ [a]) ++ junk :: rest)[(P ++ S).length]? = some a := by
      have : P ++ (S ++ [a]) ++ junk :: rest = (P ++ S) ++ a :: (junk :: rest) := by simp
      rw [this]
      exact getElem?_at_length _ _ _
    rw [hget]
    simp only
    by_cases hgt : key a > key x
    · rw [if_pos ⟨by simp, hgt⟩]
      have hset : (P ++ (S ++ [a]) ++ junk :: rest).set ((P ++ S).length + 1) a =
          P ++ S ++ a :: (a :: rest) := by
        have h1 : P ++ (S ++ [a]) ++ junk :: rest = (P ++ S ++ [a]) ++ junk :: rest := by simp
        have h2 : (P ++ S).length + 1 = (P ++ S ++ [a]).length := by simp; omega
        rw [h1, h2, set_at_length]
        simp
      rw [hset]
      obtain ⟨S₁, S₂, hS, h2, h1, hres⟩ := ih a (a :: rest)
      refine ⟨S₁, S₂ ++ [a], by rw [hS]; simp, ?_, h1, ?_⟩
      · intro y hy
        rcases List.mem_append.mp hy with hy | hy
        · exact h2 y hy
        · rw [List.mem_singleton.mp hy]; exact hgt
      · rw [hres]; simp
    · rw [if_neg (fun h => hgt h.2)]
      refine ⟨S ++ [a], [], by simp, by simp, Or.inr ⟨S, a, rfl, by omega⟩, ?_⟩
      have h1 : P ++ (S ++ [a]) ++ junk :: rest = (P ++ S ++ [a]) ++ junk :: rest := by simp
      have h2 : (P ++ S).length + 1 = (P ++ S ++ [a]).length := by simp; omega
      rw [h1, h2, set_at_length]
      simp

end OddEvenSort

namespace OddEvenSort

theorem insertionSortStepBy_spec {α : Type} (key : α → Int) (P S : List α) (x : α)
    (rest : List α) :
    ∃ S₁ S₂, S = S₁ ++ S₂ ∧ (∀ y ∈ S₂, key x < key y) ∧
      (S₁ = [] ∨ ∃ k a, S₁ = k ++ [a] ∧ key a ≤ key x) ∧
      insertionSortStepBy key P.length (P ++ S ++ x :: rest) (P ++ S).length =
        P ++ S₁ ++ x :: (S₂ ++ rest) := by
  obtain ⟨S₁, S₂, h1, h2, h3, h4⟩ := insertionSortInnerBy_spec key x P S x rest
  refine ⟨S₁, S₂, h1, h2, h3, ?_⟩
  unfold insertionSortStepBy
  rw [getElem?_at_length]
  exact h4

theorem sorted_insert_between {α : Type} (key : α → Int) (S₁ S₂ : List α) (x : α)
    (hs : (S₁ ++ S₂).Sorted (fun a b => key a ≤ key b))
    (h2 : ∀ y ∈ S₂, key x < key y)
    (h1 : S₁ = [] ∨ ∃ k a, S₁ = k ++ [a] ∧ key a ≤ key x) :
    (S₁ ++ x :: S₂).Sorted (fun a b => key a ≤ key b) := by
  unfold List.Sorted at hs ⊢
  rw [List.pairwise_append] at hs ⊢
  obtain ⟨p1, p2, p12⟩ := hs
  have hle : ∀ a ∈ S₁, key a ≤ key x := by
    rcases h1 with h1 | ⟨k, l, hk, hl⟩
    · subst h1; intro a ha; cases ha
    · subst hk
      intro a ha
      rcases List.mem_append.mp ha with ha | ha
      · rw [List.pairwise_append] at p1
        exact le_trans (p1.2.2 a ha l (List.mem_singleton.mpr rfl)) hl
      · rw [List.mem_singleton.mp ha]; exact hl
  refine ⟨p1, List.pairwise_cons.mpr ⟨fun y hy => le_of_lt (h2 y hy), p2⟩, ?_⟩
  intro a ha b hb
  rcases List.mem_cons.mp hb with hb | hb
  · rw [hb]; exact hle a ha
  · exact p12 a ha b hb

theorem filter_insert_between {α : Type} (key : α → Int) (S₁ S₂ t : List α) (x : α)
    (h2 : ∀ y ∈ S₂, key x < key y) (v : Int) :
    (S₁ ++ x :: S₂ ++ t).filter (fun y => decide (key y = v)) =
      (S₁ ++ S₂ ++ x :: t).filter (fun y => decide (key y = v)) := by
  simp only [List.filter_append, List.filter_cons, List.append_assoc]
  by_cases hx : key x = v
  · have : S₂.filter (fun y => decide (key y = v)) = [] := by
      rw [List.filter_eq_nil_iff]
      intro y hy
      have := h2 y hy
      simp only [decide_eq_true_eq]
      omega
    simp [hx, this]
  · simp [hx]

/-- The outer loop of `insertionSort` from the index after `P ++ S` on, when the
part `S` behind `start = P.length` is sorted already: the elements of `todo`
are inserted one after the other, the parts `P` and `Q` are left alone. -/
theorem insertionSortBy_fold {α : Type} (key : α → Int) (P : List α) :
    ∀ (todo S Q : List α), S.Sorted (fun a b => key a ≤ key b) →
      ∃ S', (List.range' (P ++ S).length todo.length).foldl (insertionSortStepBy key P.length)
            (P ++ S ++ todo ++ Q) = P ++ S' ++ Q ∧
        S'.Sorted (fun a b => key a ≤ key b) ∧ S'.Perm (S ++ todo) ∧
        ∀ v : Int, S'.filter (fun y => decide (key y = v)) =
          (S ++ todo).filter (fun y => decide (key y = v)) := by
  intro todo
  induction todo with
  | nil =>
    intro S Q hs
    exact ⟨S, by simp, hs, by simp, fun v => by simp⟩
  | cons x t ih =>
    intro S Q hs
    obtain ⟨S₁, S₂, hS, h2, h1, hstep⟩ := insertionSortStepBy_spec key P S x (t ++ Q)
    have hsorted := sorted_insert_between key S₁ S₂ x (hS ▸ hs) h2 h1
    obtain ⟨S', hfold, hS', hperm, hfilter⟩ := ih (S₁ ++ x :: S₂) Q hsorted
    refine ⟨S', ?_, hS', ?_, ?_⟩
    · rw [List.length_cons, List.range'_succ, List.foldl_cons]
      have harr : P ++ S ++ x :: t ++ Q = P ++ S ++ x :: (t ++ Q) := by simp
      rw [harr, hstep]
      have hlen : (P ++ S).length + 1 = (P ++ (S₁ ++ x :: S₂)).length := by
        rw [hS]; simp; omega
      have harr2 : P ++ S₁ ++ x :: (S₂ ++ (t ++ Q)) = P ++ (S₁ ++ x :: S₂) ++ t ++ Q := by simp
      rw [hlen, harr2]
      exact hfold
    · refine hperm.trans ?_
      rw [hS]
      have : (S₁ ++ x :: S₂).Perm (x :: (S₁ ++ S₂)) := List.perm_middle
      have h3 : (S₁ ++ S₂ ++ x :: t).Perm (x :: (S₁ ++ S₂) ++ t) := by
        simpa using (@List.perm_middle α x (S₁ ++ S₂) t)
      exact (this.append_right t).trans h3.symm
    · intro v
      rw [hfilter v, hS]
      exact filter_insert_between key S₁ S₂ t x h2 v

/-- The function `insertionSort` on the array `P ++ seg ++ Q`, called
with `start = P.length` and `end = start + seg.length`: the result is
`P ++ seg' ++ Q`, where `seg'` is `seg` in ascending order of the numeric value,
elements of the same numeric value in the order they had. -/
theorem insertionSortBy_spec {α : Type} (key : α → Int) (P seg Q : List α) :
    ∃ seg', insertionSortBy key (P ++ seg ++ Q) P.length (P.length + seg.length) =
        P ++ seg' ++ Q ∧
      seg'.Sorted (fun a b => key a ≤ key b) ∧ seg'.Perm seg ∧
      ∀ v : Int, seg'.filter (fun y => decide (key y = v)) =
        seg.filter (fun y => decide (key y = v)) := by
  cases seg with
  | nil =>
    refine ⟨[], ?_, List.sorted_nil, List.Perm.refl _, fun v => rfl⟩
    unfold insertionSortBy
    have : P.length + ([] : List α).length - (P.length + 1) = 0 := by simp
    rw [this]
    rfl
  | cons s₀ todo =>
    obtain ⟨S', hfold, hS', hperm, hfilter⟩ :=
      insertionSortBy_fold key P todo [s₀] Q (List.sorted_singleton s₀)
    refine ⟨S', ?_, hS', by simpa using hperm, fun v => by simpa using hfilter v⟩
    unfold insertionSortBy
    have h1 : P.length + (s₀ :: todo).length - (P.length + 1) = todo.length := by
      simp; omega
    have h2 : P.length + 1 = (P ++ [s₀]).length := by simp
    have h3 : P ++ s₀ :: todo ++ Q = P ++ [s₀] ++ todo ++ Q := by simp
    rw [h1, h2, h3]
    exact hfold

theorem insertionSort_sorted (arr : List Int) :
    (insertionSort arr 0 arr.length).Sorted (· ≤ ·) := by
  obtain ⟨seg', h, hs, -, -⟩ := insertionSortBy_spec id [] arr []
  rw [← insertionSortBy_id]
  simp only [List.nil_append, List.append_nil, List.length_nil, Nat.zero_add] at h
  rw [h]
  exact hs

theorem insertionSort_eq_sort (arr : List Int) :
    insertionSort arr 0 arr.length = arr.insertionSort (· ≤ ·) :=
  List.eq_of_perm_of_sorted
    ((insertionSort_perm arr 0 arr.length).trans (List.perm_insertionSort _ _).symm)
    (insertionSort_sorted arr) (List.sorted_insertionSort _ _)

theorem insertionSort_of_sorted (arr : List Int) (h : arr.Sorted (· ≤ ·)) :
    insertionSort arr 0 arr.length = arr :=
  List.eq_of_perm_of_sorted (insertionSort_perm arr 0 arr.length) (insertionSort_sorted arr) h

end OddEvenSort

namespace OddEvenSort

theorem range_decomposition {α : Type} (arr : List α) (start stop : Nat) (h₁ : start ≤ stop) :
    arr = arr.take start ++ (arr.drop start).take (stop - start) ++ arr.drop stop := by
  have h : arr.drop stop = (arr.drop start).drop (stop - start) := by
    rw [List.drop_drop]
    congr 1
    omega
  rw [h, List.append_assoc, List.take_append_drop, List.take_append_drop]

theorem drop_take_middle {α : Type} (P seg Q : List α) :
    ((P ++ seg ++ Q).drop P.length).take seg.length = seg := by
  rw [List.append_assoc, List.drop_left, List.take_left]

/-- Claim C27.  For `0 ≤ start ≤ end ≤ arr.length`, `insertionSort(arr, start, end)`
keeps the length of the array and every element at an index outside
`[start, end)`, and leaves in `arr[start .. end - 1]` the elements that were
there, in ascending order of their numeric value, those of the same numeric
value in the order they had (the sort is stable; it is stated for elements
that carry more than their numeric value, since two equal integers cannot be
told apart).  On arrays of integers this is the function `insertionSort` of the
engine, and with `start = 0`, `end = arr.length` the whole array is sorted. -/
theorem insertionSort_range {α : Type} (key : α → Int) (arr : List α) (start stop : Nat)
    (h₁ : start ≤ stop) (h₂ : stop ≤ arr.length) :
    (insertionSortBy key arr start stop).length = arr.length ∧
    (∀ i, i < start ∨ stop ≤ i → (insertionSortBy key arr start stop)[i]? = arr[i]?) ∧
    (((insertionSortBy key arr start stop).drop start).take (stop - start)).Sorted
      (fun a b => key a ≤ key b) ∧
    (((insertionSortBy key arr start stop).drop start).take (stop - start)).Perm
      ((arr.drop start).take (stop - start)) ∧
    (∀ v : Int,
      (((insertionSortBy key arr start stop).drop start).take (stop - start)).filter
          (fun y => decide (key y = v)) =
        ((arr.drop start).take (stop - start)).filter (fun y => decide (key y = v))) ∧
    (∀ ints : List Int, insertionSortBy id ints start stop = insertionSort ints start stop) ∧
    (∀ ints : List Int, (insertionSort ints 0 ints.length).Sorted (· ≤ ·) ∧
      (insertionSort ints 0 ints.length).Perm ints) := by
  have hP : (arr.take start).length = start := by
    rw [List.length_take]; omega
  have hseg : ((arr.drop start).take (stop - start)).length = stop - start := by
    rw [List.length_take, List.length_drop]; omega
  obtain ⟨seg', hres, hsorted, hperm, hfilter⟩ :=
    insertionSortBy_spec key (arr.take start) ((arr.drop start).take (stop - start))
      (arr.drop stop)
  rw [← range_decomposition arr start stop h₁, hP, hseg,
    show start + (stop - start) = stop by omega] at hres
  have hlen' : seg'.length = stop - start := by rw [hperm.length_eq, hseg]
  have hdrop : ((arr.take start ++ seg' ++ arr.drop stop).drop start).take (stop - start) =
      seg' := by
    have h := drop_take_middle (arr.take start) seg' (arr.drop stop)
    rw [hP, hlen'] at h
    exact h
  rw [hres, hdrop]
  refine ⟨?_, ?_, hsorted, hperm, hfilter, fun ints => insertionSortBy_id ints start stop,
    fun ints => ⟨insertionSort_sorted ints, insertionSort_perm ints 0 ints.length⟩⟩
  · simp only [List.length_append, hlen', hP, List.length_drop]
    omega
  · intro i hi
    rcases hi with hi | hi
    · rw [List.append_assoc, List.getElem?_append_left (by omega), List.getElem?_take_of_lt hi]
    · rw [List.getElem?_append_right (by simp [hP, hlen']; omega), List.getElem?_drop]
      congr 1
      simp only [List.length_append, hP, hlen']
      omega

/-- Claim C27 on an array of tagged integers, sorted between the indices `1`
and `5`: the elements at `0` and `5` stay, the four in between are put in
ascending order, `b` before `d` and `a` before `c` as they were. -/
theorem insertionSort_range_witness :
    (1 ≤ 5 ∧ 5 ≤ [((9 : Int), "p"), (2, "a"), (1, "b"), (2, "c"), (1, "d"), (0, "q")].length) ∧
    insertionSortBy Prod.fst
        [((9 : Int), "p"), (2, "a"), (1, "b"), (2, "c"), (1, "d"), (0, "q")] 1 5 =
      [(9, "p"), (1, "b"), (1, "d"), (2, "a"), (2, "c"), (0, "q")] ∧
    (((insertionSortBy Prod.fst
        [((9 : Int), "p"), (2, "a"), (1, "b"), (2, "c"), (1, "d"), (0, "q")] 1 5).drop 1).take
        (5 - 1)).Sorted (fun a b => a.1 ≤ b.1) :=
  ⟨by decide, by decide,
   (insertionSort_range Prod.fst
      [((9 : Int), "p"), (2, "a"), (1, "b"), (2, "c"), (1, "d"), (0, "q")] 1 5
      (by decide) (by decide)).2.2.1⟩

end OddEvenSort

/-! ## The engine: sorted chunks and quiet boundaries -/

namespace OddEvenSort

theorem trySwapNeighbor_sorted (a b : List Int) (ha : a.Sorted (· ≤ ·))
    (hb : b.Sorted (· ≤ ·)) :
    (trySwapNeighbor a b).1.Sorted (· ≤ ·) ∧ (trySwapNeighbor a b).2.1.Sorted (· ≤ ·) := by
  rcases trySwapNeighbor_cases a b with ⟨x, y, -, -, -, h⟩ | h
  · rw [h]
    constructor
    · have := insertionSort_sorted (a.set (a.length - 1) y)
      rwa [List.length_set] at this
    · have := insertionSort_sorted (b.set 0 x)
      rwa [List.length_set] at this
  · rw [h]; exact ⟨ha, hb⟩

theorem trySwapNeighbor_flag (a b : List Int) (x y : Int) (ha : a.getLast? = some x)
    (hb : b.head? = some y) : (trySwapNeighbor a b).2.2 = decide (x > y) := by
  rw [List.getLast?_eq_getElem?] at ha
  rw [List.head?_eq_getElem?] at hb
  unfold trySwapNeighbor
  rw [ha, hb]
  simp only
  by_cases h : x > y
  · rw [if_pos h]; simp [h]
  · rw [if_neg h]; simp [h]

theorem trySwapNeighbor_of_sorted_append (a b : List Int) (h : (a ++ b).Sorted (· ≤ ·)) :
    (trySwapNeighbor a b).2.2 = false := by
  rcases trySwapNeighbor_cases a b with ⟨x, y, hx, hy, hgt, -⟩ | h'
  · exfalso
    have hx' : x ∈ a := List.getElem?_mem hx
    have hy' : y ∈ b := List.getElem?_mem hy
    have := (List.pairwise_append.mp h).2.2 x hx' y hy'
    omega
  · rw [h']

/-- The pairs of neighbours of a chunk list on which `trySwapNeighbor` returns
`false`. -/
theorem phaseLoop_quiet (phase : String) (round : Nat) :
    ∀ (fuel w : Nat) (cs : List (List Int)) (s : Bool) (log : List String),
      (phaseLoop phase round fuel w cs s log).2.1 = false →
      ∀ j, j < fuel → ∀ (h : w + 2 * j + 1 < cs.length),
        (trySwapNeighbor (cs.get ⟨w + 2 * j, by omega⟩) (cs.get ⟨w + 2 * j + 1, h⟩)).2.2 = false := by
  intro fuel
  induction fuel with
  | zero => intro w cs s log _ j hj; omega
  | succ fuel ih =>
    intro w cs s log hflag j hj h
    have hw : w + 1 < cs.length := by omega
    have hstep := phaseLoop_step phase round fuel w cs s log hw _ rfl
    rw [hstep] at hflag
    have hspec := phaseLoop_spec phase round fuel (w + 2)
      ((cs.set w (trySwapNeighbor cs[w] cs[w + 1]).1).set (w + 1)
        (trySwapNeighbor cs[w] cs[w + 1]).2.1)
      (s || (trySwapNeighbor cs[w] cs[w + 1]).2.2)
      (if (trySwapNeighbor cs[w] cs[w + 1]).2.2 = true then log ++ [swapLine phase round w]
        else log) _ rfl
    have hs : (s || (trySwapNeighbor cs[w] cs[w + 1]).2.2) = false := by
      cases hb : (s || (trySwapNeighbor cs[w] cs[w + 1]).2.2) with
      | false => rfl
      | true =>
        have := hspec.2.2.2.1 hb
        rw [this] at hflag
        cases hflag
    have hq : (trySwapNeighbor cs[w] cs[w + 1]).2.2 = false := by
      cases s <;> simp_all
    have hcs := (exchange_spec cs w hw _ rfl).2.2.2.2 hq
    rw [hcs] at hflag
    cases j with
    | zero => simpa using hq
    | succ j =>
      have := ih (w + 2) cs _ _ hflag j (by omega) (by omega)
      have e1 : w + 2 + 2 * j = w + 2 * (j + 1) := by omega
      simpa [e1] using this

theorem roundBody_quiet (cs : List (List Int)) (round : Nat) (log : List String)
    (hflag : (roundBody cs round log).2.1 = false) :
    ∀ w (h : w + 1 < cs.length), (trySwapNeighbor cs[w] cs[w + 1]).2.2 = false := by
  unfold roundBody at hflag
  simp only at hflag
  have hspecE := phaseLoop_spec "Even" round
    (phaseLoop "Odd" round cs.length 1 cs false log).1.length 0
    (phaseLoop "Odd" round cs.length 1 cs false log).1
    (phaseLoop "Odd" round cs.length 1 cs false log).2.1
    (phaseLoop "Odd" round cs.length 1 cs false log).2.2 _ rfl
  have hodd : (phaseLoop "Odd" round cs.length 1 cs false log).2.1 = false := by
    cases hb : (phaseLoop "Odd" round cs.length 1 cs false log).2.1 with
    | false => rfl
    | true =>
      have := hspecE.2.2.2.1 hb
      rw [this] at hflag
      cases hflag
  have hcs : (phaseLoop "Odd" round cs.length 1 cs false log).1 = cs :=
    (phaseLoop_spec "Odd" round cs.length 1 cs false log _ rfl).2.2.2.2.2 hodd
  have hq1 := phaseLoop_quiet "Odd" round cs.length 1 cs false log hodd
  rw [hcs] at hflag
  have hq0 := phaseLoop_quiet "Even" round cs.length 0 cs _ _ hflag
  intro w h
  rcases Nat.even_or_odd w with ⟨j, hj⟩ | ⟨j, hj⟩
  · have := hq0 j (by omega) (by omega)
    have e : 0 + 2 * j = w := by omega
    simpa [e] using this
  · have := hq1 j (by omega) (by omega)
    have e : 1 + 2 * j = w := by omega
    simpa [e] using this

theorem phaseLoop_of_quiet (phase : String) (round : Nat) :
    ∀ (fuel w : Nat) (cs : List (List Int)) (s : Bool) (log : List String),
      (∀ w (h : w + 1 < cs.length), (trySwapNeighbor cs[w] cs[w + 1]).2.2 = false) →
      phaseLoop phase round fuel w cs s log = (cs, s, log) := by
  intro fuel
  induction fuel with
  | zero => intro w cs s log _; rfl
  | succ fuel ih =>
    intro w cs s log hq
    by_cases hw : w + 1 < cs.length
    · rw [phaseLoop_step phase round fuel w cs s log hw _ rfl]
      have hf := hq w hw
      have hcs := (exchange_spec cs w hw _ rfl).2.2.2.2 hf
      rw [hcs, hf]
      simp only [Bool.or_false, Bool.false_eq_true, if_false]
      exact ih (w + 2) cs s log hq
    · exact phaseLoop_stop phase round (fuel + 1) w cs s log hw

theorem roundBody_of_quiet (cs : List (List Int)) (round : Nat) (log : List String)
    (hq : ∀ w (h : w + 1 < cs.length), (trySwapNeighbor cs[w] cs[w + 1]).2.2 = false) :
    roundBody cs round log =
      (cs, false, log ++ ["Round " ++ toString round ++ " completed. Swapped " ++
        toString false ++ "."]) := by
  unfold roundBody
  simp only
  rw [phaseLoop_of_quiet "Odd" round cs.length 1 cs false log hq]
  simp only
  rw [phaseLoop_of_quiet "Even" round cs.length 0 cs false log hq]

/-- At the exit of the `do … while` no pair of neighbours is swapped by
`trySwapNeighbor`: the last pass found every pair in order and changed nothing. -/
theorem roundLoop_exit :
    ∀ (fuel : Nat) (cs : List (List Int)) (round : Nat) (log : List String)
      (r : List (List Int) × Nat × List String),
      roundLoop fuel cs round log = some r →
      ∀ w (h : w + 1 < r.1.length), (trySwapNeighbor r.1[w] r.1[w + 1]).2.2 = false := by
  intro fuel
  induction fuel with
  | zero => intro cs round log r h; cases h
  | succ fuel ih =>
    intro cs round log r h
    rw [roundLoop_succ] at h
    rcases Bool.eq_false_or_eq_true (roundBody cs round log).2.1 with hb | hb
    · rw [hb] at h
      exact ih _ _ _ r h
    · rw [hb] at h
      simp only [Bool.false_eq_true, if_false] at h
      injection h with h
      subst h
      have hcs := (roundBody_spec cs round log).2.2.2 hb
      have hq := roundBody_quiet cs round log hb
      intro w hw
      simp only [hcs] at hw ⊢
      exact hq w hw

theorem engineStep_sorted (cs cs' : List (List Int)) (h : EngineStep cs cs')
    (hs : ∀ c ∈ cs, c.Sorted (· ≤ ·)) : ∀ c ∈ cs', c.Sorted (· ≤ ·) := by
  cases h with
  | localSort i hi =>
    intro c hc
    rcases List.mem_or_eq_of_mem_set hc with hc | hc
    · exact hs c hc
    · rw [hc]; exact insertionSort_sorted _
  | exchange w hw =>
    have hsw := trySwapNeighbor_sorted cs[w] cs[w + 1]
      (hs _ (List.getElem_mem _)) (hs _ (List.getElem_mem _))
    intro c hc
    rcases List.mem_or_eq_of_mem_set hc with hc | hc
    · rcases List.mem_or_eq_of_mem_set hc with hc | hc
      · exact hs c hc
      · rw [hc]; exact hsw.1
    · rw [hc]; exact hsw.2

theorem engineSteps_sorted (cs cs' : List (List Int))
    (h : Relation.ReflTransGen EngineStep cs cs') (hs : ∀ c ∈ cs, c.Sorted (· ≤ ·)) :
    ∀ c ∈ cs', c.Sorted (· ≤ ·) := by
  induction h with
  | refl => exact hs
  | tail _ hstep ih => exact engineStep_sorted _ _ hstep ih

theorem localSort_sorted (arrays : List (List Int)) :
    ∀ c ∈ arrays.map (fun c => insertionSort c 0 c.length), c.Sorted (· ≤ ·) := by
  intro c hc
  obtain ⟨d, -, rfl⟩ := List.mem_map.mp hc
  exact insertionSort_sorted d

theorem localSort_of_sorted (arrays : List (List Int)) (hs : ∀ c ∈ arrays, c.Sorted (· ≤ ·)) :
    arrays.map (fun c => insertionSort c 0 c.length) = arrays := by
  conv_rhs => rw [← List.map_id arrays]
  apply List.map_congr_left
  intro c hc
  exact insertionSort_of_sorted c (hs c hc)

/-- The concatenation of non-empty sorted chunks whose boundaries are all in
order is sorted. -/
theorem flatten_sorted_of_quiet :
    ∀ (cs : List (List Int)), (∀ c ∈ cs, c ≠ []) → (∀ c ∈ cs, c.Sorted (· ≤ ·)) →
      (∀ w (h : w + 1 < cs.length), (trySwapNeighbor cs[w] cs[w + 1]).2.2 = false) →
      cs.flatten.Sorted (· ≤ ·) := by
  intro cs
  induction cs with
  | nil => intro _ _ _; exact List.sorted_nil
  | cons c rest ih =>
    intro hne hs hq
    have hrest : rest.flatten.Sorted (· ≤ ·) :=
      ih (fun d hd => hne d (List.mem_cons_of_mem _ hd))
        (fun d hd => hs d (List.mem_cons_of_mem _ hd))
        (fun w h => by
          have := hq (w + 1) (by simpa using h)
          simpa using this)
    rw [List.flatten_cons]
    unfold List.Sorted
    rw [List.pairwise_append]
    refine ⟨hs c (List.mem_cons_self _ _), hrest, ?_⟩
    cases rest with
    | nil => intro x _ y hy; simp at hy
    | cons d rest' =>
      have hcne := hne c (List.mem_cons_self _ _)
      have hdne := hne d (List.mem_cons_of_mem _ (List.mem_cons_self _ _))
      obtain ⟨c', l, hc⟩ : ∃ c' l, c = c' ++ [l] :=
        ⟨c.dropLast, c.getLast hcne, (List.dropLast_append_getLast hcne).symm⟩
      obtain ⟨f, d', hd⟩ : ∃ f d', d = f :: d' := List.exists_cons_of_ne_nil hdne
      have h0 := hq 0 (by simp)
      simp only [List.getElem_cons_zero, List.getElem_cons_succ, Nat.zero_add] at h0
      have hflag := trySwapNeighbor_flag c d l f (by rw [hc]; simp) (by rw [hd]; rfl)
      rw [h0] at hflag
      have hlf : l ≤ f := by
        have : ¬ l > f := by
          intro hgt
          simp [hgt] at hflag
        omega
      have hcs := hs c (List.mem_cons_self _ _)
      intro x hx y hy
      have hxl : x ≤ l := by
        rw [hc] at hx hcs
        rcases List.mem_append.mp hx with hx | hx
        · exact (List.pairwise_append.mp hcs).2.2 x hx l (List.mem_singleton.mpr rfl)
        · rw [List.mem_singleton.mp hx]
      have hfy : f ≤ y := by
        rw [hd, List.flatten_cons, List.cons_append] at hrest hy
        rcases List.mem_cons.mp hy with hy | hy
        · rw [hy]
        · exact (List.pairwise_cons.mp hrest).1 y hy
      omega

theorem mergeArrays_of_sorted (arrays : List (List Int)) (h : arrays.flatten.Sorted (· ≤ ·)) :
    mergeArrays arrays = arrays.flatten :=
  List.Sorted.insertionSort_eq h

end OddEvenSort

/-! ## The engine at the exit of the loop, and on input that is sorted already -/

namespace OddEvenSort

theorem oddEvenSortParallel_inv (fuel : Nat) (chunks : List Chunk) (run : SortRun)
    (h : oddEvenSortParallel fuel chunks = some run) :
    ∃ r, roundLoop fuel ((chunks.map (·.chunk)).map (fun c => insertionSort c 0 c.length)) 0
        (((chunks.map (·.chunk)).map (fun c => insertionSort c 0 c.length)).enum.map
          (fun p => localSortLine p.1 p.2)) = some r ∧
      run.chunks = r.1 ∧ run.rounds = r.2.1 ∧ run.sorted = mergeArrays r.1 := by
  unfold oddEvenSortParallel at h
  simp only at h
  split at h
  · cases h
  · next final round log hloop =>
    injection h with h
    subst h
    exact ⟨_, hloop, rfl, rfl, rfl⟩

theorem quietLine :
    "Round " ++ toString (0 : Nat) ++ " completed. Swapped " ++ toString false ++ "." =
      "Round 0 completed. Swapped false." := by
  decide

/-- On chunks that are sorted and whose boundaries are all in order the engine
makes one round without a swap and leaves the chunks as they are. -/
theorem oddEvenSortParallel_of_quiet (chunks : List Chunk)
    (hs : ∀ c ∈ chunks.map (·.chunk), c.Sorted (· ≤ ·))
    (hq : ∀ w (h : w + 1 < (chunks.map (·.chunk)).length),
      (trySwapNeighbor (chunks.map (·.chunk))[w] (chunks.map (·.chunk))[w + 1]).2.2 = false)
    (fuel : Nat) (hf : 0 < fuel) :
    oddEvenSortParallel fuel chunks =
      some { chunks := chunks.map (·.chunk), rounds := 1,
             sorted := mergeArrays (chunks.map (·.chunk)),
             log := (chunks.map (·.chunk)).enum.map (fun p => localSortLine p.1 p.2) ++
               ["Round 0 completed. Swapped false."] ++
               ["All rounds done. Final merged array length = " ++
                 toString (mergeArrays (chunks.map (·.chunk))).length ++ "."] } := by
  obtain ⟨f, rfl⟩ : ∃ f, fuel = f + 1 := ⟨fuel - 1, by omega⟩
  unfold oddEvenSortParallel
  simp only
  rw [localSort_of_sorted _ hs, roundLoop_succ, roundBody_of_quiet _ _ _ hq, quietLine]
  simp

theorem pair_sublist_flatten :
    ∀ (cs : List (List Int)) (w : Nat) (h : w + 1 < cs.length),
      (cs[w] ++ cs[w + 1]).Sublist cs.flatten := by
  intro cs
  induction cs with
  | nil => intro w h; simp at h
  | cons c rest ih =>
    intro w h
    cases w with
    | zero =>
      cases rest with
      | nil => simp at h
      | cons d rest' =>
        simp only [List.getElem_cons_zero, Nat.zero_add, List.getElem_cons_succ,
          List.flatten_cons, ← List.append_assoc]
        exact List.sublist_append_left _ _
    | succ w =>
      have := ih w (by simpa using h)
      simp only [List.getElem_cons_succ, List.flatten_cons]
      exact this.trans (List.sublist_append_right _ _)

theorem mem_sublist_flatten (cs : List (List Int)) (c : List Int) (h : c ∈ cs) :
    c.Sublist cs.flatten := by
  induction cs with
  | nil => cases h
  | cons d rest ih =>
    rw [List.flatten_cons]
    rcases List.mem_cons.mp h with h | h
    · rw [h]; exact List.sublist_append_left _ _
    · exact (ih h).trans (List.sublist_append_right _ _)

theorem last_le_first (a b : List Int) (x y : Int) (hx : a.getLast? = some x)
    (hy : b.head? = some y) (hq : (trySwapNeighbor a b).2.2 = false) : x ≤ y := by
  have hflag := trySwapNeighbor_flag a b x y hx hy
  rw [hq] at hflag
  have : ¬ x > y := by
    intro hgt
    simp [hgt] at hflag
  omega

theorem pair_le_of_quiet (a b : List Int) (ha : a ≠ []) (hb : b ≠ [])
    (hsa : a.Sorted (· ≤ ·)) (hsb : b.Sorted (· ≤ ·))
    (hq : (trySwapNeighbor a b).2.2 = false) : ∀ x ∈ a, ∀ y ∈ b, x ≤ y := by
  have h := flatten_sorted_of_quiet [a, b]
    (by intro c hc; simp at hc; rcases hc with rfl | rfl <;> assumption)
    (by intro c hc; simp at hc; rcases hc with rfl | rfl <;> assumption)
    (by
      intro w hw
      have : w = 0 := by simp at hw; omega
      subst this
      simpa using hq)
  simp only [List.flatten_cons, List.flatten_nil, List.append_nil] at h
  exact (List.pairwise_append.mp h).2.2

/-- Claim C21.  For every list of non-empty chunks the engine returns once the
fuel exceeds the number of rounds, and at the exit of the round loop every
chunk is non-empty and sorted, for every pair of neighbours the last element of
the first is at most the first element of the second, hence every element of
the first is at most every element of the second, the concatenation of the
chunks in list order is sorted, and the array `mergeArrays` returns is that
concatenation. -/
theorem post_termination_invariant (chunks : List Chunk)
    (hne : ∀ c ∈ chunks, c.chunk ≠ []) :
    (∃ n, ∀ fuel, n < fuel → ∃ run, oddEvenSortParallel fuel chunks = some run) ∧
    ∀ fuel run, oddEvenSortParallel fuel chunks = some run →
      (∀ c ∈ run.chunks, c ≠ [] ∧ c.Sorted (· ≤ ·)) ∧
      (∀ i (h : i + 1 < run.chunks.length),
        (∀ x y, run.chunks[i].getLast? = some x → run.chunks[i + 1].head? = some y → x ≤ y) ∧
        (∀ x ∈ run.chunks[i], ∀ y ∈ run.chunks[i + 1], x ≤ y)) ∧
      run.chunks.flatten.Sorted (· ≤ ·) ∧
      run.sorted = run.chunks.flatten := by
  constructor
  · obtain ⟨n, hn⟩ := oddEvenSortParallel_some chunks
    exact ⟨n, fun fuel hf => (hn fuel hf).imp (fun _ h => h.1)⟩
  · intro fuel run h
    obtain ⟨r, hloop, hc, -, hsorted⟩ := oddEvenSortParallel_inv fuel chunks run h
    have hq := roundLoop_exit fuel _ _ _ r hloop
    have hsteps := roundLoop_steps fuel _ _ _ r hloop
    have hs : ∀ c ∈ r.1, c.Sorted (· ≤ ·) :=
      engineSteps_sorted _ _ hsteps (localSort_sorted _)
    have hlen := (engineSteps_invariant _ _ (oddEvenSortParallel_steps fuel chunks run h)).1
    have hne' : ∀ c ∈ r.1, c ≠ [] := by
      intro c hc' hnil
      rw [hc] at hlen
      have : c.length ∈ r.1.map List.length := List.mem_map.mpr ⟨c, hc', rfl⟩
      rw [hlen] at this
      obtain ⟨d, hd, hdl⟩ := List.mem_map.mp this
      obtain ⟨e, he, rfl⟩ := List.mem_map.mp hd
      rw [hnil] at hdl
      exact hne e he (List.length_eq_zero.mp hdl)
    have hflat := flatten_sorted_of_quiet r.1 hne' hs hq
    rw [hc, hsorted]
    refine ⟨fun c hc' => ⟨hne' c hc', hs c hc'⟩, ?_, hflat, mergeArrays_of_sorted _ hflat⟩
    intro i hi
    refine ⟨fun x y hx hy => last_le_first _ _ x y hx hy (hq i hi), ?_⟩
    exact pair_le_of_quiet _ _ (hne' _ (List.getElem_mem _)) (hne' _ (List.getElem_mem _))
      (hs _ (List.getElem_mem _)) (hs _ (List.getElem_mem _)) (hq i hi)

/-- Claim C21 on the chunks `[5, 1]`, `[4]`, `[3, 2]`: the loop leaves `[1, 2]`,
`[3]`, `[4, 5]` and the engine returns `[1, 2, 3, 4, 5]`. -/
theorem post_termination_invariant_witness :
    (∀ c ∈ [({ chunk := [5, 1], offset := 0 } : Chunk), { chunk := [4], offset := 2 },
        { chunk := [3, 2], offset := 3 }], c.chunk ≠ []) ∧
    (oddEvenSortParallel 9 [{ chunk := [5, 1], offset := 0 }, { chunk := [4], offset := 2 },
        { chunk := [3, 2], offset := 3 }]).map (fun run => (run.chunks, run.sorted)) =
      some ([[1, 2], [3], [4, 5]], [1, 2, 3, 4, 5]) ∧
    ∀ fuel run, oddEvenSortParallel fuel [{ chunk := [5, 1], offset := 0 },
        { chunk := [4], offset := 2 }, { chunk := [3, 2], offset := 3 }] = some run →
      run.chunks.flatten.Sorted (· ≤ ·) ∧ run.sorted = run.chunks.flatten :=
  ⟨by decide, by decide, fun fuel run h =>
    ((post_termination_invariant [{ chunk := [5, 1], offset := 0 },
      { chunk := [4], offset := 2 }, { chunk := [3, 2], offset := 3 }] (by decide)).2
      fuel run h).2.2⟩

/-- Claim C22.  For every sorted array `S` and `N ≥ 1`, the engine run on
`splitIntoChunks(S, N)` makes exactly one round, `trySwapNeighbor` returns
`false` on every pair of neighbours (no swap line is emitted, the round ends
with `Swapped false`), every chunk is left as it was, and the array returned is
`S`.  The same holds for the chunk list left by any completed run of the
engine: run again on it, the engine makes one round without a swap, leaves the
chunks as they are and returns the same array. -/
theorem sorted_input_one_round (S : List Int) (N : Nat) (hS : S.Sorted (· ≤ ·))
    (hN : 1 ≤ N) :
    (∀ fuel, 0 < fuel →
      oddEvenSortParallel fuel (splitIntoChunks S (N : Int)) =
        some { chunks := (splitIntoChunks S (N : Int)).map (·.chunk), rounds := 1, sorted := S,
               log := ((splitIntoChunks S (N : Int)).map (·.chunk)).enum.map
                   (fun p => localSortLine p.1 p.2) ++
                 ["Round 0 completed. Swapped false."] ++
                 ["All rounds done. Final merged array length = " ++
                   toString S.length ++ "."] }) ∧
    (∀ w (h : w + 1 < ((splitIntoChunks S (N : Int)).map (·.chunk)).length),
      trySwapNeighbor ((splitIntoChunks S (N : Int)).map (·.chunk))[w]
          ((splitIntoChunks S (N : Int)).map (·.chunk))[w + 1] =
        (((splitIntoChunks S (N : Int)).map (·.chunk))[w],
         ((splitIntoChunks S (N : Int)).map (·.chunk))[w + 1], false)) ∧
    (∀ (chunks again : List Chunk) (fuel : Nat) (run : SortRun),
      oddEvenSortParallel fuel chunks = some run →
      again.map (·.chunk) = run.chunks →
      ∀ fuel', 0 < fuel' →
        oddEvenSortParallel fuel' again =
          some { chunks := run.chunks, rounds := 1, sorted := run.sorted,
                 log := run.chunks.enum.map (fun p => localSortLine p.1 p.2) ++
                   ["Round 0 completed. Swapped false."] ++
                   ["All rounds done. Final merged array length = " ++
                     toString run.sorted.length ++ "."] }) := by
  have hflat := splitIntoChunks_flatten S N hN
  have hsorted : ((splitIntoChunks S (N : Int)).map (·.chunk)).flatten.Sorted (· ≤ ·) := by
    rw [hflat]; exact hS
  have hs : ∀ c ∈ (splitIntoChunks S (N : Int)).map (·.chunk), c.Sorted (· ≤ ·) :=
    fun c hc => hsorted.sublist (mem_sublist_flatten _ c hc)
  have hq : ∀ w (h : w + 1 < ((splitIntoChunks S (N : Int)).map (·.chunk)).length),
      (trySwapNeighbor ((splitIntoChunks S (N : Int)).map (·.chunk))[w]
        ((splitIntoChunks S (N : Int)).map (·.chunk))[w + 1]).2.2 = false :=
    fun w h => trySwapNeighbor_of_sorted_append _ _
      (hsorted.sublist (pair_sublist_flatten _ w h))
  refine ⟨?_, ?_, ?_⟩
  · intro fuel hf
    rw [oddEvenSortParallel_of_quiet _ hs hq fuel hf, mergeArrays_of_sorted _ hsorted, hflat]
  · intro w h
    have h1 := trySwapNeighbor_false _ _ (hq w h)
    exact Prod.ext h1.1 (Prod.ext h1.2 (hq w h))
  · intro chunks again fuel run h hagain fuel' hf
    obtain ⟨r, hloop, hc, -, hres⟩ := oddEvenSortParallel_inv fuel chunks run h
    have hq' := roundLoop_exit fuel _ _ _ r hloop
    have hs' : ∀ c ∈ r.1, c.Sorted (· ≤ ·) :=
      engineSteps_sorted _ _ (roundLoop_steps fuel _ _ _ r hloop) (localSort_sorted _)
    rw [← hc, ← hagain] at hq' hs'
    rw [oddEvenSortParallel_of_quiet again hs' hq' fuel' hf, hagain, hres, hc]

/-- Claim C22 on the sorted array `[1, 2, 2, 5, 7]` with two workers. -/
theorem sorted_input_one_round_witness :
    ([1, 2, 2, 5, 7] : List Int).Sorted (· ≤ ·) ∧ 1 ≤ 2 ∧
    oddEvenSortParallel 1 (splitIntoChunks [1, 2, 2, 5, 7] ((2 : Nat) : Int)) =
      some { chunks := [[1, 2, 2], [5, 7]], rounds := 1, sorted := [1, 2, 2, 5, 7],
             log := ["Worker 0 locally sorted its chunk: [1, 2, 2]",
                     "Worker 1 locally sorted its chunk: [5, 7]",
                     "Round 0 completed. Swapped false.",
                     "All rounds done. Final merged array length = 5."] } :=
  ⟨by decide, by decide,
   ((sorted_input_one_round [1, 2, 2, 5, 7] 2 (by decide) (by decide)).1 1 (by decide)).trans
     (by decide)⟩

/-- Claim C26.  On non-empty chunks `A` (with last element `aLast`) and `B`
(with first element `bFirst`), `trySwapNeighbor(A, B)` returns `true` exactly
when `aLast > bFirst`.  When `aLast ≤ bFirst`, ties included, it returns `false`
and leaves both chunks as they are.  When it returns `true` both chunks keep
their lengths, both are sorted afterwards, together they hold what they held,
`A` holds `bFirst` in the place of `aLast` and `B` holds `aLast` in the place of
`bFirst`. -/
theorem trySwapNeighbor_spec (A B : List Int) (hA : A ≠ []) (hB : B ≠ []) :
    ∃ front aLast bFirst back, A = front ++ [aLast] ∧ B = bFirst :: back ∧
      ((trySwapNeighbor A B).2.2 = true ↔ aLast > bFirst) ∧
      (aLast ≤ bFirst → trySwapNeighbor A B = (A, B, false)) ∧
      (aLast > bFirst →
        (trySwapNeighbor A B).1.length = A.length ∧
        (trySwapNeighbor A B).2.1.length = B.length ∧
        (trySwapNeighbor A B).1.Sorted (· ≤ ·) ∧
        (trySwapNeighbor A B).2.1.Sorted (· ≤ ·) ∧
        ((trySwapNeighbor A B).1 ++ (trySwapNeighbor A B).2.1).Perm (A ++ B) ∧
        (trySwapNeighbor A B).1.Perm (front ++ [bFirst]) ∧
        (trySwapNeighbor A B).2.1.Perm (aLast :: back) ∧
        bFirst ∈ (trySwapNeighbor A B).1 ∧ aLast ∈ (trySwapNeighbor A B).2.1) := by
  obtain ⟨front, aLast, hfront⟩ : ∃ front aLast, A = front ++ [aLast] :=
    ⟨A.dropLast, A.getLast hA, (List.dropLast_append_getLast hA).symm⟩
  obtain ⟨bFirst, back, hback⟩ : ∃ bFirst back, B = bFirst :: back :=
    List.exists_cons_of_ne_nil hB
  have hx : A.getLast? = some aLast := by rw [hfront]; simp
  have hy : B.head? = some bFirst := by rw [hback]; rfl
  have hflag := trySwapNeighbor_flag A B aLast bFirst hx hy
  refine ⟨front, aLast, bFirst, back, hfront, hback, ?_, ?_, ?_⟩
  · rw [hflag]; simp
  · intro hle
    have hf : (trySwapNeighbor A B).2.2 = false := by
      rw [hflag]; simp; omega
    have h1 := trySwapNeighbor_false A B hf
    exact Prod.ext h1.1 (Prod.ext h1.2 hf)
  · intro hgt
    have hx' : A[A.length - 1]? = some aLast := by
      rw [← List.getLast?_eq_getElem?]; exact hx
    have hy' : B[0]? = some bFirst := by
      rw [← List.head?_eq_getElem?]; exact hy
    have heq := trySwapNeighbor_eq_swap A B aLast bFirst hx' hy' hgt
    have hsetA : A.set (A.length - 1) bFirst = front ++ [bFirst] := by
      rw [hfront]
      have : (front ++ [aLast]).length - 1 = front.length := by simp
      rw [this, set_at_length]
    have hsetB : B.set 0 aLast = aLast :: back := by rw [hback]; rfl
    have hpA : (trySwapNeighbor A B).1.Perm (front ++ [bFirst]) := by
      rw [heq, ← hsetA]; exact insertionSort_perm _ _ _
    have hpB : (trySwapNeighbor A B).2.1.Perm (aLast :: back) := by
      rw [heq, ← hsetB]; exact insertionSort_perm _ _ _
    have hlen := trySwapNeighbor_length A B
    have hs1 : (trySwapNeighbor A B).1.Sorted (· ≤ ·) := by
      rw [heq]
      have := insertionSort_sorted (A.set (A.length - 1) bFirst)
      rwa [List.length_set] at this
    have hs2 : (trySwapNeighbor A B).2.1.Sorted (· ≤ ·) := by
      rw [heq]
      have := insertionSort_sorted (B.set 0 aLast)
      rwa [List.length_set] at this
    refine ⟨hlen.1, hlen.2, hs1, hs2, trySwapNeighbor_perm A B, hpA, hpB, ?_, ?_⟩
    · exact hpA.symm.subset (by simp)
    · exact hpB.symm.subset (by simp)

/-- Claim C26 on the chunks `[1, 5, 9]` and `[2, 3, 10]`: `9 > 2`, the call
returns `true` and leaves `[1, 2, 5]` and `[3, 9, 10]`; on `[1, 2]` and
`[2, 3]`, a tie, it returns `false`. -/
theorem trySwapNeighbor_spec_witness :
    (([1, 5, 9] : List Int) ≠ [] ∧ ([2, 3, 10] : List Int) ≠ []) ∧
    trySwapNeighbor [1, 5, 9] [2, 3, 10] = ([1, 2, 5], [3, 9, 10], true) ∧
    trySwapNeighbor [1, 2] [2, 3] = ([1, 2], [2, 3], false) ∧
    ∃ front aLast bFirst back, ([1, 5, 9] : List Int) = front ++ [aLast] ∧
      ([2, 3, 10] : List Int) = bFirst :: back ∧
      ((trySwapNeighbor [1, 5, 9] [2, 3, 10]).2.2 = true ↔ aLast > bFirst) :=
  ⟨by decide, by decide, by decide,
   (trySwapNeighbor_spec [1, 5, 9] [2, 3, 10] (by decide) (by decide)).imp
     (fun _ h => h.imp (fun _ h => h.imp (fun _ h => h.imp (fun _ h => ⟨h.1, h.2.1, h.2.2.1⟩))))⟩

end OddEvenSort

namespace OddEvenSort

theorem flatten_filter_ne_nil (arrays : List (List Int)) :
    (arrays.filter (fun c => decide (c ≠ []))).flatten = arrays.flatten := by
  induction arrays with
  | nil => rfl
  | cons c rest ih =>
    by_cases hc : c = []
    · subst hc
      simpa using ih
    · rw [List.filter_cons_of_pos (by simpa using hc), List.flatten_cons, List.flatten_cons, ih]

/-- Claim C30.  For every list of arrays of integers, sorted or not,
`mergeArrays` returns an array in ascending order that is a permutation of the
concatenation of the sub-arrays.  When the concatenation is in ascending order
already, which is the case when every sub-array is sorted and, the empty
sub-arrays left aside, the last element of each is at most the first element of
the next, the result is the concatenation itself. -/
theorem mergeArrays_spec (arrays : List (List Int)) :
    (mergeArrays arrays).Sorted (· ≤ ·) ∧
    (mergeArrays arrays).Perm arrays.flatten ∧
    (arrays.flatten.Sorted (· ≤ ·) → mergeArrays arrays = arrays.flatten) ∧
    ((∀ c ∈ arrays, c.Sorted (· ≤ ·)) →
      (∀ i (h : i + 1 < (arrays.filter (fun c => decide (c ≠ []))).length), ∀ x y,
        (arrays.filter (fun c => decide (c ≠ [])))[i].getLast? = some x →
        (arrays.filter (fun c => decide (c ≠ [])))[i + 1].head? = some y → x ≤ y) →
      arrays.flatten.Sorted (· ≤ ·) ∧ mergeArrays arrays = arrays.flatten) := by
  refine ⟨mergeArrays_sorted arrays, mergeArrays_perm arrays, mergeArrays_of_sorted arrays, ?_⟩
  intro hs hb
  have hne : ∀ c ∈ arrays.filter (fun c => decide (c ≠ [])), c ≠ [] := by
    intro c hc
    simpa using (List.mem_filter.mp hc).2
  have hflat : arrays.flatten.Sorted (· ≤ ·) := by
    rw [← flatten_filter_ne_nil]
    refine flatten_sorted_of_quiet _ hne (fun c hc => hs c (List.mem_filter.mp hc).1) ?_
    intro w h
    obtain ⟨x, hx⟩ : ∃ x, (arrays.filter (fun c => decide (c ≠ [])))[w].getLast? = some x :=
      ⟨_, List.getLast?_eq_getLast _ (hne _ (List.getElem_mem _))⟩
    obtain ⟨y, hy⟩ : ∃ y, (arrays.filter (fun c => decide (c ≠ [])))[w + 1].head? = some y :=
      ⟨_, List.head?_eq_head (hne _ (List.getElem_mem _))⟩
    rw [trySwapNeighbor_flag _ _ x y hx hy]
    have := hb w h x y hx hy
    simp only [decide_eq_false_iff_not]
    omega
  exact ⟨hflat, mergeArrays_of_sorted arrays hflat⟩

end OddEvenSort

/-! ## Inversions -/

namespace OddEvenSort

theorem crossInversions_nil_left (l : List Int) : crossInversions [] l = 0 := rfl

theorem crossInversions_cons_left (x : Int) (l₁ l₂ : List Int) :
    crossInversions (x :: l₁) l₂ =
      l₂.countP (fun y => decide (x > y)) + crossInversions l₁ l₂ := by
  simp [crossInversions]

theorem crossInversions_append_left (a b c : List Int) :
    crossInversions (a ++ b) c = crossInversions a c + crossInversions b c := by
  simp [crossInversions]

theorem crossInversions_perm_left (a a' c : List Int) (h : a.Perm a') :
    crossInversions a c = crossInversions a' c := by
  unfold crossInversions
  exact (h.map _).sum_eq

theorem crossInversions_perm_right (a c c' : List Int) (h : c.Perm c') :
    crossInversions a c = crossInversions a c' := by
  unfold crossInversions
  congr 1
  apply List.map_congr_left
  intro x _
  exact h.countP_eq _

theorem inversions_append (l₁ l₂ : List Int) :
    inversions (l₁ ++ l₂) = inversions l₁ + inversions l₂ + crossInversions l₁ l₂ := by
  induction l₁ with
  | nil => simp [inversions, crossInversions]
  | cons x l ih =>
    rw [List.cons_append, inversions, inversions, ih, crossInversions_cons_left,
      List.countP_append]
    omega

theorem inversions_sorted (l : List Int) (h : l.Sorted (· ≤ ·)) : inversions l = 0 := by
  induction l with
  | nil => rfl
  | cons x xs ih =>
    have hp := List.pairwise_cons.mp h
    rw [inversions, ih hp.2, Nat.add_zero, List.countP_eq_zero]
    intro y hy
    have := hp.1 y hy
    simp only [decide_eq_true_eq]
    omega

/-- Replacing a stretch of an array by a permutation of it with no more
inversions does not raise the number of inversions of the array. -/
theorem inversions_segment (p seg seg' q : List Int) (hperm : seg'.Perm seg) :
    inversions (p ++ seg' ++ q) + inversions seg = inversions (p ++ seg ++ q) + inversions seg' := by
  rw [inversions_append (p ++ seg') q, inversions_append (p ++ seg) q, inversions_append p seg',
    inversions_append p seg, crossInversions_perm_right p seg' seg hperm,
    crossInversions_perm_left (p ++ seg') (p ++ seg) q (hperm.append_left p)]
  omega

theorem inversions_swap_adjacent (p q : List Int) (x y : Int) (h : x > y) :
    inversions (p ++ y :: x :: q) + 1 = inversions (p ++ x :: y :: q) := by
  rw [inversions_append, inversions_append,
    crossInversions_perm_right p (y :: x :: q) (x :: y :: q) (List.Perm.swap x y q)]
  have hyx : ¬ y > x := by omega
  simp only [inversions, List.countP_cons, decide_eq_true_eq, h, hyx, if_true, if_false]
  omega

theorem flatten_set (c' : List Int) :
    ∀ (cs : List (List Int)) (i : Nat) (h : i < cs.length),
      (cs.set i c').flatten = (cs.take i).flatten ++ c' ++ (cs.drop (i + 1)).flatten ∧
      cs.flatten = (cs.take i).flatten ++ cs[i] ++ (cs.drop (i + 1)).flatten := by
  intro cs
  induction cs with
  | nil => intro i h; simp at h
  | cons c rest ih =>
    intro i h
    cases i with
    | zero => simp
    | succ i =>
      obtain ⟨h1, h2⟩ := ih i (by simpa using h)
      constructor
      · simp only [List.set_cons_succ, List.flatten_cons, List.take_succ_cons,
          List.drop_succ_cons, h1, List.append_assoc]
      · simp only [List.flatten_cons, List.take_succ_cons, List.drop_succ_cons,
          List.getElem_cons_succ, List.append_assoc]
        rw [h2]
        simp only [List.append_assoc]

theorem flatten_pairSet (a' b' : List Int) :
    ∀ (cs : List (List Int)) (w : Nat) (h : w + 1 < cs.length),
      ((cs.set w a').set (w + 1) b').flatten =
        (cs.take w).flatten ++ (a' ++ b') ++ (cs.drop (w + 2)).flatten ∧
      cs.flatten = (cs.take w).flatten ++ (cs[w] ++ cs[w + 1]) ++ (cs.drop (w + 2)).flatten := by
  intro cs
  induction cs with
  | nil => intro w h; simp at h
  | cons c rest ih =>
    intro w h
    cases w with
    | zero =>
      cases rest with
      | nil => simp at h
      | cons d rest' => simp
    | succ w =>
      obtain ⟨h1, h2⟩ := ih w (by simpa using h)
      constructor
      · simp only [List.set_cons_succ, List.flatten_cons, List.take_succ_cons,
          List.drop_succ_cons, h1, List.append_assoc]
      · simp only [List.flatten_cons, List.take_succ_cons, List.drop_succ_cons,
          List.getElem_cons_succ, List.append_assoc]
        rw [h2]
        simp only [List.append_assoc]

/-- The inversions of the concatenation of two neighbours across a call of
`trySwapNeighbor`: never more, and at least one fewer when it swaps. -/
theorem trySwapNeighbor_inversions (p q a b : List Int) :
    inversions (p ++ ((trySwapNeighbor a b).1 ++ (trySwapNeighbor a b).2.1) ++ q) ≤
      inversions (p ++ (a ++ b) ++ q) ∧
    ((trySwapNeighbor a b).2.2 = true →
      inversions (p ++ ((trySwapNeighbor a b).1 ++ (trySwapNeighbor a b).2.1) ++ q) + 1 ≤
        inversions (p ++ (a ++ b) ++ q)) := by
  rcases trySwapNeighbor_cases a b with ⟨x, y, hx, hy, hgt, heq⟩ | heq
  · have hane : a ≠ [] := by
      intro h; subst h; simp at hx
    obtain ⟨front, l, hfront⟩ : ∃ front l, a = front ++ [l] :=
      ⟨a.dropLast, a.getLast hane, (List.dropLast_append_getLast hane).symm⟩
    have hl : l = x := by
      rw [hfront] at hx
      have : (front ++ [l]).length - 1 = front.length := by simp
      rw [this, getElem?_at_length] at hx
      exact Option.some.inj hx
    subst hl
    obtain ⟨f, back, hback⟩ : ∃ f back, b = f :: back := by
      cases b with
      | nil => simp at hy
      | cons f back => exact ⟨f, back, rfl⟩
    have hf : f = y := by
      rw [hback] at hy
      simpa using hy
    subst hf
    have hsetA : a.set (a.length - 1) f = front ++ [f] := by
      rw [hfront]
      have : (front ++ [l]).length - 1 = front.length := by simp
      rw [this, set_at_length]
    have hsetB : b.set 0 l = l :: back := by rw [hback]; rfl
    have hA : (trySwapNeighbor a b).1 = insertionSort (front ++ [f]) 0 (front ++ [f]).length := by
      rw [heq, ← hsetA, List.length_set]
    have hB : (trySwapNeighbor a b).2.1 = insertionSort (l :: back) 0 (l :: back).length := by
      rw [heq, ← hsetB, List.length_set]
    have h0 : inversions (p ++ ((front ++ [f]) ++ (l :: back)) ++ q) + 1 =
        inversions (p ++ (a ++ b) ++ q) := by
      have := inversions_swap_adjacent (p ++ front) (back ++ q) l f hgt
      rw [hfront, hback]
      simpa [List.append_assoc] using this
    have h1 := inversions_segment p ((front ++ [f]) ++ (l :: back))
      ((trySwapNeighbor a b).1 ++ (trySwapNeighbor a b).2.1) q
      (by
        rw [hA, hB]
        exact (insertionSort_perm _ _ _).append (insertionSort_perm _ _ _))
    have h2 : inversions ((trySwapNeighbor a b).1 ++ (trySwapNeighbor a b).2.1) ≤
        inversions ((front ++ [f]) ++ (l :: back)) := by
      rw [inversions_append, inversions_append, hA, hB,
        inversions_sorted _ (insertionSort_sorted _), inversions_sorted _ (insertionSort_sorted _),
        crossInversions_perm_left _ _ _ (insertionSort_perm (front ++ [f]) 0 _),
        crossInversions_perm_right _ _ _ (insertionSort_perm (l :: back) 0 _)]
      omega
    constructor
    · omega
    · intro _; omega
  · rw [heq]
    exact ⟨le_refl _, fun h => by cases h⟩

theorem exchange_inversions (cs : List (List Int)) (w : Nat) (h : w + 1 < cs.length) :
    inversions ((cs.set w (trySwapNeighbor cs[w] cs[w + 1]).1).set (w + 1)
        (trySwapNeighbor cs[w] cs[w + 1]).2.1).flatten ≤ inversions cs.flatten ∧
    ((trySwapNeighbor cs[w] cs[w + 1]).2.2 = true →
      inversions ((cs.set w (trySwapNeighbor cs[w] cs[w + 1]).1).set (w + 1)
        (trySwapNeighbor cs[w] cs[w + 1]).2.1).flatten + 1 ≤ inversions cs.flatten) := by
  obtain ⟨h1, h2⟩ := flatten_pairSet (trySwapNeighbor cs[w] cs[w + 1]).1
    (trySwapNeighbor cs[w] cs[w + 1]).2.1 cs w h
  rw [h1]
  conv => enter [1, 2]; rw [h2]
  conv => enter [2, 2, 2]; rw [h2]
  exact trySwapNeighbor_inversions _ _ _ _

theorem localSort_inversions (cs : List (List Int)) (i : Nat) (h : i < cs.length) :
    inversions (cs.set i (insertionSort cs[i] 0 cs[i].length)).flatten ≤
      inversions cs.flatten := by
  obtain ⟨h1, h2⟩ := flatten_set (insertionSort cs[i] 0 cs[i].length) cs i h
  rw [h1]
  conv_rhs => rw [h2]
  have := inversions_segment (cs.take i).flatten cs[i] (insertionSort cs[i] 0 cs[i].length)
    (cs.drop (i + 1)).flatten (insertionSort_perm _ _ _)
  rw [inversions_sorted _ (insertionSort_sorted _)] at this
  omega

theorem engineStep_inversions (cs cs' : List (List Int)) (h : EngineStep cs cs') :
    inversions cs'.flatten ≤ inversions cs.flatten := by
  cases h with
  | localSort i hi => exact localSort_inversions cs i hi
  | exchange w hw => exact (exchange_inversions cs w hw).1

theorem engineSteps_inversions (cs cs' : List (List Int))
    (h : Relation.ReflTransGen EngineStep cs cs') :
    inversions cs'.flatten ≤ inversions cs.flatten := by
  induction h with
  | refl => exact le_refl _
  | tail _ hstep ih => exact (engineStep_inversions _ _ hstep).trans ih

end OddEvenSort

/-! ## Rounds: a family that needs many, and a bound -/

namespace OddEvenSort

theorem roundBody_two (a b : List Int) (round : Nat) (log : List String) :
    (roundBody [a, b] round log).1 = [(trySwapNeighbor a b).1, (trySwapNeighbor a b).2.1] ∧
    (roundBody [a, b] round log).2.1 = (trySwapNeighbor a b).2.2 := by
  unfold roundBody
  simp only
  rw [phaseLoop_stop "Odd" round _ 1 [a, b] false log (by simp)]
  simp only [List.length_cons, List.length_nil]
  rw [phaseLoop_step "Even" round 1 0 [a, b] false log (by simp) _ rfl]
  rw [phaseLoop_stop "Even" round 1 (0 + 2) _ _ _ (by simp)]
  simp

theorem trySwapNeighbor_swap (front back : List Int) (x y : Int) (h : x > y) :
    trySwapNeighbor (front ++ [x]) (y :: back) =
      ((front ++ [y]).insertionSort (· ≤ ·), (x :: back).insertionSort (· ≤ ·), true) := by
  have hx : (front ++ [x])[(front ++ [x]).length - 1]? = some x := by
    have : (front ++ [x]).length - 1 = front.length := by simp
    rw [this, getElem?_at_length]
  rw [trySwapNeighbor_eq_swap (front ++ [x]) (y :: back) x y hx (by simp) h]
  have h1 : (front ++ [x]).set ((front ++ [x]).length - 1) y = front ++ [y] := by
    have : (front ++ [x]).length - 1 = front.length := by simp
    rw [this, set_at_length]
  have h2 : (y :: back).set 0 x = x :: back := rfl
  have l1 : (front ++ [x]).length = (front ++ [y]).length := by simp
  have l2 : (y :: back).length = (x :: back).length := rfl
  rw [h1, h2, l1, l2, insertionSort_eq_sort, insertionSort_eq_sort]

theorem sorted_zeros_ones (j m : Nat) :
    (List.replicate j (0 : Int) ++ List.replicate m 1).Sorted (· ≤ ·) := by
  unfold List.Sorted
  rw [List.pairwise_append]
  refine ⟨?_, ?_, ?_⟩
  · rw [List.pairwise_replicate]; right; exact le_refl _
  · rw [List.pairwise_replicate]; right; exact le_refl _
  · intro a ha b hb
    rw [(List.mem_replicate.mp ha).2, (List.mem_replicate.mp hb).2]
    decide

/-- The chunk list of the family after `j` swaps, with `m` still to come: the
first chunk holds `j` zeros and `m` ones, the second `m` zeros and `j` ones. -/
theorem roundBody_zeros_ones (j m : Nat) (round : Nat) (log : List String) :
    (roundBody [List.replicate j (0 : Int) ++ List.replicate (m + 1) 1,
        List.replicate (m + 1) 0 ++ List.replicate j 1] round log).1 =
      [List.replicate (j + 1) (0 : Int) ++ List.replicate m 1,
        List.replicate m 0 ++ List.replicate (j + 1) 1] ∧
    (roundBody [List.replicate j (0 : Int) ++ List.replicate (m + 1) 1,
        List.replicate (m + 1) 0 ++ List.replicate j 1] round log).2.1 = true := by
  have ha : List.replicate j (0 : Int) ++ List.replicate (m + 1) 1 =
      (List.replicate j 0 ++ List.replicate m 1) ++ [1] := by
    rw [List.replicate_succ', List.append_assoc]
  have hb : List.replicate (m + 1) (0 : Int) ++ List.replicate j 1 =
      0 :: (List.replicate m 0 ++ List.replicate j 1) := by
    rw [List.replicate_succ, List.cons_append]
  have hsw := trySwapNeighbor_swap (List.replicate j 0 ++ List.replicate m 1)
    (List.replicate m 0 ++ List.replicate j 1) 1 0 (by decide)
  have h1 : (List.replicate j (0 : Int) ++ List.replicate m 1 ++ [0]).insertionSort (· ≤ ·) =
      List.replicate (j + 1) 0 ++ List.replicate m 1 := by
    refine List.eq_of_perm_of_sorted ((List.perm_insertionSort _ _).trans ?_)
      (List.sorted_insertionSort _ _) (sorted_zeros_ones _ _)
    rw [List.replicate_succ, List.cons_append]
    exact List.perm_append_singleton _ _
  have h2 : ((1 : Int) :: (List.replicate m 0 ++ List.replicate j 1)).insertionSort (· ≤ ·) =
      List.replicate m 0 ++ List.replicate (j + 1) 1 := by
    refine List.eq_of_perm_of_sorted ((List.perm_insertionSort _ _).trans ?_)
      (List.sorted_insertionSort _ _) (sorted_zeros_ones _ _)
    rw [List.replicate_succ]
    exact List.perm_middle.symm
  obtain ⟨r1, r2⟩ := roundBody_two (List.replicate j (0 : Int) ++ List.replicate (m + 1) 1)
    (List.replicate (m + 1) 0 ++ List.replicate j 1) round log
  rw [r1, r2, ha, hb, hsw]
  simp only [h1, h2, and_self]

theorem roundBody_zeros_ones_done (j : Nat) (round : Nat) (log : List String) :
    (roundBody [List.replicate j (0 : Int) ++ List.replicate 0 1,
        List.replicate 0 0 ++ List.replicate j 1] round log).2.1 = false := by
  rw [(roundBody_two _ _ round log).2]
  apply trySwapNeighbor_of_sorted_append
  simp only [List.replicate_zero, List.append_nil, List.nil_append]
  exact sorted_zeros_ones j j

theorem roundLoop_zeros_ones :
    ∀ (m j round : Nat) (log : List String) (fuel : Nat), m < fuel →
      ∃ r, roundLoop fuel [List.replicate j (0 : Int) ++ List.replicate m 1,
          List.replicate m 0 ++ List.replicate j 1] round log = some r ∧
        r.2.1 = round + m + 1 := by
  intro m
  induction m with
  | zero =>
    intro j round log fuel hf
    obtain ⟨f, rfl⟩ : ∃ f, fuel = f + 1 := ⟨fuel - 1, by omega⟩
    rw [roundLoop_succ, roundBody_zeros_ones_done j round log]
    exact ⟨_, rfl, rfl⟩
  | succ m ih =>
    intro j round log fuel hf
    obtain ⟨f, rfl⟩ : ∃ f, fuel = f + 1 := ⟨fuel - 1, by omega⟩
    obtain ⟨h1, h2⟩ := roundBody_zeros_ones j m round log
    rw [roundLoop_succ, h2, h1]
    simp only [if_true]
    obtain ⟨r, hr, hrounds⟩ := ih (j + 1) (round + 1) _ f (by omega)
    exact ⟨r, hr, by rw [hrounds]; omega⟩

/-- Two chunks of `n` elements, all ones in the first and all zeros in the
second: the engine makes `n + 1` rounds. -/
theorem oddEvenSortParallel_zeros_ones (n fuel : Nat) (hf : n < fuel) :
    ∃ run, oddEvenSortParallel fuel
        [{ chunk := List.replicate n 1, offset := 0 }, { chunk := List.replicate n 0, offset := n }] =
        some run ∧ run.rounds = n + 1 := by
  have hs : ∀ c ∈ [List.replicate n (1 : Int), List.replicate n 0], c.Sorted (· ≤ ·) := by
    intro c hc
    simp only [List.mem_cons, List.mem_singleton, List.not_mem_nil, or_false] at hc
    rcases hc with rfl | rfl
    · have := sorted_zeros_ones 0 n
      simpa using this
    · have := sorted_zeros_ones n 0
      simpa using this
  have harr : [List.replicate n (1 : Int), List.replicate n 0] =
      [List.replicate 0 (0 : Int) ++ List.replicate n 1,
        List.replicate n 0 ++ List.replicate 0 1] := by simp
  unfold oddEvenSortParallel
  simp only [List.map_cons, List.map_nil]
  have hloc := localSort_of_sorted _ hs
  simp only [List.map_cons, List.map_nil] at hloc
  rw [hloc]
  obtain ⟨r, hr, hrounds⟩ := roundLoop_zeros_ones n 0 0
    ([List.replicate n (1 : Int), List.replicate n 0].enum.map
      (fun p => localSortLine p.1 p.2)) fuel hf
  rw [← harr] at hr
  rw [hr]
  exact ⟨_, rfl, by simp only [hrounds]; omega⟩

end OddEvenSort

namespace OddEvenSort

theorem phaseLoop_inversions (phase : String) (round : Nat) :
    ∀ (fuel w : Nat) (cs : List (List Int)) (s : Bool) (log : List String),
      inversions (phaseLoop phase round fuel w cs s log).1.flatten ≤ inversions cs.flatten ∧
      ((phaseLoop phase round fuel w cs s log).2.1 = true → s = false →
        inversions (phaseLoop phase round fuel w cs s log).1.flatten + 1 ≤
          inversions cs.flatten) := by
  intro fuel
  induction fuel with
  | zero =>
    intro w cs s log
    refine ⟨le_refl _, ?_⟩
    intro h hs
    rw [phaseLoop_zero] at h
    simp only at h
    rw [hs] at h
    cases h
  | succ fuel ih =>
    intro w cs s log
    by_cases hw : w + 1 < cs.length
    · rw [phaseLoop_step phase round fuel w cs s log hw _ rfl]
      obtain ⟨e1, e2⟩ := exchange_inversions cs w hw
      obtain ⟨i1, i2⟩ := ih (w + 2)
        ((cs.set w (trySwapNeighbor cs[w] cs[w + 1]).1).set (w + 1)
          (trySwapNeighbor cs[w] cs[w + 1]).2.1)
        (s || (trySwapNeighbor cs[w] cs[w + 1]).2.2)
        (if (trySwapNeighbor cs[w] cs[w + 1]).2.2 = true then log ++ [swapLine phase round w]
          else log)
      refine ⟨i1.trans e1, ?_⟩
      intro hflag hs
      rcases Bool.eq_false_or_eq_true (trySwapNeighbor cs[w] cs[w + 1]).2.2 with hb | hb
      · have := e2 hb
        omega
      · have := i2 hflag (by rw [hs, hb]; rfl)
        omega
    · rw [phaseLoop_stop phase round (fuel + 1) w cs s log hw]
      refine ⟨le_refl _, ?_⟩
      intro h hs
      simp only at h
      rw [hs] at h
      cases h

theorem roundBody_inversions (cs : List (List Int)) (round : Nat) (log : List String) :
    inversions (roundBody cs round log).1.flatten ≤ inversions cs.flatten ∧
    ((roundBody cs round log).2.1 = true →
      inversions (roundBody cs round log).1.flatten + 1 ≤ inversions cs.flatten) := by
  obtain ⟨o1, o2⟩ := phaseLoop_inversions "Odd" round cs.length 1 cs false log
  obtain ⟨e1, e2⟩ := phaseLoop_inversions "Even" round
    (phaseLoop "Odd" round cs.length 1 cs false log).1.length 0
    (phaseLoop "Odd" round cs.length 1 cs false log).1
    (phaseLoop "Odd" round cs.length 1 cs false log).2.1
    (phaseLoop "Odd" round cs.length 1 cs false log).2.2
  unfold roundBody
  simp only
  refine ⟨e1.trans o1, ?_⟩
  intro hflag
  rcases Bool.eq_false_or_eq_true (phaseLoop "Odd" round cs.length 1 cs false log).2.1 with hb | hb
  · have := o2 hb rfl
    omega
  · have := e2 hflag hb
    omega

theorem afterRounds_inversions (cs : List (List Int)) (round : Nat) (log : List String) :
    ∀ n, (∀ m, m < n → swappedIn cs round log m = true) →
      inversions (afterRounds cs round log n).1.flatten + n ≤ inversions cs.flatten := by
  intro n
  induction n with
  | zero => intro _; exact le_refl _
  | succ n ih =>
    intro h
    have h1 := ih (fun m hm => h m (by omega))
    have h2 := h n (by omega)
    unfold swappedIn at h2
    simp only at h2
    have h3 := (roundBody_inversions (afterRounds cs round log n).1
      (afterRounds cs round log n).2.1 (afterRounds cs round log n).2.2).2 h2
    simp only [afterRounds]
    omega

theorem inversions_le_square (l : List Int) :
    2 * inversions l + l.length ≤ l.length * l.length := by
  induction l with
  | nil => simp [inversions]
  | cons x xs ih =>
    have := List.countP_le_length (fun y => decide (x > y)) (l := xs)
    simp only [inversions, List.length_cons]
    nlinarith

/-- The number of rounds of a run is determined by the chunks, and is at most
one more than the number of inversions of their concatenation. -/
theorem oddEvenSortParallel_rounds (chunks : List Chunk) :
    ∃ n, n ≤ inversions (chunks.map (·.chunk)).flatten ∧
      (∀ fuel, fuel ≤ n → oddEvenSortParallel fuel chunks = none) ∧
      ∀ fuel, n < fuel →
        ∃ run, oddEvenSortParallel fuel chunks = some run ∧ run.rounds = n + 1 := by
  obtain ⟨arrays, harr⟩ :
    ∃ arrays, (chunks.map (·.chunk)).map (fun c => insertionSort c 0 c.length) = arrays :=
    ⟨_, rfl⟩
  obtain ⟨log0, hlog⟩ :
    ∃ log0, arrays.enum.map (fun p => localSortLine p.1 p.2) = log0 := ⟨_, rfl⟩
  obtain ⟨n, -, -, hlt, hfuel⟩ := roundLoop_terminates _ arrays 0 log0 (le_refl _)
  have hinv := afterRounds_inversions arrays 0 log0 n hlt
  have hloc := engineSteps_inversions _ _ (localSort_steps (chunks.map (·.chunk)))
  rw [harr] at hloc
  refine ⟨n, by omega, ?_, ?_⟩
  · intro fuel hf
    have := roundLoop_none_before n fuel arrays 0 log0 hlt hf
    simp only [oddEvenSortParallel, harr, hlog, this]
  · intro fuel hf
    have hrun := hfuel fuel hf
    obtain ⟨-, -, hr⟩ := afterRounds_perm arrays 0 log0 (n + 1)
    refine ⟨{ chunks := (afterRounds arrays 0 log0 (n + 1)).1,
              rounds := (afterRounds arrays 0 log0 (n + 1)).2.1,
              sorted := mergeArrays (afterRounds arrays 0 log0 (n + 1)).1,
              log := (afterRounds arrays 0 log0 (n + 1)).2.2 ++
                ["All rounds done. Final merged array length = " ++
                  toString (mergeArrays (afterRounds arrays 0 log0 (n + 1)).1).length ++ "."] },
      ?_, ?_⟩
    · simp only [oddEvenSortParallel, harr, hlog, hrun]
    · simp only [hr]; omega

/-- Claim C24, as stated, fails: the number of rounds is not bounded by a
multiple of the chunk count.  Two chunks of four elements take five rounds, and
for every constant `c` two non-empty chunks of `2 * c + 1` elements each take
`2 * c + 2` rounds, more than `c` times the chunk count. -/
theorem rounds_not_linear_in_chunk_count :
    (oddEvenSortParallel 5 [{ chunk := [1, 1, 1, 1], offset := 0 },
        { chunk := [0, 0, 0, 0], offset := 4 }]).map (fun run => run.rounds) = some 5 ∧
    ∀ c : Nat, ∃ chunks : List Chunk, chunks.length = 2 ∧ (∀ ch ∈ chunks, ch.chunk ≠ []) ∧
      ∃ fuel run, oddEvenSortParallel fuel chunks = some run ∧
        c * chunks.length < run.rounds := by
  refine ⟨by decide, ?_⟩
  intro c
  obtain ⟨run, hrun, hrounds⟩ := oddEvenSortParallel_zeros_ones (2 * c + 1) (2 * c + 2) (by omega)
  refine ⟨[{ chunk := List.replicate (2 * c + 1) 1, offset := 0 },
    { chunk := List.replicate (2 * c + 1) 0, offset := 2 * c + 1 }], rfl, ?_,
    2 * c + 2, run, hrun, ?_⟩
  · intro ch hch
    simp only [List.mem_cons, List.mem_singleton, List.not_mem_nil, or_false] at hch
    rcases hch with rfl | rfl <;> simp [List.replicate_succ]
  · rw [hrounds]
    simp only [List.length_cons, List.length_nil]
    omega

/-- Claim C24, amended.  For every chunk list the engine makes a number of
rounds, the same for every fuel that exceeds it, that is at most one more than
the number of inversions of the concatenation of the chunks, hence at most
`1 + L * (L - 1) / 2` for `L` elements in all; two chunks of `n` ones and `n`
zeros take `n + 1` rounds. -/
theorem rounds_bounded_by_inversions (chunks : List Chunk) :
    (∃ n, n ≤ inversions (chunks.map (·.chunk)).flatten ∧
      (∀ fuel, fuel ≤ n → oddEvenSortParallel fuel chunks = none) ∧
      ∀ fuel, n < fuel →
        ∃ run, oddEvenSortParallel fuel chunks = some run ∧ run.rounds = n + 1) ∧
    2 * inversions (chunks.map (·.chunk)).flatten + (chunks.map (·.chunk)).flatten.length ≤
      (chunks.map (·.chunk)).flatten.length * (chunks.map (·.chunk)).flatten.length ∧
    (∀ n fuel, n < fuel →
      ∃ run, oddEvenSortParallel fuel [{ chunk := List.replicate n 1, offset := 0 },
          { chunk := List.replicate n 0, offset := n }] = some run ∧ run.rounds = n + 1) :=
  ⟨oddEvenSortParallel_rounds chunks, inversions_le_square _,
   fun n fuel hf => oddEvenSortParallel_zeros_ones n fuel hf⟩

/-- Claim C28.  For every chunk list and every pair of neighbours on which
`trySwapNeighbor` returns `true`, the concatenation of the chunks has strictly
fewer inversions after the call than before; a call never raises their number,
and neither does the local sort of a chunk, nor the sort of any stretch of an
array by `insertionSort`. -/
theorem boundary_swap_decreases_inversions :
    (∀ (cs : List (List Int)) (w : Nat) (h : w + 1 < cs.length),
      (trySwapNeighbor cs[w] cs[w + 1]).2.2 = true →
      inversions ((cs.set w (trySwapNeighbor cs[w] cs[w + 1]).1).set (w + 1)
        (trySwapNeighbor cs[w] cs[w + 1]).2.1).flatten < inversions cs.flatten) ∧
    (∀ (cs : List (List Int)) (w : Nat) (h : w + 1 < cs.length),
      inversions ((cs.set w (trySwapNeighbor cs[w] cs[w + 1]).1).set (w + 1)
        (trySwapNeighbor cs[w] cs[w + 1]).2.1).flatten ≤ inversions cs.flatten) ∧
    (∀ (cs : List (List Int)) (i : Nat) (h : i < cs.length),
      inversions (cs.set i (insertionSort cs[i] 0 cs[i].length)).flatten ≤
        inversions cs.flatten) ∧
    (∀ p seg q : List Int,
      inversions (p ++ insertionSort seg 0 seg.length ++ q) ≤ inversions (p ++ seg ++ q)) ∧
    inversions ([[0, 3], [4, 9], [1, 2, 10]] : List (List Int)).flatten = 6 ∧
    inversions ([[0, 3], [1, 4], [2, 9, 10]] : List (List Int)).flatten = 3 := by
  refine ⟨?_, ?_, ?_, ?_, by decide, by decide⟩
  · intro cs w h hswap
    have := (exchange_inversions cs w h).2 hswap
    omega
  · intro cs w h
    exact (exchange_inversions cs w h).1
  · intro cs i h
    exact localSort_inversions cs i h
  · intro p seg q
    have := inversions_segment p seg (insertionSort seg 0 seg.length) q
      (insertionSort_perm _ _ _)
    rw [inversions_sorted _ (insertionSort_sorted _)] at this
    omega

theorem outOfPlace_eq (a b : List Int) : outOfPlace a b = (trySwapNeighbor a b).2.2 := by
  unfold outOfPlace
  cases ha : a.getLast? with
  | none =>
    rw [List.getLast?_eq_getElem?] at ha
    rcases trySwapNeighbor_cases a b with ⟨x, y, hx, -, -, -⟩ | h
    · rw [ha] at hx; cases hx
    · rw [h]
  | some x =>
    cases hb : b.head? with
    | none =>
      rw [List.head?_eq_getElem?] at hb
      rcases trySwapNeighbor_cases a b with ⟨x, y, -, hy, -, -⟩ | h
      · rw [hb] at hy; cases hy
      · rw [h]
    | some y => exact (trySwapNeighbor_flag a b x y ha hb).symm

theorem outOfPlacePairs_le : ∀ cs : List (List Int), outOfPlacePairs cs + 1 ≤ cs.length ∨ cs = []
  | [] => Or.inr rfl
  | [_] => Or.inl (by simp [outOfPlacePairs])
  | a :: b :: rest => by
    left
    have := outOfPlacePairs_le (b :: rest)
    rcases this with h | h
    · simp only [outOfPlacePairs, List.length_cons] at h ⊢
      split <;> omega
    · cases h

/-- Claim C23, as stated, fails: on the chunks `[0, 3]`, `[4, 9]`, `[1, 2, 10]`
one boundary is out of place; the swap between the second and the third chunk
leaves `[0, 3]`, `[1, 4]`, `[2, 9, 10]`, where two boundaries are. -/
theorem swap_raises_out_of_place_pairs :
    (trySwapNeighbor [4, 9] [1, 2, 10]).2.2 = true ∧
    outOfPlacePairs [[0, 3], [4, 9], [1, 2, 10]] = 1 ∧
    (([[0, 3], [4, 9], [1, 2, 10]] : List (List Int)).set 1
        (trySwapNeighbor [4, 9] [1, 2, 10]).1).set 2 (trySwapNeighbor [4, 9] [1, 2, 10]).2.1 =
      [[0, 3], [1, 4], [2, 9, 10]] ∧
    outOfPlacePairs [[0, 3], [1, 4], [2, 9, 10]] = 2 := by
  decide

/-- Claim C23, amended.  A call of `trySwapNeighbor` that swaps is made on an
out-of-place boundary, and it raises by at least one the position-weighted sum
of the chunks (the sum over the chunks of index times sum of the chunk), which
never exceeds the chunk count times the sum of the absolute values of all
elements, a product the call leaves as it is; so the difference `roundBound`
of the two, a natural number, is reduced by every swap.  The number of
out-of-place boundary pairs is less than the chunk count. -/
theorem swap_reduces_round_bound (cs : List (List Int)) (w : Nat) (h : w + 1 < cs.length)
    (hswap : (trySwapNeighbor cs[w] cs[w + 1]).2.2 = true) :
    outOfPlace cs[w] cs[w + 1] = true ∧
    weightedSum 0 cs + 1 ≤
      weightedSum 0 ((cs.set w (trySwapNeighbor cs[w] cs[w + 1]).1).set (w + 1)
        (trySwapNeighbor cs[w] cs[w + 1]).2.1) ∧
    ((cs.set w (trySwapNeighbor cs[w] cs[w + 1]).1).set (w + 1)
        (trySwapNeighbor cs[w] cs[w + 1]).2.1).length = cs.length ∧
    absTotal ((cs.set w (trySwapNeighbor cs[w] cs[w + 1]).1).set (w + 1)
        (trySwapNeighbor cs[w] cs[w + 1]).2.1) = absTotal cs ∧
    weightedSum 0 ((cs.set w (trySwapNeighbor cs[w] cs[w + 1]).1).set (w + 1)
        (trySwapNeighbor cs[w] cs[w + 1]).2.1) ≤ (cs.length : Int) * absTotal cs ∧
    roundBound ((cs.set w (trySwapNeighbor cs[w] cs[w + 1]).1).set (w + 1)
        (trySwapNeighbor cs[w] cs[w + 1]).2.1) + 1 ≤ roundBound cs ∧
    outOfPlacePairs cs < cs.length := by
  obtain ⟨hperm, -, -, hgain, -⟩ := exchange_spec cs w h _ rfl
  have hgain := hgain hswap
  have hout : outOfPlace cs[w] cs[w + 1] = true := by rw [outOfPlace_eq]; exact hswap
  have hlen : ((cs.set w (trySwapNeighbor cs[w] cs[w + 1]).1).set (w + 1)
      (trySwapNeighbor cs[w] cs[w + 1]).2.1).length = cs.length := by simp
  have hpairs : outOfPlacePairs cs < cs.length := by
    rcases outOfPlacePairs_le cs with h1 | h1
    · omega
    · subst h1; simp at h
  generalize (cs.set w (trySwapNeighbor cs[w] cs[w + 1]).1).set (w + 1)
      (trySwapNeighbor cs[w] cs[w + 1]).2.1 = cs' at hperm hgain hlen ⊢
  have habs := absTotal_perm _ _ hperm
  have hle := weightedSum_le cs' 0
  rw [hlen, habs] at hle
  simp only [Nat.cast_zero, zero_add] at hle
  refine ⟨hout, hgain, hlen, habs, hle, ?_, hpairs⟩
  unfold roundBound
  rw [hlen, habs]
  omega

/-- Claim C23, amended, on the chunks `[0, 3]`, `[4, 9]`, `[1, 2, 10]` and the
swap between the second and the third: the weighted sum rises from `39` to
`47`. -/
theorem swap_reduces_round_bound_witness :
    (1 + 1 < ([[0, 3], [4, 9], [1, 2, 10]] : List (List Int)).length) ∧
    (trySwapNeighbor [4, 9] [1, 2, 10]).2.2 = true ∧
    weightedSum 0 [[0, 3], [4, 9], [1, 2, 10]] = 39 ∧
    weightedSum 0 [[0, 3], [1, 4], [2, 9, 10]] = 47 ∧
    roundBound ((([[0, 3], [4, 9], [1, 2, 10]] : List (List Int)).set 1
        (trySwapNeighbor [4, 9] [1, 2, 10]).1).set (1 + 1)
        (trySwapNeighbor [4, 9] [1, 2, 10]).2.1) + 1 ≤
      roundBound [[0, 3], [4, 9], [1, 2, 10]] :=
  ⟨by decide, by decide, by decide, by decide,
   (swap_reduces_round_bound [[0, 3], [4, 9], [1, 2, 10]] 1 (by decide) (by decide)).2.2.2.2.2.1⟩

end OddEvenSort

/-! ## Validation at the boundary, and when a coordinator is elected -/

namespace Backend

open Server OddEvenSort

theorem register_accepted (s : State) (now : Nat) (ts id name status : String)
    (hid : id ≠ "") (hn : name ≠ "") (hs : status ≠ "") :
    ∃ c, (register s now ts (some id) (some name) (some status)).2 = Response.ok c := by
  by_cases hp : has s.workers id = true
  · exact ⟨_, (register_present s now ts id name status hid hn hs hp).2.2⟩
  · exact ⟨_, (register_new s now ts id name status hid hn hs (by simpa using hp)).2.2⟩

theorem startSort_rejected (algorithmKeys : List String) (s : State) (clock : Nat → String)
    (rand : Nat → Nat) (fuel : Nat) (algorithm : Option String) (arrayLength : ArrayLength)
    (h : truthy algorithm = false ∨ arrayLength = ArrayLength.missing ∨
      arrayLength = ArrayLength.notInteger ∨
      (∃ n, arrayLength = ArrayLength.integer n ∧ n ≤ 0) ∨
      (∃ a, algorithm = some a ∧ a ∉ algorithmKeys)) :
    ∃ msg, startSort algorithmKeys s clock rand fuel algorithm arrayLength =
      some (s, Response.error 400 msg) := by
  unfold startSort
  cases algorithm with
  | none => exact ⟨_, rfl⟩
  | some a =>
    cases arrayLength with
    | missing => exact ⟨_, rfl⟩
    | notInteger => exact ⟨_, rfl⟩
    | integer n =>
      simp only
      by_cases h1 : a = "" ∨ n ≤ 0
      · rw [if_pos h1]; exact ⟨_, rfl⟩
      · rw [if_neg h1]
        have hk : a ∉ algorithmKeys := by
          rcases h with h | h | h | ⟨m, hm, hle⟩ | ⟨b, hb, hnot⟩
          · simp [truthy] at h; exact absurd (Or.inl h) h1
          · cases h
          · cases h
          · injection hm with hm; subst hm; exact absurd (Or.inr hle) h1
          · injection hb with hb; subst hb; exact hnot
        rw [if_pos hk]
        exact ⟨_, rfl⟩

theorem register_present_coordinator (s : State) (now : Nat) (ts id : String)
    (name status : Option String) (hp : has s.workers id = true) :
    (register s now ts (some id) name status).1.currentCoordinatorId =
      s.currentCoordinatorId := by
  by_cases h : truthy (some id) = false ∨ truthy name = false ∨ truthy status = false
  · rw [register_rejected s now ts (some id) name status h]
  · have h1 : truthy (some id) = true := by
      cases hb : truthy (some id) with
      | true => rfl
      | false => exact absurd (Or.inl hb) h
    have h2 : truthy name = true := by
      cases hb : truthy name with
      | true => rfl
      | false => exact absurd (Or.inr (Or.inl hb)) h
    have h3 : truthy status = true := by
      cases hb : truthy status with
      | true => rfl
      | false => exact absurd (Or.inr (Or.inr hb)) h
    cases name with
    | none => cases h2
    | some n =>
      cases status with
      | none => cases h3
      | some st =>
        simp only [truthy, decide_eq_true_eq] at h1 h2 h3
        exact (register_present s now ts id n st h1 h2 h3 hp).2.1

theorem register_present_has (s : State) (now : Nat) (ts id : String)
    (name status : Option String) (hp : has s.workers id = true) (x : String) :
    has (register s now ts (some id) name status).1.workers x = has s.workers x := by
  by_cases h : truthy (some id) = false ∨ truthy name = false ∨ truthy status = false
  · rw [register_rejected s now ts (some id) name status h]
  · cases name with
    | none => exact absurd (Or.inr (Or.inl rfl)) h
    | some n =>
      cases status with
      | none => exact absurd (Or.inr (Or.inr rfl)) h
      | some st =>
        have h1 : id ≠ "" := by
          intro e; exact h (Or.inl (by simp [truthy, e]))
        have h2 : n ≠ "" := by
          intro e; exact h (Or.inr (Or.inl (by simp [truthy, e])))
        have h3 : st ≠ "" := by
          intro e; exact h (Or.inr (Or.inr (by simp [truthy, e])))
        rw [(register_present s now ts id n st h1 h2 h3 hp).1]
        exact has_setStatus s.workers id st x

/-- A series of `POST /register` requests, each for an id that is in the map:
the heartbeats of the workers. -/
theorem heartbeats_coordinator :
    ∀ (beats : List (Nat × String × String × Option String × Option String)) (s : State),
      (∀ b ∈ beats, has s.workers b.2.2.1 = true) →
      (beats.foldl (fun st b => (register st b.1 b.2.1 (some b.2.2.1) b.2.2.2.1 b.2.2.2.2).1)
        s).currentCoordinatorId = s.currentCoordinatorId := by
  intro beats
  induction beats with
  | nil => intro s _; rfl
  | cons b rest ih =>
    intro s h
    have hb := h b (List.mem_cons_self _ _)
    rw [List.foldl_cons, ih]
    · exact register_present_coordinator s b.1 b.2.1 b.2.2.1 b.2.2.2.1 b.2.2.2.2 hb
    · intro c hc
      rw [register_present_has s b.1 b.2.1 b.2.2.1 b.2.2.2.1 b.2.2.2.2 hb]
      exact h c (List.mem_cons_of_mem _ hc)

/-- From a state without coordinator, an operation that leaves a coordinator
behind is the registration of an id that was not in the map, or a switch. -/
theorem step_elects (algorithmKeys : List String) (s s' : State) (op : Op)
    (h0 : s.currentCoordinatorId = none) (h : step algorithmKeys s op = some s') :
    s'.currentCoordinatorId = none ∨
    (∃ now ts id name status, op = Op.register now ts (some id) name status ∧
      has s.workers id = false ∧ s'.currentCoordinatorId = some id) ∨
    (∃ ts id, op = Op.requestCoordinatorSwitch ts id ∧ has s.workers id = true ∧
      s'.currentCoordinatorId = some id) := by
  cases op with
  | register now ts id name status =>
    simp only [step, Option.some.injEq] at h
    subst h
    by_cases hr : truthy id = false ∨ truthy name = false ∨ truthy status = false
    · left
      rw [register_rejected s now ts id name status hr]
      exact h0
    · cases id with
      | none => exact absurd (Or.inl rfl) hr
      | some i =>
        by_cases hp : has s.workers i = true
        · left
          rw [register_present_coordinator s now ts i name status hp]
          exact h0
        · right; left
          have hp' : has s.workers i = false := by simpa using hp
          refine ⟨now, ts, i, name, status, rfl, hp', ?_⟩
          cases name with
          | none => exact absurd (Or.inr (Or.inl rfl)) hr
          | some n =>
            cases status with
            | none => exact absurd (Or.inr (Or.inr rfl)) hr
            | some st =>
              have h1 : i ≠ "" := by
                intro e; exact hr (Or.inl (by simp [truthy, e]))
              have h2 : n ≠ "" := by
                intro e; exact hr (Or.inr (Or.inl (by simp [truthy, e])))
              have h3 : st ≠ "" := by
                intro e; exact hr (Or.inr (Or.inr (by simp [truthy, e])))
              rw [(register_new s now ts i n st h1 h2 h3 hp').2.1, h0]
              rfl
  | unregister ts id =>
    simp only [step, Option.some.injEq] at h
    subst h
    left
    by_cases hr : truthy id = false ∨ ∃ i, id = some i ∧ has s.workers i = false
    · rw [unregister_rejected s ts id hr]; exact h0
    · cases id with
      | none => exact absurd (Or.inl rfl) hr
      | some i =>
        have h1 : i ≠ "" := by
          intro e; exact hr (Or.inl (by simp [truthy, e]))
        have hp : has s.workers i = true := by
          cases hb : has s.workers i with
          | true => rfl
          | false => exact absurd (Or.inr ⟨i, rfl, hb⟩) hr
        rw [(unregister_present s ts i h1 hp).2.1, h0]
        simp
  | requestCoordinatorSwitch ts id =>
    simp only [step, Option.some.injEq] at h
    subst h
    by_cases hp : has s.workers id = true
    · right; right
      exact ⟨ts, id, rfl, hp, by simp [requestCoordinatorSwitch, hp, addLog, emit]⟩
    · left
      simp [requestCoordinatorSwitch, hp, h0]
  | manualUpdate ts id status =>
    simp only [step, Option.some.injEq] at h
    subst h
    left
    unfold manualUpdate
    split
    · simp [addLog, emit, h0]
    · exact h0
  | manualUnregister ts id =>
    simp only [step, Option.some.injEq] at h
    subst h
    left
    by_cases hp : has s.workers id = true
    · rw [(manualUnregister_present s ts id hp).2, h0]; simp
    · rw [manualUnregister_absent s ts id (by simpa using hp)]; exact h0
  | startSort clock rand fuel algorithm arrayLength =>
    left
    simp only [step] at h
    cases hr : startSort algorithmKeys s clock rand fuel algorithm arrayLength with
    | none => rw [hr] at h; cases h
    | some r =>
      rw [hr] at h
      simp only [Option.map_some', Option.some.injEq] at h
      subst h
      rw [(startSort_frame algorithmKeys s clock rand fuel algorithm arrayLength r hr).2]
      exact h0

end Backend

namespace WebsiteFinal

open Server OddEvenSort

theorem startSort_rejected_obj (algorithmKeys : List String) (s : State)
    (clock : Nat → String) (rand : Nat → Nat) (fuel : Nat) (algorithm : Option String)
    (arrayLength : ArrayLength)
    (h : truthy algorithm = false ∨ arrayLength = ArrayLength.missing ∨
      arrayLength = ArrayLength.notInteger ∨
      (∃ n, arrayLength = ArrayLength.integer n ∧ n ≤ 0) ∨
      (∃ a, algorithm = some a ∧ a ∉ algorithmKeys)) :
    ∃ msg, startSort algorithmKeys s clock rand fuel algorithm arrayLength =
      some (s, Response.error 400 msg) := by
  unfold startSort
  cases algorithm with
  | none => exact ⟨_, rfl⟩
  | some a =>
    cases arrayLength with
    | missing => exact ⟨_, rfl⟩
    | notInteger => exact ⟨_, rfl⟩
    | integer n =>
      simp only
      by_cases h1 : a = "" ∨ n ≤ 0
      · rw [if_pos h1]; exact ⟨_, rfl⟩
      · rw [if_neg h1]
        have hk : a ∉ algorithmKeys := by
          rcases h with h | h | h | ⟨m, hm, hle⟩ | ⟨b, hb, hnot⟩
          · simp [truthy] at h; exact absurd (Or.inl h) h1
          · cases h
          · cases h
          · injection hm with hm; subst hm; exact absurd (Or.inr hle) h1
          · injection hb with hb; subst hb; exact hnot
        rw [if_pos hk]
        exact ⟨_, rfl⟩

theorem assignStatus_coordinator (s s1 : State) (id status : String)
    (h : assignStatus s id status = some s1) :
    s1.currentCoordinatorId = s.currentCoordinatorId := by
  unfold assignStatus at h
  split at h <;> first
    | (injection h with h; subst h; rfl)
    | cases h

theorem register_not_error (s : State) (now : Nat) (ts id name status : String)
    (hid : id ≠ "") (hn : name ≠ "") (hs : status ≠ "") :
    ∀ code msg, (register s now ts (some id) (some name) (some status)).2 ≠
      Response.error code msg := by
  intro code msg
  by_cases he : exists? s id = true
  · cases ha : assignStatus s id status with
    | some s1 =>
      rw [(register_existing s s1 now ts id name status hid hn hs he ha).2.2.2]
      intro h; cases h
    | none =>
      simp only [register, bodyStatus]
      rw [if_neg (by simp [hid, hn, hs]), if_pos he, ha]
      intro h; cases h
  · rw [(register_new_obj s now ts id name status hid hn hs (by simpa using he)).2.2.2]
    intro h; cases h

theorem register_existing_coordinator (s : State) (now : Nat) (ts id : String)
    (name status : Option String) (he : exists? s id = true) :
    (register s now ts (some id) name status).1.currentCoordinatorId =
      s.currentCoordinatorId := by
  rcases register_cases s now ts (some id) name status with ⟨-, hrej⟩ |
    ⟨i, n, st, hi, rfl, -, h1, h2, h3, heq⟩
  · rw [hrej]
  · injection hi with hi
    subst hi
    rw [heq]
    cases ha : assignStatus s id st with
    | some s1 =>
      rw [(register_existing s s1 now ts id n st h1 h2 h3 he ha).2.2.1]
      exact assignStatus_coordinator s s1 id st ha
    | none =>
      simp only [register, bodyStatus]
      rw [if_neg (by simp [h1, h2, h3]), if_pos he, ha]

theorem exists_of_record (s : State) (id : String)
    (h : (s.workers.lookup id).isSome = true) : exists? s id = true := by
  obtain ⟨info, hinfo⟩ := Option.isSome_iff_exists.mp h
  unfold exists?
  rw [lookup_record_of s id info hinfo]
  rfl

theorem register_record_keeps (s : State) (now : Nat) (ts id : String)
    (name status : Option String) (hp : (s.workers.lookup id).isSome = true) (x : String) :
    ((register s now ts (some id) name status).1.workers.lookup x).isSome =
      (s.workers.lookup x).isSome := by
  rcases register_cases s now ts (some id) name status with ⟨-, hrej⟩ |
    ⟨i, n, st, hi, rfl, -, h1, h2, h3, heq⟩
  · rw [hrej]
  · injection hi with hi
    subst hi
    rw [heq]
    obtain ⟨info, hinfo⟩ := Option.isSome_iff_exists.mp hp
    have ha := assignStatus_record s id st info (lookup_record_of s id info hinfo)
    rw [(register_existing s _ now ts id n st h1 h2 h3 (exists_of_record s id hp) ha).1]
    simp only [setOwnStatus]
    by_cases hx : x = id
    · subst hx
      rw [lookup_mapStatus_self]
      cases s.workers.lookup x <;> rfl
    · rw [lookup_mapStatus_ne _ _ _ _ hx]

theorem heartbeats_coordinator_obj :
    ∀ (beats : List (Nat × String × String × Option String × Option String)) (s : State),
      (∀ b ∈ beats, (s.workers.lookup b.2.2.1).isSome = true) →
      (beats.foldl (fun st b => (register st b.1 b.2.1 (some b.2.2.1) b.2.2.2.1 b.2.2.2.2).1)
        s).currentCoordinatorId = s.currentCoordinatorId := by
  intro beats
  induction beats with
  | nil => intro s _; rfl
  | cons b rest ih =>
    intro s h
    have hb := h b (List.mem_cons_self _ _)
    rw [List.foldl_cons, ih]
    · exact register_existing_coordinator s b.1 b.2.1 b.2.2.1 b.2.2.2.1 b.2.2.2.2
        (exists_of_record s _ hb)
    · intro c hc
      rw [register_record_keeps s b.1 b.2.1 b.2.2.1 b.2.2.2.1 b.2.2.2.2 hb]
      exact h c (List.mem_cons_of_mem _ hc)

theorem markCoordinator_none (s : State) (status : String)
    (h0 : s.currentCoordinatorId = none) : markCoordinator s status = some s := by
  unfold markCoordinator
  rw [h0]

theorem startSort_none_coordinator (algorithmKeys : List String) (s : State)
    (clock : Nat → String) (rand : Nat → Nat) (fuel : Nat) (algorithm : Option String)
    (arrayLength : ArrayLength) (r : State × Response)
    (h0 : s.currentCoordinatorId = none)
    (h : startSort algorithmKeys s clock rand fuel algorithm arrayLength = some r) :
    r.1.currentCoordinatorId = none := by
  unfold startSort at h
  split at h
  · next a n =>
    split at h
    · injection h with h; subst h; exact h0
    · split at h
      · injection h with h; subst h; exact h0
      · simp only at h
        split at h
        · injection h with h; subst h; exact h0
        · split at h
          · injection h with h; subst h
            simp only [addLog_coordinator_obj]
            exact h0
          · have hc3 : (assignLoop clock 0
                ((activeWorkers s).zip (splitIntoChunks (randomArray rand n.toNat)
                  ((activeWorkers s).length : Int)))
                (addLog (addLog s (clock 0)
                  ("Start sort: " ++ a ++ ", size=" ++ toString n)) (clock 1)
                  ("Random array: [" ++ joinArray (randomArray rand n.toNat) ++ "]"))
                ).currentCoordinatorId = none := by
              rw [(assignLoop_frame_obj clock _ _ _).2.2]
              simp only [addLog_coordinator_obj]
              exact h0
            rw [markCoordinator_none _ _ hc3] at h
            simp only at h
            split at h
            · cases h
            · next run hrun =>
              injection h with h
              subst h
              simp only
              have hc5 := (engineLog_frame_obj run.log
                (assignLoop clock 0
                  ((activeWorkers s).zip (splitIntoChunks (randomArray rand n.toNat)
                    ((activeWorkers s).length : Int)))
                  (addLog (addLog s (clock 0)
                    ("Start sort: " ++ a ++ ", size=" ++ toString n)) (clock 1)
                    ("Random array: [" ++ joinArray (randomArray rand n.toNat) ++ "]")))).2.2
              rw [hc3] at hc5
              unfold sortFinished
              simp only
              rw [markCoordinator_none _ _ (by rw [addLog_coordinator_obj]; exact hc5)]
              simp only [emit_coordinator_obj, addLog_coordinator_obj]
              exact hc5
  · injection h with h; subst h; exact h0

end WebsiteFinal

namespace WebsiteFinal

open Server OddEvenSort

/-- From a state without coordinator, an operation that leaves a coordinator
behind is the registration of an id for which `workers[id]` was falsy (no
worker had it), or a switch. -/
theorem step_elects_obj (algorithmKeys : List String) (s s' : State) (op : Op)
    (h0 : s.currentCoordinatorId = none) (h : step algorithmKeys s op = some s') :
    s'.currentCoordinatorId = none ∨
    (∃ now ts id name status, op = Op.register now ts (some id) name status ∧
      (s.workers.lookup id).isSome = false ∧ s'.currentCoordinatorId = some id) ∨
    (∃ ts id, op = Op.requestCoordinatorSwitch ts id ∧ exists? s id = true ∧
      s'.currentCoordinatorId = some id) := by
  cases op with
  | register now ts id name status =>
    simp only [step, Option.some.injEq] at h
    subst h
    rcases register_cases s now ts id name status with ⟨-, hrej⟩ |
      ⟨i, n, st, rfl, rfl, -, h1, h2, h3, heq⟩
    · left
      rw [hrej]
      exact h0
    · by_cases he : exists? s i = true
      · left
        rw [register_existing_coordinator s now ts i (some n) status he]
        exact h0
      · right; left
        have he' : exists? s i = false := by simpa using he
        have hl : (s.workers.lookup i).isSome = false := by
          cases hb : (s.workers.lookup i).isSome with
          | false => rfl
          | true => exact absurd (exists_of_record s i hb) he
        refine ⟨now, ts, i, some n, status, rfl, hl, ?_⟩
        rw [heq, (register_new_obj s now ts i n st h1 h2 h3 he').2.2.1, h0]
        rfl
  | unregister ts id =>
    simp only [step, Option.some.injEq] at h
    subst h
    left
    cases id with
    | none => exact h0
    | some i =>
      by_cases hr : i = "" ∨ ¬ exists? s i = true
      · unfold unregister
        simp only
        rw [if_pos hr]
        exact h0
      · have h1 : i ≠ "" := fun e => hr (Or.inl e)
        have he : exists? s i = true := by
          cases hb : exists? s i with
          | true => rfl
          | false => exact absurd (Or.inr (by simp [hb])) hr
        rw [(unregister_existing s ts i h1 he).2.2.1, h0]
        simp
  | requestCoordinatorSwitch ts id =>
    simp only [step, Option.some.injEq] at h
    subst h
    by_cases he : exists? s id = true
    · right; right
      exact ⟨ts, id, rfl, he, by simp [requestCoordinatorSwitch, he, addLog, emit]⟩
    · left
      simp [requestCoordinatorSwitch, he, h0]
  | manualUpdate ts wid st =>
    simp only [step, Option.some.injEq] at h
    subst h
    left
    unfold manualUpdate
    split
    · cases ha : assignStatus s wid st with
      | some s1 =>
        simp only [addLog_coordinator_obj, emit_coordinator_obj]
        rw [assignStatus_coordinator s s1 wid st ha]
        exact h0
      | none => exact h0
    · exact h0
  | manualUnregister ts wid =>
    simp only [step, Option.some.injEq] at h
    subst h
    left
    unfold manualUnregister
    split
    · simp only [addLog_coordinator_obj, emit_coordinator_obj]
      split
      · rfl
      · exact h0
    · exact h0
  | startSort clock rand fuel algorithm arrayLength =>
    left
    simp only [step] at h
    cases hr : startSort algorithmKeys s clock rand fuel algorithm arrayLength with
    | none => rw [hr] at h; cases h
    | some r =>
      rw [hr] at h
      simp only [Option.map_some', Option.some.injEq] at h
      subst h
      exact startSort_none_coordinator algorithmKeys s clock rand fuel algorithm arrayLength r
        h0 hr

end WebsiteFinal

/-! ## The claims about validation and about the election -/

namespace Registry

open Server

/-- Claim C25.  In `backend/server.js` a register request with a missing or
empty id, name or status is answered with `400` and leaves the whole state
(worker map, coordinator reference, log, events broadcast) as it was, and a
register request is answered with an error exactly in that case; in both
servers a start-sort request with a missing or empty algorithm, with an
`arrayLength` that is missing, not an integer or not positive, or with an
algorithm key that is not in the list is answered with `400` and leaves the
whole state as it was, whatever the fuel: the engine is not called.  In
`WebsiteFinal/backend/server.js` the register handler rejects exactly when the
id or the name is missing or empty or the read `req.body.status` yields nothing
or the empty string; the read is the field of the body as long as nothing has
assigned `Object.prototype.status`, but once the id `__proto__` has registered
with the status `connected`, a request for `w1` that has no status at all is
accepted: the worker is created with the inherited status and elected. -/
theorem validation_rejects_at_boundary :
    (∀ (s : Backend.State) (now : Nat) (ts : String) (id name status : Option String),
      ((truthy id = false ∨ truthy name = false ∨ truthy status = false) →
        Backend.register s now ts id name status =
          (s, Response.error 400 "id, name, and status are required")) ∧
      ((∃ code msg, (Backend.register s now ts id name status).2 = Response.error code msg) ↔
        (truthy id = false ∨ truthy name = false ∨ truthy status = false))) ∧
    (∀ (algorithmKeys : List String) (s : Backend.State) (clock : Nat → String)
      (rand : Nat → Nat) (fuel : Nat) (algorithm : Option String) (arrayLength : ArrayLength),
      (truthy algorithm = false ∨ arrayLength = ArrayLength.missing ∨
        arrayLength = ArrayLength.notInteger ∨
        (∃ n, arrayLength = ArrayLength.integer n ∧ n ≤ 0) ∨
        (∃ a, algorithm = some a ∧ a ∉ algorithmKeys)) →
      ∃ msg, Backend.startSort algorithmKeys s clock rand fuel algorithm arrayLength =
        some (s, Response.error 400 msg)) ∧
    (∀ (s : WebsiteFinal.State) (now : Nat) (ts : String) (id name status : Option String),
      ((truthy id = false ∨ truthy name = false ∨
          truthy (WebsiteFinal.bodyStatus s status) = false) →
        WebsiteFinal.register s now ts id name status =
          (s, Response.error 400 "id, name, and status are required")) ∧
      ((∃ code msg,
          (WebsiteFinal.register s now ts id name status).2 = Response.error code msg) ↔
        (truthy id = false ∨ truthy name = false ∨
          truthy (WebsiteFinal.bodyStatus s status) = false)) ∧
      (s.prototypeStatus = none → WebsiteFinal.bodyStatus s status = status)) ∧
    (∀ (algorithmKeys : List String) (s : WebsiteFinal.State) (clock : Nat → String)
      (rand : Nat → Nat) (fuel : Nat) (algorithm : Option String) (arrayLength : ArrayLength),
      (truthy algorithm = false ∨ arrayLength = ArrayLength.missing ∨
        arrayLength = ArrayLength.notInteger ∨
        (∃ n, arrayLength = ArrayLength.integer n ∧ n ≤ 0) ∨
        (∃ a, algorithm = some a ∧ a ∉ algorithmKeys)) →
      ∃ msg, WebsiteFinal.startSort algorithmKeys s clock rand fuel algorithm arrayLength =
        some (s, Response.error 400 msg)) ∧
    (truthy (none : Option String) = false ∧
      WebsiteFinal.register
          (WebsiteFinal.register WebsiteFinal.State.empty 1 "t0" (some "__proto__") (some "x")
            (some "connected")).1 2 "t1" (some "w1") (some "a") none =
        ({ workers := [("w1", { name := "a", status := "connected", createdAt := 2 })],
           prototypeStatus := some "connected", currentCoordinatorId := some "w1",
           logBuffer := ["[t0] Worker __proto__ status updated → connected",
                         "[t1] First worker w1 became Coordinator"],
           emitted := [Event.logUpdate "[t0] Worker __proto__ status updated → connected",
                       Event.workerUpdated "__proto__" "connected",
                       Event.logUpdate "[t1] First worker w1 became Coordinator",
                       Event.workerAdded "w1" "a" "connected" 2 (some "w1")] },
         Response.ok (some "w1")) ∧
      (Backend.register
          (Backend.register Backend.State.empty 1 "t0" (some "__proto__") (some "x")
            (some "connected")).1 2 "t1" (some "w1") (some "a") none).2 =
        Response.error 400 "id, name, and status are required") := by
  refine ⟨?_, ?_, ?_, ?_, by decide, by decide, by decide⟩
  · intro s now ts id name status
    refine ⟨Backend.register_rejected s now ts id name status, ?_, ?_⟩
    · rintro ⟨code, msg, h⟩
      by_contra hr
      cases id with
      | none => exact hr (Or.inl rfl)
      | some i =>
        cases name with
        | none => exact hr (Or.inr (Or.inl rfl))
        | some n =>
          cases status with
          | none => exact hr (Or.inr (Or.inr rfl))
          | some st =>
            have h1 : i ≠ "" := by
              intro e; exact hr (Or.inl (by simp [truthy, e]))
            have h2 : n ≠ "" := by
              intro e; exact hr (Or.inr (Or.inl (by simp [truthy, e])))
            have h3 : st ≠ "" := by
              intro e; exact hr (Or.inr (Or.inr (by simp [truthy, e])))
            obtain ⟨c, hc⟩ := Backend.register_accepted s now ts i n st h1 h2 h3
            rw [hc] at h
            cases h
    · intro hr
      rw [Backend.register_rejected s now ts id name status hr]
      exact ⟨_, _, rfl⟩
  · intro algorithmKeys s clock rand fuel algorithm arrayLength h
    exact Backend.startSort_rejected algorithmKeys s clock rand fuel algorithm arrayLength h
  · intro s now ts id name status
    refine ⟨WebsiteFinal.register_rejected_obj s now ts id name status, ?_, ?_⟩
    · constructor
      · rintro ⟨code, msg, h⟩
        rcases WebsiteFinal.register_cases s now ts id name status with ⟨hr, -⟩ |
          ⟨i, n, st, -, -, -, h1, h2, h3, heq⟩
        · exact hr
        · rw [heq] at h
          exact absurd h (WebsiteFinal.register_not_error s now ts i n st h1 h2 h3 code msg)
      · intro hr
        rw [WebsiteFinal.register_rejected_obj s now ts id name status hr]
        exact ⟨_, _, rfl⟩
    · intro hp
      cases status with
      | some v => rfl
      | none => exact hp
  · intro algorithmKeys s clock rand fuel algorithm arrayLength h
    exact WebsiteFinal.startSort_rejected_obj algorithmKeys s clock rand fuel algorithm
      arrayLength h

/-- Claim C29.  In both servers a register request for an id that is present
leaves the coordinator reference as it is, so a series of such requests (the
heartbeats of the workers that remain) made while the reference is empty leaves
it empty; and from a state without coordinator an operation leaves a
coordinator behind only if it is the registration of an id that no worker had,
or a coordinator switch. -/
theorem election_only_on_new_id (sB : Backend.State) (sW : WebsiteFinal.State)
    (beats : List (Nat × String × String × Option String × Option String))
    (hB : sB.currentCoordinatorId = none) (hW : sW.currentCoordinatorId = none)
    (hpB : ∀ b ∈ beats, Backend.has sB.workers b.2.2.1 = true)
    (hpW : ∀ b ∈ beats, (sW.workers.lookup b.2.2.1).isSome = true) :
    ((beats.foldl (fun st b =>
        (Backend.register st b.1 b.2.1 (some b.2.2.1) b.2.2.2.1 b.2.2.2.2).1)
        sB).currentCoordinatorId = none ∧
      (∀ (now : Nat) (ts id : String) (name status : Option String),
        Backend.has sB.workers id = true →
        (Backend.register sB now ts (some id) name status).1.currentCoordinatorId = none) ∧
      (∀ (algorithmKeys : List String) (op : Backend.Op) (s' : Backend.State),
        Backend.step algorithmKeys sB op = some s' →
        s'.currentCoordinatorId = none ∨
        (∃ now ts id name status, op = Backend.Op.register now ts (some id) name status ∧
          Backend.has sB.workers id = false ∧ s'.currentCoordinatorId = some id) ∨
        (∃ ts id, op = Backend.Op.requestCoordinatorSwitch ts id ∧
          Backend.has sB.workers id = true ∧ s'.currentCoordinatorId = some id))) ∧
    ((beats.foldl (fun st b =>
        (WebsiteFinal.register st b.1 b.2.1 (some b.2.2.1) b.2.2.2.1 b.2.2.2.2).1)
        sW).currentCoordinatorId = none ∧
      (∀ (now : Nat) (ts id : String) (name status : Option String),
        (sW.workers.lookup id).isSome = true →
        (WebsiteFinal.register sW now ts (some id) name status).1.currentCoordinatorId =
          none) ∧
      (∀ (algorithmKeys : List String) (op : WebsiteFinal.Op) (s' : WebsiteFinal.State),
        WebsiteFinal.step algorithmKeys sW op = some s' →
        s'.currentCoordinatorId = none ∨
        (∃ now ts id name status,
          op = WebsiteFinal.Op.register now ts (some id) name status ∧
          (sW.workers.lookup id).isSome = false ∧ s'.currentCoordinatorId = some id) ∨
        (∃ ts id, op = WebsiteFinal.Op.requestCoordinatorSwitch ts id ∧
          WebsiteFinal.exists? sW id = true ∧ s'.currentCoordinatorId = some id))) := by
  refine ⟨⟨?_, ?_, ?_⟩, ?_, ?_, ?_⟩
  · rw [Backend.heartbeats_coordinator beats sB hpB]; exact hB
  · intro now ts id name status hp
    rw [Backend.register_present_coordinator sB now ts id name status hp]; exact hB
  · intro algorithmKeys op s' h
    exact Backend.step_elects algorithmKeys sB s' op hB h
  · rw [WebsiteFinal.heartbeats_coordinator_obj beats sW hpW]; exact hW
  · intro now ts id name status hp
    rw [WebsiteFinal.register_existing_coordinator sW now ts id name status
      (WebsiteFinal.exists_of_record sW id hp)]
    exact hW
  · intro algorithmKeys op s' h
    exact WebsiteFinal.step_elects_obj algorithmKeys sW s' op hW h

/-- Claim C29 on the registries left by a coordinator that has unregistered:
three heartbeats of the remaining worker `w2` leave the registry without
coordinator, in both servers. -/
theorem election_only_on_new_id_witness :
    (orphanedBackend.currentCoordinatorId = none ∧
      orphanedWebsiteFinal.currentCoordinatorId = none ∧
      (∀ b ∈ [(3, "t3", "w2", some "b", some "connected"),
          (4, "t4", "w2", some "b", some "connected"),
          (5, "t5", "w2", some "b", some "connected")],
        Backend.has orphanedBackend.workers b.2.2.1 = true) ∧
      (∀ b ∈ [(3, "t3", "w2", some "b", some "connected"),
          (4, "t4", "w2", some "b", some "connected"),
          (5, "t5", "w2", some "b", some "connected")],
        (orphanedWebsiteFinal.workers.lookup b.2.2.1).isSome = true)) ∧
    ([(3, "t3", "w2", some "b", some "connected"), (4, "t4", "w2", some "b", some "connected"),
        (5, "t5", "w2", some "b", some "connected")].foldl (fun st b =>
        (Backend.register st b.1 b.2.1 (some b.2.2.1) b.2.2.2.1 b.2.2.2.2).1)
        orphanedBackend).currentCoordinatorId = none ∧
    ([(3, "t3", "w2", some "b", some "connected"), (4, "t4", "w2", some "b", some "connected"),
        (5, "t5", "w2", some "b", some "connected")].foldl (fun st b =>
        (WebsiteFinal.register st b.1 b.2.1 (some b.2.2.1) b.2.2.2.1 b.2.2.2.2).1)
        orphanedWebsiteFinal).currentCoordinatorId = none ∧
    (Backend.register orphanedBackend 6 "t6" (some "w3") (some "c")
        (some "connected")).1.currentCoordinatorId = some "w3" :=
  ⟨⟨by decide, by decide, by decide, by decide⟩,
   (election_only_on_new_id orphanedBackend orphanedWebsiteFinal
      [(3, "t3", "w2", some "b", some "connected"), (4, "t4", "w2", some "b", some "connected"),
        (5, "t5", "w2", some "b", some "connected")]
      (by decide) (by decide) (by decide) (by decide)).1.1,
   (election_only_on_new_id orphanedBackend orphanedWebsiteFinal
      [(3, "t3", "w2", some "b", some "connected"), (4, "t4", "w2", some "b", some "connected"),
        (5, "t5", "w2", some "b", some "connected")]
      (by decide) (by decide) (by decide) (by decide)).2.1,
   by decide⟩

end Registry
